import Mathlib

/-!
# TLBLib: a shallow embedding of the protocol engine

The driver of `src/TLBLib.cpp` talks to its platform through `digitalRead`, `millis`,
`micros`, `delay`, `digitalWrite`, `pinMode` and two user callbacks.  The embedding
threads an explicit history of these interactions (`List Event`, oldest first) through
every function.  The platform is an `Env`: what the line and the two clocks answer is a
function of the whole history so far, which covers every deterministic device and clock.

Loops of the source that wait on the line have no static bound, so every loop is a
recursive function on a `fuel` argument.  A function that runs out of fuel answers `none`
and still hands back the history it produced up to that point.
-/

namespace TLB

/-! ## Data model -/

/-- Return values of `send` (enum `sendError` of `TLBLib.h`). -/
inductive sendError
  | FAIL
  | SUCCESS
  | REPEAT
deriving DecidableEq, Repr

/-- One entry of the interaction history.  The first eight constructors are calls the
driver makes to the platform or to a user callback, with the value exchanged.  The last
five record internal steps of the driver that the properties speak about: a read of the
message buffer, the two kinds of checksum update, the entry into `send_opcode` and the
value returned by `wait_ENA`. -/
inductive Event
  | read (level : Bool)
  | millis (t : Nat)
  | micros (t : Nat)
  | delay (ms : Nat)
  | write (level : Bool)
  | mode (output : Bool)
  | sent (byte : Nat)
  | error (duration : Nat)
  | load (index : Nat)
  | crcSeed (byte : Nat)
  | crcAbsorb (byte : Nat)
  | opcodeFrame (opcode : Nat)
  | waitDone (level : Bool) (ok : Bool)
deriving DecidableEq, Repr

/-- The platform: the width of `unsigned long` (not fixed by the repository), and what the
enable line and the two free-running clocks answer after a given history.  The clocks are
given as unbounded counts; the driver sees them modulo `2 ^ ulongBits`. -/
structure Env where
  ulongBits : Nat
  digitalRead : List Event → Bool
  millis : List Event → Nat
  micros : List Event → Nat

/-- Data members of class `TLBLib`.  The two callback members that may be null are kept as
flags (`true` = a function is registered); the pin number is not modelled, there is one
line.  The defaults of the five timing constants are those of `TLBLib.h`.  The constructor
sets `_sendFunction` and initialises neither `_errorFunction` nor the two timers: their
defaults here (no error callback, both timers 0) are those of an object with static
storage. -/
structure TLBLib where
  KEEP_ALIVE_RATE_ms : Nat := 1000
  MIN_MESSAGE_RATE_ms : Nat := 5
  RPT_TIMEOUT_ms : Nat := 6
  REQ_TIMEOUT_us : Nat := 200
  ACK_TIMEOUT_us : Nat := 200
  _sendFunction : Bool := true
  _errorFunction : Bool := false
  keep_alive_timer : Nat := 0
  message_rate_timer : Nat := 0
deriving DecidableEq, Repr

/-- Opcode of the turn-off frame (`TLBLib.h`). -/
def TURN_OFF_OPCODE : Nat := 0xC0

/-- Opcode of the keep-alive frame (`TLBLib.h`). -/
def KEEP_ALIVE_OPCODE : Nat := 0xC3

/-! ## Platform primitives -/

/-- Subtraction of two `unsigned long` values. -/
def usub (E : Env) (a b : Nat) : Nat :=
  (a + 2 ^ E.ulongBits - b % 2 ^ E.ulongBits) % 2 ^ E.ulongBits

/-- Call of `digitalRead(_ENA_pin)`. -/
def digitalRead (E : Env) (tr : List Event) : Bool × List Event :=
  (E.digitalRead tr, tr ++ [Event.read (E.digitalRead tr)])

/-- Call of `millis()`. -/
def millis (E : Env) (tr : List Event) : Nat × List Event :=
  (E.millis tr % 2 ^ E.ulongBits, tr ++ [Event.millis (E.millis tr % 2 ^ E.ulongBits)])

/-- Call of `micros()`. -/
def micros (E : Env) (tr : List Event) : Nat × List Event :=
  (E.micros tr % 2 ^ E.ulongBits, tr ++ [Event.micros (E.micros tr % 2 ^ E.ulongBits)])

/-- Call of `delay(ms)`. -/
def delay (ms : Nat) (tr : List Event) : List Event :=
  tr ++ [Event.delay ms]

/-- Element `data[i]` of the caller's buffer of `uint8_t`; outside the list the model
reads 0. -/
def readByte (data : List Nat) (i : Nat) : Nat :=
  data.getD i 0 % 256

/-! ## The driver -/

/-- Loop of `wait_ENA`: poll while the elapsed microseconds do not exceed `timeout`. -/
def wait_ENA_loop (E : Env) (state : Bool) (timeout timeout_timer : Nat) :
    Nat → List Event → Option Bool × List Event
  | 0, tr => (none, tr)
  | fuel + 1, tr =>
    if usub E (micros E tr).1 timeout_timer ≤ timeout then
      if (digitalRead E (micros E tr).2).1 = state then
        (some true, (digitalRead E (micros E tr).2).2)
      else
        wait_ENA_loop E state timeout timeout_timer fuel (digitalRead E (micros E tr).2).2
    else
      (some false, (micros E tr).2)

/-- Function `TLBLib::wait_ENA`. -/
def wait_ENA (E : Env) (state : Bool) (timeout : Nat) (fuel : Nat) (tr : List Event) :
    Option Bool × List Event :=
  match wait_ENA_loop E state timeout (micros E tr).1 fuel (micros E tr).2 with
  | (some r, tr1) => (some r, tr1 ++ [Event.waitDone state r])
  | (none, tr1) => (none, tr1)

/-- The statement `while (digitalRead(_ENA_pin));` used by `send`, `turnOff` and
`check_error_pulse`. -/
def wait_while_high (E : Env) : Nat → List Event → Option Unit × List Event
  | 0, tr => (none, tr)
  | fuel + 1, tr =>
    if (digitalRead E tr).1 then wait_while_high E fuel (digitalRead E tr).2
    else (some (), (digitalRead E tr).2)

/-- Function `TLBLib::start_ENA`. -/
def start_ENA (tr : List Event) : List Event :=
  tr ++ [Event.write true, Event.mode true]

/-- Function `TLBLib::stop_ENA`. -/
def stop_ENA (tr : List Event) : List Event :=
  tr ++ [Event.write false, Event.mode false]

/-- Function `TLBLib::send_byte`; `crc = none` is the null pointer default.  Returns the
updated checksum. -/
def send_byte (self : TLBLib) (data : Nat) (crc : Option Nat) (tr : List Event) :
    Option Nat × List Event :=
  match crc with
  | some c =>
    (some (c ^^^ data),
      if self._sendFunction then
        tr ++ [Event.crcAbsorb data] ++ [Event.sent ((0xFF ^^^ data) % 256)]
      else tr ++ [Event.crcAbsorb data])
  | none =>
    (none, if self._sendFunction then tr ++ [Event.sent ((0xFF ^^^ data) % 256)] else tr)

/-- Function `TLBLib::send_opcode`. -/
def send_opcode (E : Env) (self : TLBLib) (opcode : Nat) (fuel : Nat) (tr : List Event) :
    Option Bool × List Event :=
  match wait_ENA E false self.ACK_TIMEOUT_us fuel (tr ++ [Event.opcodeFrame opcode]) with
  | (none, tr1) => (none, tr1)
  | (some false, tr1) => (some false, tr1)
  | (some true, tr1) =>
    match wait_ENA E false self.ACK_TIMEOUT_us fuel
        (stop_ENA (send_byte self opcode none (start_ENA tr1)).2) with
    | (none, tr2) => (none, tr2)
    | (some false, tr2) => (some false, tr2)
    | (some true, tr2) => (some true, tr2)

/-- Function `TLBLib::exit_send`. -/
def exit_send (E : Env) (self : TLBLib) (ret_value : sendError) (tr : List Event) :
    Option sendError × TLBLib × List Event :=
  let tr1 :=
    if ret_value = sendError.SUCCESS then
      if self.MIN_MESSAGE_RATE_ms > self.RPT_TIMEOUT_ms then
        delay (self.MIN_MESSAGE_RATE_ms - self.RPT_TIMEOUT_ms) tr
      else tr
    else delay self.MIN_MESSAGE_RATE_ms tr
  (some ret_value, { self with message_rate_timer := (millis E tr1).1 }, (millis E tr1).2)

/-- Lines 159-173 of `send`: the loop that watches for a repeat pulse, and the exits. -/
def send_repeat_loop (E : Env) (self : TLBLib) (repeat_pulse_timer : Nat) :
    Nat → List Event → Option sendError × TLBLib × List Event
  | 0, tr => (none, self, tr)
  | fuel + 1, tr =>
    if usub E (millis E tr).1 repeat_pulse_timer < self.RPT_TIMEOUT_ms then
      if (digitalRead E (millis E tr).2).1 then
        match wait_while_high E fuel (digitalRead E (millis E tr).2).2 with
        | (none, tr1) => (none, self, tr1)
        | (some _, tr1) => exit_send E self sendError.REPEAT tr1
      else
        send_repeat_loop E self repeat_pulse_timer fuel (digitalRead E (millis E tr).2).2
    else
      exit_send E self sendError.SUCCESS (millis E tr).2

/-- Lines 150-173 of `send`: checksum byte, its acknowledge, the repeat window. -/
def send_finish (E : Env) (self : TLBLib) (crc : Nat) (fuel : Nat) (tr : List Event) :
    Option sendError × TLBLib × List Event :=
  match wait_ENA E false self.ACK_TIMEOUT_us fuel
      (send_byte self ((crc + 255) % 256) none tr).2 with
  | (none, tr1) => (none, self, tr1)
  | (some false, tr1) => exit_send E self sendError.FAIL tr1
  | (some true, tr1) => send_repeat_loop E self (millis E tr1).1 fuel (millis E tr1).2

/-- The `for` loop of `send` from index `i` on, followed by the rest of the function. -/
def send_loop (E : Env) (self : TLBLib) (data : List Nat) (data_length : Nat) :
    Nat → Nat → Nat → List Event → Option sendError × TLBLib × List Event
  | 0, _, _, tr => (none, self, tr)
  | fuel + 1, i, crc, tr =>
    if i < data_length then
      match
        (if i = 0 then send_byte self data_length (some crc) tr
         else send_byte self (readByte data (i + 1)) (some crc) (tr ++ [Event.load (i + 1)]))
      with
      | (crc1, tr1) =>
        match wait_ENA E false self.ACK_TIMEOUT_us fuel tr1 with
        | (none, tr2) => (none, self, tr2)
        | (some false, tr2) => exit_send E self sendError.FAIL tr2
        | (some true, tr2) =>
          match wait_ENA E true self.REQ_TIMEOUT_us fuel tr2 with
          | (none, tr3) => (none, self, tr3)
          | (some false, tr3) => exit_send E self sendError.FAIL tr3
          | (some true, tr3) =>
            send_loop E self data data_length fuel ((i + 1) % 256) (crc1.getD crc) tr3
    else
      send_finish E self crc fuel tr

/-- Function `TLBLib::send`. -/
def send (E : Env) (self : TLBLib) (data : List Nat) (fuel : Nat) (tr : List Event) :
    Option sendError × TLBLib × List Event :=
  match send_opcode E self (readByte data 0) fuel (tr ++ [Event.load 0]) with
  | (none, tr1) => (none, self, tr1)
  | (some false, tr1) => exit_send E self sendError.FAIL tr1
  | (some true, tr1) =>
    match wait_ENA E true self.REQ_TIMEOUT_us fuel tr1 with
    | (none, tr2) => (none, self, tr2)
    | (some false, tr2) => exit_send E self sendError.FAIL tr2
    | (some true, tr2) =>
      send_loop E self data ((readByte data 1 + 1) % 256) fuel 0 (readByte data 0)
        (tr2 ++ [Event.load 1] ++ [Event.crcSeed (readByte data 0)])

/-- Inner loop of `turnOff` (lines 73-90).  `some true`: a pulse was seen and `turnOff`
returns; `some false`: the window elapsed. -/
def turnOff_window (E : Env) (self : TLBLib) (pulse_timer : Nat) :
    Nat → List Event → Option Bool × TLBLib × List Event
  | 0, tr => (none, self, tr)
  | fuel + 1, tr =>
    if usub E (millis E tr).1 pulse_timer < self.RPT_TIMEOUT_ms then
      if (digitalRead E (millis E tr).2).1 then
        match wait_while_high E fuel (digitalRead E (millis E tr).2).2 with
        | (none, tr1) => (none, self, tr1)
        | (some _, tr1) =>
          (some true, { self with message_rate_timer := (millis E tr1).1 },
            delay self.MIN_MESSAGE_RATE_ms (millis E tr1).2)
      else
        turnOff_window E self pulse_timer fuel (digitalRead E (millis E tr).2).2
    else
      (some false, self, (millis E tr).2)

/-- Outer loop of `turnOff` (lines 60-97). -/
def turnOff_loop (E : Env) (self : TLBLib) :
    Nat → Nat → List Event → Option Unit × TLBLib × List Event
  | 0, _, tr => (none, self, tr)
  | fuel + 1, attempt_counter, tr =>
    match send_opcode E self TURN_OFF_OPCODE fuel tr with
    | (none, tr1) => (none, self, tr1)
    | (some _, tr1) =>
      if attempt_counter ≥ 10 then (some (), self, tr1)
      else
        match turnOff_window E self (millis E tr1).1 fuel (millis E tr1).2 with
        | (none, self1, tr2) => (none, self1, tr2)
        | (some true, self1, tr2) => (some (), self1, tr2)
        | (some false, _, tr2) =>
          turnOff_loop E self fuel ((attempt_counter + 1) % 256)
            (if self.MIN_MESSAGE_RATE_ms > self.RPT_TIMEOUT_ms then
              delay (self.MIN_MESSAGE_RATE_ms - self.RPT_TIMEOUT_ms) tr2
             else tr2)

/-- Function `TLBLib::turnOff`. -/
def turnOff (E : Env) (self : TLBLib) (fuel : Nat) (tr : List Event) :
    Option Unit × TLBLib × List Event :=
  turnOff_loop E self fuel 0
    (if usub E (millis E tr).1 self.message_rate_timer < self.MIN_MESSAGE_RATE_ms then
      delay (self.MIN_MESSAGE_RATE_ms - usub E (millis E tr).1 self.message_rate_timer)
        (millis E tr).2
     else (millis E tr).2)

/-- Function `TLBLib::keep_alive`. -/
def keep_alive (E : Env) (self : TLBLib) (fuel : Nat) (tr : List Event) :
    Option Unit × TLBLib × List Event :=
  if usub E (millis E tr).1 self.keep_alive_timer ≥ self.KEEP_ALIVE_RATE_ms then
    match send_opcode E self KEEP_ALIVE_OPCODE fuel
      (if usub E (millis E (millis E tr).2).1 self.message_rate_timer <
          self.MIN_MESSAGE_RATE_ms then
        delay (self.MIN_MESSAGE_RATE_ms -
            usub E (millis E (millis E tr).2).1 self.message_rate_timer)
          (millis E (millis E tr).2).2
       else (millis E (millis E tr).2).2) with
    | (none, tr1) => (none, self, tr1)
    | (some _, tr1) =>
      (some (),
        { self with keep_alive_timer := (millis E tr1).1,
                    message_rate_timer := (millis E (millis E tr1).2).1 },
        (millis E (millis E tr1).2).2)
  else (some (), self, (millis E tr).2)

/-- Function `TLBLib::check_error_pulse`. -/
def check_error_pulse (E : Env) (self : TLBLib) (fuel : Nat) (tr : List Event) :
    Option Unit × List Event :=
  if (digitalRead E tr).1 then
    match wait_while_high E fuel (millis E (digitalRead E tr).2).2 with
    | (none, tr1) => (none, tr1)
    | (some _, tr1) =>
      (some (),
        if self._errorFunction then
          (millis E tr1).2 ++
            [Event.error (usub E (millis E tr1).1 (millis E (digitalRead E tr).2).1)]
        else (millis E tr1).2)
  else (some (), (digitalRead E tr).2)

/-- Function `TLBLib::update`. -/
def update (E : Env) (self : TLBLib) (fuel : Nat) (tr : List Event) :
    Option Unit × TLBLib × List Event :=
  match keep_alive E self fuel tr with
  | (none, self1, tr1) => (none, self1, tr1)
  | (some _, self1, tr1) =>
    ((check_error_pulse E self1 fuel tr1).1, self1, (check_error_pulse E self1 fuel tr1).2)

/-! ## Reading the history -/

/-- Byte handed to the byte-transfer callback, if the entry is such a call. -/
def Event.sentByte : Event → Option Nat
  | Event.sent b => some b
  | _ => none

/-- Bytes handed to the byte-transfer callback, in order. -/
def sentBytes (ev : List Event) : List Nat := ev.filterMap Event.sentByte

/-- Byte that enters the checksum accumulator, as seed or by exclusive-or. -/
def Event.crcByte : Event → Option Nat
  | Event.crcSeed b => some b
  | Event.crcAbsorb b => some b
  | _ => none

/-- Bytes folded into the checksum accumulator, in order, the seed first. -/
def crcBytes (ev : List Event) : List Nat := ev.filterMap Event.crcByte

/-- Argument of a `delay` call. -/
def Event.delayArg : Event → Option Nat
  | Event.delay n => some n
  | _ => none

/-- Arguments of the `delay` calls, in order. -/
def delays (ev : List Event) : List Nat := ev.filterMap Event.delayArg

/-- Opcode of an opcode frame that is started. -/
def Event.frameOpcode : Event → Option Nat
  | Event.opcodeFrame op => some op
  | _ => none

/-- Opcodes with which `send_opcode` was entered, in order. -/
def frames (ev : List Event) : List Nat := ev.filterMap Event.frameOpcode

/-- Entries produced by polling: a sample of the line or a read of the microsecond clock. -/
def Event.isPoll : Event → Bool
  | Event.micros _ => true
  | Event.read _ => true
  | _ => false

/-- A stretch of history made of polling only. -/
def Polls (p : List Event) : Prop := ∀ e ∈ p, e.isPoll = true

/-- A wait for the line that ran into its timeout. -/
def Event.isTimeout : Event → Bool
  | Event.waitDone _ false => true
  | _ => false

/-- The history after the first wait that timed out, if there is one. -/
def afterTimeout : List Event → Option (List Event)
  | [] => none
  | e :: es => if e.isTimeout then some es else afterTimeout es

/-- Entries that occur while a frame is being transmitted: everything except a wait that
timed out, a read of the millisecond clock, a delay and an error report. -/
def Event.isFrame : Event → Bool
  | Event.waitDone _ false => false
  | Event.millis _ => false
  | Event.delay _ => false
  | Event.error _ => false
  | _ => true

/-- A stretch of history in which a frame is transmitted and no wait has failed. -/
def Frame (p : List Event) : Prop := ∀ e ∈ p, e.isFrame = true

/-- A stretch of history inside the window that follows a frame: reads of the millisecond
clock that are less than `limit` past `timer`, each followed by a low sample. -/
inductive Lows (E : Env) (limit timer : Nat) : List Event → Prop
  | nil : Lows E limit timer []
  | cons (t : Nat) (p : List Event) : usub E t timer < limit → Lows E limit timer p →
      Lows E limit timer (Event.millis t :: Event.read false :: p)

/-- Logical byte sent by the loop of `send` at index `i`. -/
def loopByte (data : List Nat) (data_length i : Nat) : Nat :=
  if i = 0 then data_length else readByte data (i + 1)

/-- Logical bytes sent by the loop of `send` from index `i` on. -/
def loopBytes (data : List Nat) (data_length i : Nat) : List Nat :=
  (List.range' i (data_length - i)).map (loopByte data data_length)

/-- Bytes that reach the byte channel from index `i` of the loop on, the checksum byte
included, when the accumulator holds `c`. -/
def wireFrom (data : List Nat) (data_length i c : Nat) : List Nat :=
  (loopBytes data data_length i).map (fun b => 0xFF ^^^ b) ++
    [0xFF ^^^ (((loopBytes data data_length i).foldl (fun c b => c ^^^ b) c + 255) % 256)]

/-- The `delay` call made by `exit_send`, if any. -/
def exitDelay (self : TLBLib) (r : sendError) : List Event :=
  if r = sendError.SUCCESS then
    if self.RPT_TIMEOUT_ms < self.MIN_MESSAGE_RATE_ms then
      [Event.delay (self.MIN_MESSAGE_RATE_ms - self.RPT_TIMEOUT_ms)]
    else []
  else [Event.delay self.MIN_MESSAGE_RATE_ms]

/-- What `send_opcode` writes between its two waits: the line is driven high, the opcode
goes to the byte channel if a callback is registered, the line is released. -/
def driveEvents (self : TLBLib) (opcode : Nat) : List Event :=
  [Event.write true, Event.mode true] ++
    ((if self._sendFunction then [Event.sent ((0xFF ^^^ opcode) % 256)] else []) ++
      [Event.write false, Event.mode false])

/-- A byte was handed to the byte channel and the line was sampled low afterwards. -/
def LowSeen (p : List Event) : Prop :=
  ∃ a x b, p = a ++ Event.sent x :: b ∧ Event.read false ∈ b

/-- The ways in which the frame phase of `send` ends after the history `tr ++ pre`: out of
fuel, or a wait that timed out, followed by `exit_send(FAIL)` (both with `acked = false`),
or the acknowledge of the checksum byte, followed by the repeat window (`acked = true`). -/
def FrameEnds (E : Env) (self : TLBLib) (tr pre : List Event) (acked : Bool)
    (res : Option sendError × TLBLib × List Event) : Prop :=
  (acked = false ∧ res = (none, self, tr ++ pre)) ∨
  (acked = false ∧ ∃ st,
    res = exit_send E self sendError.FAIL (tr ++ (pre ++ [Event.waitDone st false]))) ∨
  (acked = true ∧ ∃ fuel,
    res = send_repeat_loop E self (millis E (tr ++ (pre ++ [Event.waitDone false true]))).1
      fuel (millis E (tr ++ (pre ++ [Event.waitDone false true]))).2)

/-- Entries that neither drive the line, nor call a callback, nor touch the message or
the checksum: samples, clock reads, delays and results of waits. -/
def Event.isQuiet : Event → Bool
  | Event.read _ => true
  | Event.millis _ => true
  | Event.micros _ => true
  | Event.delay _ => true
  | Event.waitDone _ _ => true
  | _ => false

/-- A stretch of history in which the driver only watches the line and the clocks. -/
def Quiet (p : List Event) : Prop := ∀ e ∈ p, e.isQuiet = true

/-- Entries written while the driver watches the line after a frame: samples, reads of the
millisecond clock and delays. -/
def Event.isWatch : Event → Bool
  | Event.read _ => true
  | Event.millis _ => true
  | Event.delay _ => true
  | _ => false

/-- A stretch of history in which the driver only samples, reads the millisecond clock and
delays. -/
def Watch (p : List Event) : Prop := ∀ e ∈ p, e.isWatch = true

/-- The line is sampled high and, later, sampled low. -/
def HighThenLow (win : List Event) : Prop :=
  ∃ a b, win = a ++ Event.read true :: b ∧ Event.read false ∈ b

/-- A monotonic millisecond clock on which `delay(n)` takes at least `n` milliseconds: the
count never decreases as the history grows, and grows by `n` or more over a `delay(n)`. -/
def MonotonicClock (E : Env) : Prop :=
  (∀ tr e, E.millis tr ≤ E.millis (tr ++ [e])) ∧
  (∀ tr n, E.millis tr + n ≤ E.millis (tr ++ [Event.delay n]))

/-- A read of the millisecond clock. -/
def Event.isMillis : Event → Bool
  | Event.millis _ => true
  | _ => false

/-- The history after the first high sample that directly follows a read of the millisecond
clock, that is after the first high sample taken in a window that follows a frame. -/
def afterHighSample : List Event → Option (List Event)
  | [] => none
  | e :: es =>
    if e.isMillis = true ∧ es.head? = some (Event.read true) then some es.tail
    else afterHighSample es

/-! ## The message of `send` -/

/-- Payload bytes `m[2], ..., m[L+1]` of a message with declared length `L`. -/
def payload (data : List Nat) (L : Nat) : List Nat :=
  (List.range L).map (fun k => readByte data (k + 2))

/-- Logical bytes covered by the checksum: opcode, length byte `L + 1`, payload. -/
def covered (data : List Nat) : List Nat :=
  readByte data 0 :: (readByte data 1 + 1) :: payload data (readByte data 1)

/-- Exclusive-or of the bytes covered by the checksum. -/
def accumulator (data : List Nat) : Nat :=
  (payload data (readByte data 1)).foldl (fun c b => c ^^^ b)
    (readByte data 0 ^^^ (readByte data 1 + 1))

/-- Checksum byte of a message: the accumulator minus one, as a byte. -/
def checksum (data : List Nat) : Nat := (accumulator data + 255) % 256

/-- Bytes on the byte channel for a whole message: the complement of every covered byte,
then the complement of the checksum. -/
def wireBytes (data : List Nat) : List Nat :=
  (covered data ++ [checksum data]).map (fun b => 0xFF ^^^ b)

/-! ## A simulated platform -/

/-- Simulated time in microseconds: a call to the platform or to a callback takes 100,
`delay(n)` takes `1000 * n`, internal steps take none. -/
def usElapsed : List Event → Nat
  | [] => 0
  | Event.delay n :: tr => 1000 * n + usElapsed tr
  | Event.load _ :: tr => usElapsed tr
  | Event.crcSeed _ :: tr => usElapsed tr
  | Event.crcAbsorb _ :: tr => usElapsed tr
  | Event.opcodeFrame _ :: tr => usElapsed tr
  | Event.waitDone _ _ :: tr => usElapsed tr
  | _ :: tr => 100 + usElapsed tr

/-- Number of samples of the line taken so far. -/
def samples : List Event → Nat
  | [] => 0
  | Event.read _ :: tr => 1 + samples tr
  | _ :: tr => samples tr

/-- Simulated platform with 32-bit clocks: the `k`-th sample of the line is the `k`-th
entry of `script`, and low once the script is used up. -/
def scripted (script : List Bool) : Env where
  ulongBits := 32
  digitalRead := fun tr => script.getD (samples tr) false
  millis := fun tr => usElapsed tr / 1000
  micros := fun tr => usElapsed tr

/-- Samples seen from a device that keeps the line low while idle, acknowledges the opcode,
and then `n` times requests a byte (high) and acknowledges it (low). -/
def ackScript (n : Nat) : List Bool :=
  [false, false] ++ (List.replicate n [true, false]).flatten

/-- The message of the scenario in the specification: opcode `0x10`, two payload bytes. -/
def demoMessage : List Nat := [0x10, 0x02, 0xAA, 0xBB]

/-- A message that declares 255 payload bytes. -/
def longMessage : List Nat := 0x10 :: 255 :: List.replicate 255 0

/-- A bus handle with the default timing constants of `TLBLib.h`, a byte-transfer callback,
no error callback, and both timers at zero. -/
def defaults : TLBLib := {}

/-- Simulated device that acknowledges every frame and only shows its confirmation pulse
once eleven bytes have been handed over and the driver has seen the last acknowledge. -/
def lateDevice : Env where
  ulongBits := 32
  digitalRead := fun tr =>
    decide (11 ≤ (sentBytes tr).length) && (tr.getLast? == some (Event.waitDone false true))
  millis := fun tr => usElapsed tr / 1000
  micros := fun tr => usElapsed tr

/-- A bus handle like `defaults` with a repeat window of 1 ms and a message spacing of
2 ms. -/
def quick : TLBLib := { defaults with RPT_TIMEOUT_ms := 1, MIN_MESSAGE_RATE_ms := 2 }

/-- Run of `turnOff` against a device that acknowledges every frame and never raises the
line; `message_rate_timer` is 0 at the start. -/
def exhaustedRun : Option Unit × TLBLib × List Event :=
  turnOff (scripted []) quick 100 []

/-- Run of `turnOff` against `lateDevice`. -/
def lateRun : Option Unit × TLBLib × List Event :=
  turnOff lateDevice quick 100 []

/-! ## Further readings of the history -/

/-- Argument of a call of the error callback. -/
def Event.errorArg : Event → Option Nat
  | Event.error d => some d
  | _ => none

/-- Arguments with which the error callback was invoked, in order. -/
def errors (ev : List Event) : List Nat := ev.filterMap Event.errorArg

/-- Index of a read of the message buffer. -/
def Event.loadIndex : Event → Option Nat
  | Event.load i => some i
  | _ => none

/-- Indices at which the message buffer was read, in order. -/
def loads (ev : List Event) : List Nat := ev.filterMap Event.loadIndex

/-- Indices read by the loop of `send` from index `i` on: `i + 1` for every `i` below
`data_length` except `i = 0`. -/
def loopLoads (data_length i : Nat) : List Nat :=
  (List.range' i (data_length - i)).filterMap (fun j => if j = 0 then none else some (j + 1))

/-- Entries that touch the pin: a write of its level or a change of its direction. -/
def Event.isPin : Event → Bool
  | Event.write _ => true
  | Event.mode _ => true
  | _ => false

/-- Entries that neither touch the pin nor read the message buffer. -/
def Event.isInert : Event → Bool
  | Event.write _ => false
  | Event.mode _ => false
  | Event.load _ => false
  | _ => true

/-- A stretch of history that neither touches the pin nor reads the message buffer. -/
def Inert (p : List Event) : Prop := ∀ e ∈ p, e.isInert = true

/-- Direction of the pin (`true` = output) after the entries `ev`, when it was `output`
before them. -/
def pinOutput (output : Bool) : List Event → Bool
  | [] => output
  | Event.mode o :: ev => pinOutput o ev
  | _ :: ev => pinOutput output ev

/-- Function `TLBLib::begin`.  The user's hook has no access to the line of the model and
leaves no entry. -/
def begin (tr : List Event) : List Event :=
  tr ++ [Event.mode false]

/-- The four accesses to the pin made by one opcode frame: `start_ENA`, then `stop_ENA`. -/
def pinCycle : List Event :=
  [Event.write true, Event.mode true, Event.write false, Event.mode false]

/-- A stretch of history in which the pin is touched only by whole drives of
`send_opcode`. -/
inductive Drives (self : TLBLib) : List Event → Prop
  | nil : Drives self []
  | other (e : Event) (p : List Event) : e.isPin = false → Drives self p → Drives self (e :: p)
  | drive (opcode : Nat) (p : List Event) : Drives self p →
      Drives self (driveEvents self opcode ++ p)

/-- A stretch of history inside the loop of `wait_ENA`: reads of the microsecond clock that
are at most `timeout` past `timer`, each followed by a sample that differs from `state`. -/
inductive Misses (E : Env) (state : Bool) (timeout timer : Nat) : List Event → Prop
  | nil : Misses E state timeout timer []
  | cons (t : Nat) (p : List Event) : usub E t timer ≤ timeout →
      Misses E state timeout timer p →
      Misses E state timeout timer (Event.micros t :: Event.read (!state) :: p)

/-- The pacing before an opcode frame of `turnOff` and `keep_alive`: the `delay` call made
when `e` milliseconds have elapsed since `message_rate_timer`, if any. -/
def pacing (self : TLBLib) (e : Nat) : List Event :=
  if e < self.MIN_MESSAGE_RATE_ms then [Event.delay (self.MIN_MESSAGE_RATE_ms - e)] else []

/-- Simulated platform with 32-bit clocks on which the line stays high forever; the clocks
advance as in `scripted`. -/
def stuckHigh : Env where
  ulongBits := 32
  digitalRead := fun _ => true
  millis := fun tr => usElapsed tr / 1000
  micros := fun tr => usElapsed tr

/-- Simulated platform with 32-bit clocks on which the line is high during the first `us`
microseconds and low afterwards. -/
def pulseDevice (us : Nat) : Env where
  ulongBits := 32
  digitalRead := fun tr => decide (usElapsed tr < us)
  millis := fun tr => usElapsed tr / 1000
  micros := fun tr => usElapsed tr

/-- Simulated platform with 32-bit clocks on which every entry of the history takes 700
microseconds, and the line is high until 12700 microseconds have passed and low from then
on. -/
def slowPulse : Env where
  ulongBits := 32
  digitalRead := fun tr => decide (700 * tr.length < 12700)
  millis := fun tr => 700 * tr.length / 1000
  micros := fun tr => 700 * tr.length

/-- What `turnOff` writes before its first frame: the read of the clock and the pacing. -/
def turnOffHead (E : Env) (self : TLBLib) (tr : List Event) : List Event :=
  Event.millis (millis E tr).1 ::
    pacing self (usub E (millis E tr).1 self.message_rate_timer)

/-- What `keep_alive` writes before the keep-alive frame when the heartbeat is due: the read
of the clock for the heartbeat, the read of the clock for the pacing, and the pacing. -/
def keepAliveHead (E : Env) (self : TLBLib) (tr : List Event) : List Event :=
  Event.millis (millis E tr).1 :: Event.millis (millis E (millis E tr).2).1 ::
    pacing self (usub E (millis E (millis E tr).2).1 self.message_rate_timer)

/-- Entries written by a turn of a window loop: a read of the millisecond clock or a
sample of the line. -/
def Event.isWindowPoll : Event → Bool
  | Event.millis _ => true
  | Event.read _ => true
  | _ => false

/-- Clocks that keep advancing: every poll advances the microsecond clock, by at most `S`;
a read of the millisecond clock or a sample never sets the millisecond clock back and
advances it by at most `S`, and `K` of them in a row advance it. -/
def AdvancingClocks (E : Env) (S K : Nat) : Prop :=
  (∀ h e, e.isPoll = true →
    E.micros h < E.micros (h ++ [e]) ∧ E.micros (h ++ [e]) ≤ E.micros h + S) ∧
  (∀ h e, e.isWindowPoll = true →
    E.millis h ≤ E.millis (h ++ [e]) ∧ E.millis (h ++ [e]) ≤ E.millis h + S) ∧
  (∀ h ev, (∀ e ∈ ev, e.isWindowPoll = true) → ev.length = K → E.millis h < E.millis (h ++ ev))

/-- A line on which every pulse ends: whatever has happened, after at most `B` further high
samples in a row the line is sampled low. -/
def PulsesEnd (E : Env) (B : Nat) : Prop :=
  ∀ h, ∃ k, k ≤ B ∧ E.digitalRead (h ++ List.replicate k (Event.read true)) = false

/-- The timeouts of the handle stay clear of the wrap of a clock of `w` bits whose steps
are at most `S`. -/
def TimeoutsFit (E : Env) (self : TLBLib) (S : Nat) : Prop :=
  self.ACK_TIMEOUT_us + 2 * S < 2 ^ E.ulongBits ∧
  self.REQ_TIMEOUT_us + 2 * S < 2 ^ E.ulongBits ∧
  self.RPT_TIMEOUT_ms + 2 * S < 2 ^ E.ulongBits

/-! ## Basic facts -/

theorem polls_nil : Polls [] := by simp [Polls]

theorem polls_cons {e : Event} {p : List Event} (he : e.isPoll = true) (hp : Polls p) :
    Polls (e :: p) := by
  intro x hx
  rcases List.mem_cons.1 hx with h | h
  · exact h ▸ he
  · exact hp x h

theorem filterMap_polls {α : Type} (f : Event → Option α)
    (hm : ∀ t, f (Event.micros t) = none) (hr : ∀ v, f (Event.read v) = none)
    {p : List Event} (hp : Polls p) : p.filterMap f = [] := by
  induction p with
  | nil => rfl
  | cons e p ih =>
    have he := hp e (List.mem_cons_self _ _)
    have hp' : Polls p := fun x hx => hp x (List.mem_cons_of_mem _ hx)
    cases e with
    | micros t => simp [hm, ih hp']
    | read v => simp [hr, ih hp']
    | _ => simp [Event.isPoll] at he

theorem sentBytes_polls {p : List Event} (hp : Polls p) : sentBytes p = [] :=
  filterMap_polls _ (fun _ => rfl) (fun _ => rfl) hp

theorem crcBytes_polls {p : List Event} (hp : Polls p) : crcBytes p = [] :=
  filterMap_polls _ (fun _ => rfl) (fun _ => rfl) hp

theorem frames_polls {p : List Event} (hp : Polls p) : frames p = [] :=
  filterMap_polls _ (fun _ => rfl) (fun _ => rfl) hp

theorem sentBytes_append (a b : List Event) : sentBytes (a ++ b) = sentBytes a ++ sentBytes b :=
  List.filterMap_append _ _ _

theorem crcBytes_append (a b : List Event) : crcBytes (a ++ b) = crcBytes a ++ crcBytes b :=
  List.filterMap_append _ _ _

theorem frames_append (a b : List Event) : frames (a ++ b) = frames a ++ frames b :=
  List.filterMap_append _ _ _

/-! ## The waits -/

theorem wait_ENA_loop_cases (E : Env) (state : Bool) (timeout timer : Nat) (fuel : Nat) :
    ∀ tr, ∃ p, Polls p ∧
      (wait_ENA_loop E state timeout timer fuel tr = (none, tr ++ p) ∨
       wait_ENA_loop E state timeout timer fuel tr = (some false, tr ++ p) ∨
       (wait_ENA_loop E state timeout timer fuel tr = (some true, tr ++ p) ∧
         Event.read state ∈ p)) := by
  induction fuel with
  | zero => intro tr; exact ⟨[], polls_nil, Or.inl (by simp [wait_ENA_loop])⟩
  | succ n ih =>
    intro tr
    unfold wait_ENA_loop
    by_cases h1 : usub E (micros E tr).1 timer ≤ timeout
    · by_cases h2 : (digitalRead E (micros E tr).2).1 = state
      · refine ⟨[Event.micros (micros E tr).1, Event.read state], ?_, Or.inr (Or.inr ?_)⟩
        · exact polls_cons rfl (polls_cons rfl polls_nil)
        · simp only [h1, h2, if_true]
          refine ⟨?_, by simp⟩
          simp [digitalRead, micros] at h2 ⊢
          exact h2
      · obtain ⟨p, hp, h⟩ := ih (digitalRead E (micros E tr).2).2
        refine ⟨Event.micros (micros E tr).1 :: Event.read (digitalRead E (micros E tr).2).1 :: p,
          polls_cons rfl (polls_cons rfl hp), ?_⟩
        simp only [h1, h2, if_true, if_false]
        have e : (digitalRead E (micros E tr).2).2 ++ p = tr ++
            Event.micros (micros E tr).1 :: Event.read (digitalRead E (micros E tr).2).1 :: p := by
          simp [digitalRead, micros]
        rw [e] at h
        rcases h with h | h | ⟨h, hm⟩
        · exact Or.inl h
        · exact Or.inr (Or.inl h)
        · exact Or.inr (Or.inr ⟨h, by simp [hm]⟩)
    · refine ⟨[Event.micros (micros E tr).1], polls_cons rfl polls_nil, Or.inr (Or.inl ?_)⟩
      rw [if_neg h1]; simp [micros]

/-- Shape of the history written by `wait_ENA`: polling, then the outcome. -/
theorem wait_ENA_cases (E : Env) (state : Bool) (timeout fuel : Nat) (tr : List Event) :
    ∃ p, Polls p ∧
      (wait_ENA E state timeout fuel tr = (none, tr ++ p) ∨
       wait_ENA E state timeout fuel tr = (some false, tr ++ (p ++ [Event.waitDone state false])) ∨
       (wait_ENA E state timeout fuel tr = (some true, tr ++ (p ++ [Event.waitDone state true])) ∧
         Event.read state ∈ p)) := by
  obtain ⟨p, hp, h⟩ := wait_ENA_loop_cases E state timeout (micros E tr).1 fuel (micros E tr).2
  refine ⟨Event.micros (micros E tr).1 :: p, polls_cons rfl hp, ?_⟩
  have e : (micros E tr).2 ++ p = tr ++ Event.micros (micros E tr).1 :: p := by simp [micros]
  rw [e] at h
  unfold wait_ENA
  rcases h with h | h | ⟨h, hm⟩
  · exact Or.inl (by rw [h])
  · exact Or.inr (Or.inl (by rw [h]; simp))
  · exact Or.inr (Or.inr ⟨by rw [h]; simp, by simp [hm]⟩)

/-- Shape of the history written by `while (digitalRead(_ENA_pin));`. -/
theorem wait_while_high_cases (E : Env) (fuel : Nat) :
    ∀ tr, ∃ k,
      wait_while_high E fuel tr = (none, tr ++ List.replicate k (Event.read true)) ∨
      wait_while_high E fuel tr =
        (some (), tr ++ (List.replicate k (Event.read true) ++ [Event.read false])) := by
  induction fuel with
  | zero => intro tr; exact ⟨0, Or.inl (by simp [wait_while_high])⟩
  | succ n ih =>
    intro tr
    unfold wait_while_high
    by_cases h : (digitalRead E tr).1 = true
    · obtain ⟨k, hk⟩ := ih (digitalRead E tr).2
      refine ⟨k + 1, ?_⟩
      have e : (digitalRead E tr).2 = tr ++ [Event.read true] := by
        simp only [digitalRead] at h ⊢; rw [h]
      rw [if_pos h]
      rw [e] at hk ⊢
      simpa [List.replicate_succ] using hk
    · refine ⟨0, Or.inr ?_⟩
      rw [if_neg h]
      simp only [digitalRead, Bool.not_eq_true] at h ⊢
      simp [h]

/-! ## Leaving `send` -/

/-- What `exit_send` does, in one equation. -/
theorem exit_send_eq (E : Env) (self : TLBLib) (r : sendError) (tr : List Event) :
    exit_send E self r tr =
      (some r, { self with message_rate_timer := (millis E (tr ++ exitDelay self r)).1 },
       tr ++ (exitDelay self r ++ [Event.millis (millis E (tr ++ exitDelay self r)).1])) := by
  unfold exit_send exitDelay
  by_cases h1 : r = sendError.SUCCESS
  · by_cases h2 : self.RPT_TIMEOUT_ms < self.MIN_MESSAGE_RATE_ms
    · simp [h1, h2, millis, delay]
    · simp [h1, h2, millis, delay]
  · simp [h1, millis, delay]

/-! ## The repeat window of `send` -/

theorem lows_nil (E : Env) (limit timer : Nat) : Lows E limit timer [] := Lows.nil

theorem lows_cons2 {E : Env} {limit timer t : Nat} {p : List Event}
    (ht : usub E t timer < limit) (hp : Lows E limit timer p) :
    Lows E limit timer (Event.millis t :: Event.read false :: p) := Lows.cons t p ht hp

/-- Shape of the history written by the repeat window of `send`: low samples inside the
window, then one of four endings. -/
theorem send_repeat_loop_cases (E : Env) (self : TLBLib) (t0 : Nat) (fuel : Nat) :
    ∀ tr, ∃ lows, Lows E self.RPT_TIMEOUT_ms t0 lows ∧
      (send_repeat_loop E self t0 fuel tr = (none, self, tr ++ lows) ∨
       (∃ t k, usub E t t0 < self.RPT_TIMEOUT_ms ∧
          send_repeat_loop E self t0 fuel tr =
            (none, self, tr ++ (lows ++ Event.millis t :: Event.read true ::
              List.replicate k (Event.read true)))) ∨
       (∃ t k, usub E t t0 < self.RPT_TIMEOUT_ms ∧
          send_repeat_loop E self t0 fuel tr =
            exit_send E self sendError.REPEAT (tr ++ (lows ++ Event.millis t ::
              Event.read true :: (List.replicate k (Event.read true) ++ [Event.read false])))) ∨
       (self.RPT_TIMEOUT_ms ≤ usub E (millis E (tr ++ lows)).1 t0 ∧
          send_repeat_loop E self t0 fuel tr =
            exit_send E self sendError.SUCCESS (millis E (tr ++ lows)).2)) := by
  induction fuel with
  | zero => intro tr; exact ⟨[], lows_nil _ _ _, Or.inl (by simp [send_repeat_loop])⟩
  | succ n ih =>
    intro tr
    unfold send_repeat_loop
    by_cases h1 : usub E (millis E tr).1 t0 < self.RPT_TIMEOUT_ms
    · rw [if_pos h1]
      by_cases h2 : (digitalRead E (millis E tr).2).1 = true
      · rw [if_pos h2]
        have e2 : (digitalRead E (millis E tr).2).2 =
            tr ++ [Event.millis (millis E tr).1, Event.read true] := by
          simp only [digitalRead] at h2 ⊢; rw [h2]; simp [millis]
        refine ⟨[], lows_nil _ _ _, Or.inr ?_⟩
        obtain ⟨k, hk | hk⟩ := wait_while_high_cases E n (digitalRead E (millis E tr).2).2
        · refine Or.inl ⟨(millis E tr).1, k, h1, ?_⟩
          rw [hk, e2]; simp
        · refine Or.inr (Or.inl ⟨(millis E tr).1, k, h1, ?_⟩)
          rw [hk, e2]; simp
      · rw [if_neg h2]
        have e2 : (digitalRead E (millis E tr).2).2 =
            tr ++ [Event.millis (millis E tr).1, Event.read false] := by
          simp only [digitalRead, Bool.not_eq_true] at h2 ⊢; rw [h2]; simp [millis]
        obtain ⟨lows, hl, h⟩ := ih (digitalRead E (millis E tr).2).2
        refine ⟨Event.millis (millis E tr).1 :: Event.read false :: lows, lows_cons2 h1 hl, ?_⟩
        rw [e2] at h ⊢
        simpa [List.append_assoc] using h
    · rw [if_neg h1]
      exact ⟨[], lows_nil _ _ _, Or.inr (Or.inr (Or.inr ⟨by simpa using Nat.le_of_not_lt h1,
        by simp⟩))⟩

/-! ## Opcode frames -/

theorem frame_nil : Frame [] := by simp [Frame]

theorem frame_cons_iff (e : Event) (p : List Event) :
    Frame (e :: p) ↔ e.isFrame = true ∧ Frame p := by
  simp [Frame]

theorem frame_append_iff (a b : List Event) : Frame (a ++ b) ↔ Frame a ∧ Frame b := by
  simp only [Frame, List.mem_append]
  constructor
  · intro h; exact ⟨fun e he => h e (Or.inl he), fun e he => h e (Or.inr he)⟩
  · rintro ⟨h1, h2⟩ e (he | he)
    · exact h1 e he
    · exact h2 e he

theorem frame_polls {p : List Event} (hp : Polls p) : Frame p := by
  intro e he
  have := hp e he
  cases e <;> simp_all [Event.isPoll, Event.isFrame]

theorem frame_drive (self : TLBLib) (opcode : Nat) : Frame (driveEvents self opcode) := by
  unfold driveEvents
  by_cases h : self._sendFunction = true <;> simp [h, Frame, Event.isFrame]

theorem lowSeen_append_right {p : List Event} (q : List Event) (h : LowSeen p) :
    LowSeen (p ++ q) := by
  obtain ⟨a, x, b, rfl, hb⟩ := h
  exact ⟨a, x, b ++ q, by simp, List.mem_append_left _ hb⟩

theorem lowSeen_append_left (p : List Event) {q : List Event} (h : LowSeen q) :
    LowSeen (p ++ q) := by
  obtain ⟨a, x, b, rfl, hb⟩ := h
  exact ⟨p ++ a, x, b, by simp, hb⟩

/-- Shape of the history written by `send_opcode`. -/
theorem send_opcode_cases (E : Env) (self : TLBLib) (opcode fuel : Nat) (tr : List Event) :
    ∃ p1 p2, Polls p1 ∧ Polls p2 ∧
      (send_opcode E self opcode fuel tr = (none, tr ++ (Event.opcodeFrame opcode :: p1)) ∨
       send_opcode E self opcode fuel tr =
         (some false, tr ++ (Event.opcodeFrame opcode :: p1 ++ [Event.waitDone false false])) ∨
       send_opcode E self opcode fuel tr =
         (none, tr ++ (Event.opcodeFrame opcode :: p1 ++ Event.waitDone false true ::
            driveEvents self opcode ++ p2)) ∨
       send_opcode E self opcode fuel tr =
         (some false, tr ++ (Event.opcodeFrame opcode :: p1 ++ Event.waitDone false true ::
            driveEvents self opcode ++ p2 ++ [Event.waitDone false false])) ∨
       (send_opcode E self opcode fuel tr =
         (some true, tr ++ (Event.opcodeFrame opcode :: p1 ++ Event.waitDone false true ::
            driveEvents self opcode ++ p2 ++ [Event.waitDone false true])) ∧
        Event.read false ∈ p2)) := by
  obtain ⟨p1, hp1, h1⟩ :=
    wait_ENA_cases E false self.ACK_TIMEOUT_us fuel (tr ++ [Event.opcodeFrame opcode])
  unfold send_opcode
  rcases h1 with h1 | h1 | ⟨h1, -⟩
  · exact ⟨p1, [], hp1, polls_nil, Or.inl (by rw [h1]; simp)⟩
  · exact ⟨p1, [], hp1, polls_nil, Or.inr (Or.inl (by rw [h1]; simp))⟩
  · rw [h1]
    have e : stop_ENA (send_byte self opcode none (start_ENA
          (tr ++ [Event.opcodeFrame opcode] ++ (p1 ++ [Event.waitDone false true])))).2 =
        tr ++ (Event.opcodeFrame opcode :: p1 ++ Event.waitDone false true ::
          driveEvents self opcode) := by
      unfold stop_ENA send_byte start_ENA driveEvents
      by_cases h : self._sendFunction = true <;> simp [h]
    obtain ⟨p2, hp2, h2⟩ := wait_ENA_cases E false self.ACK_TIMEOUT_us fuel
      (tr ++ (Event.opcodeFrame opcode :: p1 ++ Event.waitDone false true ::
          driveEvents self opcode))
    simp only [e]
    refine ⟨p1, p2, hp1, hp2, Or.inr (Or.inr ?_)⟩
    rcases h2 with h2 | h2 | ⟨h2, hm⟩
    · exact Or.inl (by rw [h2]; simp)
    · exact Or.inr (Or.inl (by rw [h2]; simp))
    · exact Or.inr (Or.inr ⟨by rw [h2]; simp, hm⟩)

/-! ## The loop of `send` -/

theorem compl_mod {b : Nat} (hb : b < 256) : (0xFF ^^^ b) % 256 = 0xFF ^^^ b :=
  Nat.mod_eq_of_lt (Nat.xor_lt_two_pow (n := 8) (by norm_num) hb)

theorem readByte_lt (data : List Nat) (i : Nat) : readByte data i < 256 :=
  Nat.mod_lt _ (by norm_num)

theorem loopByte_lt (data : List Nat) {n : Nat} (hn : n ≤ 255) (i : Nat) :
    loopByte data n i < 256 := by
  unfold loopByte
  split
  · omega
  · exact readByte_lt _ _

theorem loopBytes_step (data : List Nat) {n i : Nat} (h : i < n) :
    loopBytes data n i = loopByte data n i :: loopBytes data n (i + 1) := by
  unfold loopBytes
  have e : n - i = (n - (i + 1)) + 1 := by omega
  rw [e, List.range'_succ]
  simp

theorem loopBytes_done (data : List Nat) (n : Nat) : loopBytes data n n = [] := by
  simp [loopBytes]

theorem wireFrom_step (data : List Nat) {n i : Nat} (c : Nat) (h : i < n) :
    wireFrom data n i c =
      (0xFF ^^^ loopByte data n i) :: wireFrom data n (i + 1) (c ^^^ loopByte data n i) := by
  unfold wireFrom
  rw [loopBytes_step data h]
  simp

theorem wireFrom_done (data : List Nat) (n c : Nat) :
    wireFrom data n n c = [0xFF ^^^ ((c + 255) % 256)] := by
  simp [wireFrom, loopBytes_done]

/-- The call of `send_byte` in the loop of `send`, both branches. -/
theorem send_loop_byte (self : TLBLib) (data : List Nat) {n : Nat} (hn : n ≤ 255) (i c : Nat)
    (tr : List Event) :
    (if i = 0 then send_byte self n (some c) tr
      else send_byte self (readByte data (i + 1)) (some c) (tr ++ [Event.load (i + 1)])) =
      (some (c ^^^ loopByte data n i),
       tr ++ ((if i = 0 then [] else [Event.load (i + 1)]) ++
         Event.crcAbsorb (loopByte data n i) ::
           (if self._sendFunction then [Event.sent (0xFF ^^^ loopByte data n i)] else []))) := by
  have hb := compl_mod (loopByte_lt data hn i)
  unfold loopByte at hb ⊢
  unfold send_byte
  by_cases h0 : i = 0 <;> by_cases hs : self._sendFunction = true <;>
    simp [h0, hs] at hb ⊢ <;> exact hb

theorem frameEnds_shift {E : Env} {self : TLBLib} {tr hd pre : List Event} {acked : Bool}
    {res : Option sendError × TLBLib × List Event}
    (h : FrameEnds E self (tr ++ hd) pre acked res) : FrameEnds E self tr (hd ++ pre) acked res := by
  simpa [FrameEnds, List.append_assoc] using h

theorem sentBytes_loop_head (self : TLBLib) (i b x : Nat) (hs : self._sendFunction = true) :
    sentBytes ((if i = 0 then [] else [Event.load (i + 1)]) ++
      Event.crcAbsorb b :: (if self._sendFunction then [Event.sent x] else [])) = [x] := by
  by_cases h0 : i = 0 <;> simp [h0, hs, sentBytes, Event.sentByte]

theorem crcBytes_loop_head (self : TLBLib) (i b x : Nat) :
    crcBytes ((if i = 0 then [] else [Event.load (i + 1)]) ++
      Event.crcAbsorb b :: (if self._sendFunction then [Event.sent x] else [])) = [b] := by
  by_cases h0 : i = 0 <;> by_cases hs : self._sendFunction = true <;>
    simp [h0, hs, crcBytes, Event.crcByte]

theorem frame_loop_head (self : TLBLib) (i b x : Nat) :
    Frame ((if i = 0 then [] else [Event.load (i + 1)]) ++
      Event.crcAbsorb b :: (if self._sendFunction then [Event.sent x] else [])) := by
  by_cases h0 : i = 0 <;> by_cases hs : self._sendFunction = true <;>
    simp [h0, hs, Frame, Event.isFrame]

theorem sentBytes_waitDone (a b : Bool) : sentBytes [Event.waitDone a b] = [] := rfl

theorem crcBytes_waitDone (a b : Bool) : crcBytes [Event.waitDone a b] = [] := rfl

theorem frame_waitDone (a : Bool) : Frame [Event.waitDone a true] := by
  simp [Frame, Event.isFrame]

/-- The checksum byte and its acknowledge (`send_finish`). -/
theorem send_finish_cases (E : Env) (self : TLBLib) (c fuel : Nat) (tr : List Event) :
    ∃ pre acked, Frame pre ∧ FrameEnds E self tr pre acked (send_finish E self c fuel tr) ∧
      crcBytes pre = [] ∧
      (self._sendFunction = true → sentBytes pre = [0xFF ^^^ ((c + 255) % 256)]) := by
  have hb : (0xFF ^^^ ((c + 255) % 256)) % 256 = 0xFF ^^^ ((c + 255) % 256) :=
    compl_mod (Nat.mod_lt _ (by norm_num))
  have e : (send_byte self ((c + 255) % 256) none tr).2 =
      tr ++ (if self._sendFunction then [Event.sent (0xFF ^^^ ((c + 255) % 256))] else []) := by
    unfold send_byte
    by_cases hs : self._sendFunction = true
    · simp only [hs, if_true]; rw [hb]
    · simp [hs]
  have hF : Frame (if self._sendFunction then [Event.sent (0xFF ^^^ ((c + 255) % 256))]
      else []) := by
    by_cases hs : self._sendFunction = true <;> simp [hs, Frame, Event.isFrame]
  have hC : crcBytes (if self._sendFunction then [Event.sent (0xFF ^^^ ((c + 255) % 256))]
      else []) = [] := by
    by_cases hs : self._sendFunction = true <;> simp [hs, crcBytes, Event.crcByte]
  have hS : self._sendFunction = true →
      sentBytes (if self._sendFunction then [Event.sent (0xFF ^^^ ((c + 255) % 256))]
      else []) = [0xFF ^^^ ((c + 255) % 256)] := by
    intro hs; simp [hs, sentBytes, Event.sentByte]
  unfold send_finish
  rw [e]
  obtain ⟨p, hp, h⟩ := wait_ENA_cases E false self.ACK_TIMEOUT_us fuel
    (tr ++ (if self._sendFunction then [Event.sent (0xFF ^^^ ((c + 255) % 256))] else []))
  have hF2 := (frame_append_iff _ _).2 ⟨hF, frame_polls hp⟩
  have hC2 : crcBytes ((if self._sendFunction then [Event.sent (0xFF ^^^ ((c + 255) % 256))]
      else []) ++ p) = [] := by
    rw [crcBytes_append, hC, crcBytes_polls hp]; rfl
  have hS2 : self._sendFunction = true →
      sentBytes ((if self._sendFunction then [Event.sent (0xFF ^^^ ((c + 255) % 256))]
      else []) ++ p) = [0xFF ^^^ ((c + 255) % 256)] := by
    intro hs; rw [sentBytes_append, hS hs, sentBytes_polls hp]; rfl
  rcases h with h | h | ⟨h, -⟩
  · exact ⟨_, false, hF2, Or.inl ⟨rfl, by rw [h]; simp⟩, hC2, hS2⟩
  · exact ⟨_, false, hF2, Or.inr (Or.inl ⟨rfl, false, by rw [h]; simp⟩), hC2, hS2⟩
  · exact ⟨_, true, hF2, Or.inr (Or.inr ⟨rfl, fuel, by rw [h]; simp⟩), hC2, hS2⟩

/-- The loop of `send` from index `i` on: what is written until the frame phase ends. -/
theorem send_loop_cases (E : Env) (self : TLBLib) (data : List Nat) {n : Nat} (hn : n ≤ 255)
    (fuel : Nat) : ∀ i c tr, i ≤ n →
    ∃ pre acked, Frame pre ∧
      FrameEnds E self tr pre acked (send_loop E self data n fuel i c tr) ∧
      (self._sendFunction = true → sentBytes pre <+: wireFrom data n i c) ∧
      (acked = true → crcBytes pre = loopBytes data n i ∧
        (self._sendFunction = true → sentBytes pre = wireFrom data n i c)) := by
  induction fuel with
  | zero =>
    intro i c tr _
    exact ⟨[], false, frame_nil, Or.inl ⟨rfl, by simp [send_loop]⟩,
      fun _ => List.nil_prefix, by simp⟩
  | succ m ih =>
    intro i c tr hi
    unfold send_loop
    by_cases hlt : i < n
    · rw [if_pos hlt, send_loop_byte self data hn i c tr]
      simp only []
      have hF := frame_loop_head self i (loopByte data n i) (0xFF ^^^ loopByte data n i)
      have hC := crcBytes_loop_head self i (loopByte data n i) (0xFF ^^^ loopByte data n i)
      have hS := sentBytes_loop_head self i (loopByte data n i) (0xFF ^^^ loopByte data n i)
      generalize ((if i = 0 then [] else [Event.load (i + 1)]) ++
        Event.crcAbsorb (loopByte data n i) ::
          (if self._sendFunction then [Event.sent (0xFF ^^^ loopByte data n i)] else [])) = hd
        at hF hC hS ⊢
      have hw := wireFrom_step data c hlt
      obtain ⟨p1, hp1, h1⟩ := wait_ENA_cases E false self.ACK_TIMEOUT_us m (tr ++ hd)
      have hS1 : self._sendFunction = true →
          sentBytes (hd ++ p1) = [0xFF ^^^ loopByte data n i] := by
        intro hs; rw [sentBytes_append, hS hs, sentBytes_polls hp1]; rfl
      have hF1 : Frame (hd ++ p1) := (frame_append_iff _ _).2 ⟨hF, frame_polls hp1⟩
      rcases h1 with h1 | h1 | ⟨h1, -⟩
      · refine ⟨hd ++ p1, false, hF1, Or.inl ⟨rfl, by rw [h1]; simp⟩, ?_, by simp⟩
        intro hs; rw [hS1 hs, hw]; simp
      · refine ⟨hd ++ p1, false, hF1, Or.inr (Or.inl ⟨rfl, false, by rw [h1]; simp⟩), ?_,
          by simp⟩
        intro hs; rw [hS1 hs, hw]; simp
      · rw [h1]
        simp only []
        obtain ⟨p2, hp2, h2⟩ := wait_ENA_cases E true self.REQ_TIMEOUT_us m
          (tr ++ hd ++ (p1 ++ [Event.waitDone false true]))
        have hS2 : self._sendFunction = true →
            sentBytes (hd ++ p1 ++ Event.waitDone false true :: p2) =
              [0xFF ^^^ loopByte data n i] := by
          intro hs
          rw [sentBytes_append, hS1 hs]
          have : sentBytes (Event.waitDone false true :: p2) = [] := by
            have e : Event.waitDone false true :: p2 = [Event.waitDone false true] ++ p2 := rfl
            rw [e, sentBytes_append, sentBytes_polls hp2]; rfl
          rw [this]; rfl
        have hF2 : Frame (hd ++ p1 ++ Event.waitDone false true :: p2) :=
          (frame_append_iff _ _).2 ⟨hF1, (frame_cons_iff _ _).2 ⟨rfl, frame_polls hp2⟩⟩
        rcases h2 with h2 | h2 | ⟨h2, -⟩
        · refine ⟨hd ++ p1 ++ Event.waitDone false true :: p2, false, hF2,
            Or.inl ⟨rfl, by rw [h2]; simp⟩, ?_, by simp⟩
          intro hs; rw [hS2 hs, hw]; simp
        · refine ⟨hd ++ p1 ++ Event.waitDone false true :: p2, false, hF2,
            Or.inr (Or.inl ⟨rfl, true, by rw [h2]; simp⟩), ?_, by simp⟩
          intro hs; rw [hS2 hs, hw]; simp
        · rw [h2]
          simp only []
          have hi1 : (i + 1) % 256 = i + 1 := Nat.mod_eq_of_lt (by omega)
          rw [hi1, Option.getD_some]
          obtain ⟨pre, acked, hFp, hE, hP, hA⟩ := ih (i + 1) (c ^^^ loopByte data n i)
            (tr ++ hd ++ (p1 ++ [Event.waitDone false true]) ++
              (p2 ++ [Event.waitDone true true])) (by omega)
          have e : tr ++ hd ++ (p1 ++ [Event.waitDone false true]) ++
              (p2 ++ [Event.waitDone true true]) =
              tr ++ ((hd ++ p1 ++ Event.waitDone false true :: p2) ++
                [Event.waitDone true true]) := by simp
          rw [e] at hE ⊢
          have hE2 := frameEnds_shift hE
          have hS3 : self._sendFunction = true →
              sentBytes (hd ++ p1 ++ Event.waitDone false true :: p2 ++
                [Event.waitDone true true] ++ pre) =
                (0xFF ^^^ loopByte data n i) :: sentBytes pre := by
            intro hs
            rw [sentBytes_append, sentBytes_append, hS2 hs, sentBytes_waitDone]; rfl
          refine ⟨hd ++ p1 ++ Event.waitDone false true :: p2 ++ [Event.waitDone true true] ++
            pre, acked, ?_, hE2, ?_, ?_⟩
          · exact (frame_append_iff _ _).2 ⟨(frame_append_iff _ _).2 ⟨hF2, frame_waitDone _⟩,
              hFp⟩
          · intro hs
            rw [hS3 hs, hw]
            exact (List.cons_prefix_cons).2 ⟨rfl, hP hs⟩
          · intro ha
            obtain ⟨hc, hsb⟩ := hA ha
            refine ⟨?_, ?_⟩
            · rw [crcBytes_append, crcBytes_append, crcBytes_append, crcBytes_append, hC,
                crcBytes_polls hp1, hc, loopBytes_step data hlt]
              have : crcBytes (Event.waitDone false true :: p2) = [] := by
                have e : Event.waitDone false true :: p2 = [Event.waitDone false true] ++ p2 :=
                  rfl
                rw [e, crcBytes_append, crcBytes_polls hp2]; rfl
              rw [this, crcBytes_waitDone]; rfl
            · intro hs; rw [hS3 hs, hw, hsb hs]
    · rw [if_neg hlt]
      have hin : i = n := by omega
      subst hin
      obtain ⟨pre, acked, hFp, hE, hC, hS⟩ := send_finish_cases E self c m tr
      refine ⟨pre, acked, hFp, hE, ?_, ?_⟩
      · intro hs; rw [hS hs, wireFrom_done]
      · intro _; exact ⟨by rw [hC, loopBytes_done], fun hs => by rw [hS hs, wireFrom_done]⟩

/-! ## The whole of `send` -/

theorem sentBytes_nil : sentBytes [] = [] := rfl

theorem crcBytes_nil : crcBytes [] = [] := rfl

theorem sentBytes_cons (e : Event) (l : List Event) :
    sentBytes (e :: l) = e.sentByte.toList ++ sentBytes l := by
  unfold sentBytes
  rw [List.filterMap_cons]
  cases e.sentByte <;> rfl

theorem crcBytes_cons (e : Event) (l : List Event) :
    crcBytes (e :: l) = e.crcByte.toList ++ crcBytes l := by
  unfold crcBytes
  rw [List.filterMap_cons]
  cases e.crcByte <;> rfl

theorem sentBytes_drive (self : TLBLib) {opcode : Nat} (ho : opcode < 256)
    (hs : self._sendFunction = true) : sentBytes (driveEvents self opcode) = [0xFF ^^^ opcode] := by
  simp [driveEvents, hs, sentBytes_cons, sentBytes_nil, Event.sentByte, compl_mod ho]

theorem crcBytes_drive (self : TLBLib) (opcode : Nat) : crcBytes (driveEvents self opcode) = [] := by
  unfold driveEvents
  by_cases hs : self._sendFunction = true <;>
    simp [hs, crcBytes_cons, crcBytes_nil, Event.crcByte]

/-- The frame phase of `send`: what is written until it ends, for every message. -/
theorem send_cases (E : Env) (self : TLBLib) (data : List Nat) (fuel : Nat) (tr : List Event) :
    ∃ pre acked, Frame pre ∧ FrameEnds E self tr pre acked (send E self data fuel tr) ∧
      (self._sendFunction = true → sentBytes pre <+:
        (0xFF ^^^ readByte data 0) ::
          wireFrom data ((readByte data 1 + 1) % 256) 0 (readByte data 0)) ∧
      (self._sendFunction = true → (sentBytes pre).length ≤ 1 ∨ LowSeen pre) ∧
      (acked = true →
        crcBytes pre = readByte data 0 :: loopBytes data ((readByte data 1 + 1) % 256) 0 ∧
        (self._sendFunction = true → sentBytes pre =
          (0xFF ^^^ readByte data 0) ::
            wireFrom data ((readByte data 1 + 1) % 256) 0 (readByte data 0))) := by
  have ho := readByte_lt data 0
  have hn : (readByte data 1 + 1) % 256 ≤ 255 := by omega
  obtain ⟨p1, p2, hp1, hp2, h⟩ :=
    send_opcode_cases E self (readByte data 0) fuel (tr ++ [Event.load 0])
  have hFd := frame_drive self (readByte data 0)
  have hF1 := frame_polls hp1
  have hF2 := frame_polls hp2
  have hS1 := sentBytes_polls hp1
  have hS2 := sentBytes_polls hp2
  have hC1 := crcBytes_polls hp1
  have hC2 := crcBytes_polls hp2
  have hCd := crcBytes_drive self (readByte data 0)
  unfold send
  rcases h with h | h | h | h | ⟨h, hlow⟩
  · refine ⟨Event.load 0 :: Event.opcodeFrame (readByte data 0) :: p1, false, ?_,
      Or.inl ⟨rfl, by rw [h]; simp⟩, ?_, ?_, by simp⟩
    · simp [frame_cons_iff, Event.isFrame, hF1]
    · intro _; simp [sentBytes_cons, Event.sentByte, hS1]
    · intro _; left; simp [sentBytes_cons, Event.sentByte, hS1]
  · refine ⟨Event.load 0 :: Event.opcodeFrame (readByte data 0) :: p1, false, ?_,
      Or.inr (Or.inl ⟨rfl, false, by rw [h]; simp⟩), ?_, ?_, by simp⟩
    · simp [frame_cons_iff, Event.isFrame, hF1]
    · intro _; simp [sentBytes_cons, Event.sentByte, hS1]
    · intro _; left; simp [sentBytes_cons, Event.sentByte, hS1]
  · refine ⟨Event.load 0 :: Event.opcodeFrame (readByte data 0) :: p1 ++
        Event.waitDone false true :: driveEvents self (readByte data 0) ++ p2, false, ?_,
      Or.inl ⟨rfl, by rw [h]; simp⟩, ?_, ?_, by simp⟩
    · simp [frame_cons_iff, frame_append_iff, Event.isFrame, hF1, hF2, hFd]
    · intro hs
      simp [sentBytes_cons, sentBytes_append, Event.sentByte, hS1, hS2,
        sentBytes_drive self ho hs]
    · intro hs; left
      simp [sentBytes_cons, sentBytes_append, Event.sentByte, hS1, hS2,
        sentBytes_drive self ho hs]
  · refine ⟨Event.load 0 :: Event.opcodeFrame (readByte data 0) :: p1 ++
        Event.waitDone false true :: driveEvents self (readByte data 0) ++ p2, false, ?_,
      Or.inr (Or.inl ⟨rfl, false, by rw [h]; simp⟩), ?_, ?_, by simp⟩
    · simp [frame_cons_iff, frame_append_iff, Event.isFrame, hF1, hF2, hFd]
    · intro hs
      simp [sentBytes_cons, sentBytes_append, Event.sentByte, hS1, hS2,
        sentBytes_drive self ho hs]
    · intro hs; left
      simp [sentBytes_cons, sentBytes_append, Event.sentByte, hS1, hS2,
        sentBytes_drive self ho hs]
  · rw [h]
    simp only []
    generalize hA : (Event.load 0 :: Event.opcodeFrame (readByte data 0) :: p1 ++
        Event.waitDone false true :: driveEvents self (readByte data 0) ++ p2 ++
        [Event.waitDone false true]) = A
    have eA : tr ++ [Event.load 0] ++ (Event.opcodeFrame (readByte data 0) :: p1 ++
        Event.waitDone false true :: driveEvents self (readByte data 0) ++ p2 ++
        [Event.waitDone false true]) = tr ++ A := by rw [← hA]; simp
    rw [eA]
    have hFA : Frame A := by
      rw [← hA]; simp [frame_cons_iff, frame_append_iff, Event.isFrame, hF1, hF2, hFd, frame_nil]
    have hSA : self._sendFunction = true → sentBytes A = [0xFF ^^^ readByte data 0] := by
      intro hs
      rw [← hA]
      simp [sentBytes_cons, sentBytes_append, sentBytes_nil, Event.sentByte, hS1, hS2,
        sentBytes_drive self ho hs]
    have hCA : crcBytes A = [] := by
      rw [← hA]
      simp [crcBytes_cons, crcBytes_append, crcBytes_nil, Event.crcByte, hC1, hC2, hCd]
    have hLA : self._sendFunction = true → LowSeen A := by
      intro hs
      rw [← hA]
      refine ⟨Event.load 0 :: Event.opcodeFrame (readByte data 0) :: p1 ++
        [Event.waitDone false true, Event.write true, Event.mode true],
        (0xFF ^^^ readByte data 0) % 256,
        [Event.write false, Event.mode false] ++ p2 ++ [Event.waitDone false true], ?_, ?_⟩
      · simp [driveEvents, hs]
      · simp [hlow]
    obtain ⟨p3, hp3, h3⟩ := wait_ENA_cases E true self.REQ_TIMEOUT_us fuel (tr ++ A)
    have hF3 : Frame (A ++ p3) := (frame_append_iff _ _).2 ⟨hFA, frame_polls hp3⟩
    have hS3 : self._sendFunction = true → sentBytes (A ++ p3) = [0xFF ^^^ readByte data 0] := by
      intro hs; rw [sentBytes_append, hSA hs, sentBytes_polls hp3]; rfl
    rcases h3 with h3 | h3 | ⟨h3, -⟩
    · refine ⟨A ++ p3, false, hF3, Or.inl ⟨rfl, by rw [h3]; simp⟩, ?_, ?_, by simp⟩
      · intro hs; rw [hS3 hs]; simp
      · intro hs; left; rw [hS3 hs]; simp
    · refine ⟨A ++ p3, false, hF3, Or.inr (Or.inl ⟨rfl, true, by rw [h3]; simp⟩), ?_, ?_,
        by simp⟩
      · intro hs; rw [hS3 hs]; simp
      · intro hs; left; rw [hS3 hs]; simp
    · rw [h3]
      simp only []
      generalize hB : (A ++ p3 ++ [Event.waitDone true true, Event.load 1,
        Event.crcSeed (readByte data 0)]) = B
      have eB : tr ++ A ++ (p3 ++ [Event.waitDone true true]) ++ [Event.load 1] ++
          [Event.crcSeed (readByte data 0)] = tr ++ B := by rw [← hB]; simp
      rw [eB]
      have hFB : Frame B := by
        rw [← hB]
        exact (frame_append_iff _ _).2 ⟨hF3, by simp [frame_cons_iff, Event.isFrame, frame_nil]⟩
      have hSB : self._sendFunction = true → sentBytes B = [0xFF ^^^ readByte data 0] := by
        intro hs
        rw [← hB, sentBytes_append, hS3 hs]
        simp [sentBytes_cons, sentBytes_nil, Event.sentByte]
      have hCB : crcBytes B = [readByte data 0] := by
        rw [← hB, crcBytes_append, crcBytes_append, hCA, crcBytes_polls hp3]
        simp [crcBytes_cons, crcBytes_nil, Event.crcByte]
      obtain ⟨pre, acked, hFp, hE, hP, hAck⟩ := send_loop_cases E self data hn fuel 0
        (readByte data 0) (tr ++ B) (Nat.zero_le _)
      refine ⟨B ++ pre, acked, (frame_append_iff _ _).2 ⟨hFB, hFp⟩, frameEnds_shift hE,
        ?_, ?_, ?_⟩
      · intro hs
        rw [sentBytes_append, hSB hs]
        exact (List.cons_prefix_cons).2 ⟨rfl, hP hs⟩
      · intro hs; right
        rw [← hB]
        exact lowSeen_append_right _ (lowSeen_append_right _ (lowSeen_append_right _ (hLA hs)))
      · intro ha
        obtain ⟨hc, hsb⟩ := hAck ha
        refine ⟨by rw [crcBytes_append, hCB, hc]; rfl, fun hs => ?_⟩
        rw [sentBytes_append, hSB hs, hsb hs]; rfl

/-! ## Quiet stretches -/

theorem quiet_nil : Quiet [] := by simp [Quiet]

theorem quiet_cons_iff (e : Event) (p : List Event) :
    Quiet (e :: p) ↔ e.isQuiet = true ∧ Quiet p := by
  simp [Quiet]

theorem quiet_append_iff (a b : List Event) : Quiet (a ++ b) ↔ Quiet a ∧ Quiet b := by
  simp only [Quiet, List.mem_append]
  constructor
  · intro h; exact ⟨fun e he => h e (Or.inl he), fun e he => h e (Or.inr he)⟩
  · rintro ⟨h1, h2⟩ e (he | he)
    · exact h1 e he
    · exact h2 e he

theorem quiet_lows {E : Env} {limit timer : Nat} {p : List Event} (h : Lows E limit timer p) :
    Quiet p := by
  induction h with
  | nil => exact quiet_nil
  | cons t p _ _ ih => exact (quiet_cons_iff _ _).2 ⟨rfl, (quiet_cons_iff _ _).2 ⟨rfl, ih⟩⟩

theorem quiet_replicate (k : Nat) (v : Bool) : Quiet (List.replicate k (Event.read v)) := by
  intro e he
  rw [List.eq_of_mem_replicate he]; rfl

theorem quiet_exitDelay (self : TLBLib) (r : sendError) : Quiet (exitDelay self r) := by
  unfold exitDelay
  split
  · split <;> simp [Quiet, Event.isQuiet]
  · simp [Quiet, Event.isQuiet]

theorem filterMap_quiet {α : Type} (f : Event → Option α)
    (hf : ∀ e : Event, e.isQuiet = true → f e = none) {p : List Event} (hp : Quiet p) :
    p.filterMap f = [] := by
  induction p with
  | nil => rfl
  | cons e p ih =>
    rw [List.filterMap_cons, hf e (hp e (List.mem_cons_self _ _))]
    exact ih (fun x hx => hp x (List.mem_cons_of_mem _ hx))

theorem sentBytes_quiet {p : List Event} (hp : Quiet p) : sentBytes p = [] :=
  filterMap_quiet _ (fun e he => by cases e <;> simp_all [Event.isQuiet, Event.sentByte]) hp

theorem crcBytes_quiet {p : List Event} (hp : Quiet p) : crcBytes p = [] :=
  filterMap_quiet _ (fun e he => by cases e <;> simp_all [Event.isQuiet, Event.crcByte]) hp

theorem frames_quiet {p : List Event} (hp : Quiet p) : frames p = [] :=
  filterMap_quiet _ (fun e he => by cases e <;> simp_all [Event.isQuiet, Event.frameOpcode]) hp

/-- The history written by `exit_send` is quiet. -/
theorem exit_send_quiet (E : Env) (self : TLBLib) (r : sendError) (tr : List Event) :
    ∃ post, Quiet post ∧ exit_send E self r tr =
      (some r, { self with message_rate_timer := (millis E (tr ++ exitDelay self r)).1 },
        tr ++ post) := by
  refine ⟨exitDelay self r ++ [Event.millis (millis E (tr ++ exitDelay self r)).1], ?_,
    exit_send_eq E self r tr⟩
  exact (quiet_append_iff _ _).2 ⟨quiet_exitDelay _ _, by simp [Quiet, Event.isQuiet]⟩

/-- The repeat window of `send` is quiet and never answers `FAIL`. -/
theorem send_repeat_loop_quiet (E : Env) (self : TLBLib) (t0 fuel : Nat) (tr : List Event) :
    ∃ win, Quiet win ∧ (send_repeat_loop E self t0 fuel tr).2.2 = tr ++ win ∧
      (send_repeat_loop E self t0 fuel tr).1 ≠ some sendError.FAIL := by
  obtain ⟨lows, hl, h⟩ := send_repeat_loop_cases E self t0 fuel tr
  have hq := quiet_lows hl
  rcases h with h | ⟨t, k, -, h⟩ | ⟨t, k, -, h⟩ | ⟨-, h⟩
  · exact ⟨lows, hq, by rw [h], by rw [h]; simp⟩
  · refine ⟨_, ?_, by rw [h], by rw [h]; simp⟩
    simp [quiet_append_iff, quiet_cons_iff, hq, quiet_replicate, Event.isQuiet]
  · obtain ⟨post, hpq, he⟩ := exit_send_quiet E self sendError.REPEAT (tr ++ (lows ++
      Event.millis t :: Event.read true :: (List.replicate k (Event.read true) ++
        [Event.read false])))
    rw [h, he]
    refine ⟨(lows ++ Event.millis t :: Event.read true :: (List.replicate k (Event.read true) ++
        [Event.read false])) ++ post, ?_, by simp, by simp⟩
    simp [quiet_append_iff, quiet_cons_iff, hq, quiet_replicate, Event.isQuiet, hpq, quiet_nil]
  · obtain ⟨post, hpq, he⟩ := exit_send_quiet E self sendError.SUCCESS (millis E (tr ++ lows)).2
    rw [h, he]
    refine ⟨(lows ++ [Event.millis (millis E (tr ++ lows)).1]) ++ post, ?_, by simp [millis],
      by simp⟩
    simp [quiet_append_iff, quiet_cons_iff, hq, Event.isQuiet, hpq, quiet_nil]

/-- A run of `send`: the frame phase `pre`, then a quiet rest. -/
theorem send_run (E : Env) (self : TLBLib) (data : List Nat) (fuel : Nat) (tr : List Event) :
    ∃ pre acked post, Frame pre ∧ Quiet post ∧
      (send E self data fuel tr).2.2 = tr ++ (pre ++ post) ∧
      (acked = false → (send E self data fuel tr).1 = none ∨
        (send E self data fuel tr).1 = some sendError.FAIL) ∧
      (acked = true → (send E self data fuel tr).1 ≠ some sendError.FAIL) ∧
      (self._sendFunction = true → sentBytes pre <+:
        (0xFF ^^^ readByte data 0) ::
          wireFrom data ((readByte data 1 + 1) % 256) 0 (readByte data 0)) ∧
      (acked = true →
        crcBytes pre = readByte data 0 :: loopBytes data ((readByte data 1 + 1) % 256) 0 ∧
        (self._sendFunction = true → sentBytes pre =
          (0xFF ^^^ readByte data 0) ::
            wireFrom data ((readByte data 1 + 1) % 256) 0 (readByte data 0))) := by
  obtain ⟨pre, acked, hF, hE, hP, -, hA⟩ := send_cases E self data fuel tr
  rcases hE with ⟨ha, h⟩ | ⟨ha, st, h⟩ | ⟨ha, fuel', h⟩
  · exact ⟨pre, acked, [], hF, quiet_nil, by rw [h]; simp, fun _ => Or.inl (by rw [h]),
      by simp [ha], hP, hA⟩
  · obtain ⟨post, hpq, he⟩ := exit_send_quiet E self sendError.FAIL
      (tr ++ (pre ++ [Event.waitDone st false]))
    rw [he] at h
    refine ⟨pre, acked, Event.waitDone st false :: post, hF, ?_, by rw [h]; simp,
      fun _ => Or.inr (by rw [h]), by simp [ha], hP, hA⟩
    exact (quiet_cons_iff _ _).2 ⟨rfl, hpq⟩
  · obtain ⟨win, hwq, hw, hne⟩ := send_repeat_loop_quiet E self
      (millis E (tr ++ (pre ++ [Event.waitDone false true]))).1 fuel'
      (millis E (tr ++ (pre ++ [Event.waitDone false true]))).2
    rw [← h] at hw hne
    refine ⟨pre, acked, Event.waitDone false true ::
      Event.millis (millis E (tr ++ (pre ++ [Event.waitDone false true]))).1 :: win, hF, ?_, ?_,
      by simp [ha], fun _ => hne, hP, hA⟩
    · exact (quiet_cons_iff _ _).2 ⟨rfl, (quiet_cons_iff _ _).2 ⟨rfl, hwq⟩⟩
    · rw [hw]; simp [millis]

/-! ## The bytes of a message -/

theorem loopBytes_zero (data : List Nat) (L : Nat) :
    loopBytes data (L + 1) 0 = (L + 1) :: payload data L := by
  rw [loopBytes_step data (Nat.succ_pos L)]
  unfold loopBytes payload
  simp only [loopByte, if_true, Nat.zero_add, Nat.add_sub_cancel, List.cons.injEq, true_and]
  rw [List.range'_eq_map_range, List.map_map]
  apply List.map_congr_left
  intro k _
  have e : 1 + k = k + 1 := Nat.add_comm 1 k
  simp only [Function.comp, e]
  unfold loopByte
  rw [if_neg (Nat.succ_ne_zero k)]

theorem covered_eq (data : List Nat) (hL : readByte data 1 ≤ 254) :
    readByte data 0 :: loopBytes data ((readByte data 1 + 1) % 256) 0 = covered data := by
  rw [Nat.mod_eq_of_lt (by omega), loopBytes_zero]
  rfl

theorem wire_eq (data : List Nat) (hL : readByte data 1 ≤ 254) :
    (0xFF ^^^ readByte data 0) ::
      wireFrom data ((readByte data 1 + 1) % 256) 0 (readByte data 0) = wireBytes data := by
  rw [Nat.mod_eq_of_lt (by omega)]
  unfold wireFrom wireBytes covered checksum accumulator
  rw [loopBytes_zero]
  simp

theorem wireBytes_length (data : List Nat) :
    (wireBytes data).length = readByte data 1 + 3 := by
  simp [wireBytes, covered, payload]

/-- A run of `send` for a message whose declared length is at most 254. -/
theorem send_run_bytes (E : Env) (self : TLBLib) (data : List Nat) (fuel : Nat)
    (tr : List Event) (hL : readByte data 1 ≤ 254) :
    ∃ ev, (send E self data fuel tr).2.2 = tr ++ ev ∧
      (self._sendFunction = true → sentBytes ev <+: wireBytes data) ∧
      (∀ r, (send E self data fuel tr).1 = some r → r ≠ sendError.FAIL →
        crcBytes ev = covered data ∧
        (self._sendFunction = true → sentBytes ev = wireBytes data)) := by
  obtain ⟨pre, acked, post, -, hQ, hev, hn, -, hP, hA⟩ := send_run E self data fuel tr
  rw [wire_eq data hL] at hP hA
  rw [covered_eq data hL] at hA
  refine ⟨pre ++ post, hev, ?_, ?_⟩
  · intro hs
    rw [sentBytes_append, sentBytes_quiet hQ, List.append_nil]
    exact hP hs
  · intro r hr hne
    have ha : acked = true := by
      cases acked with
      | true => rfl
      | false =>
        rcases hn rfl with h | h
        · rw [h] at hr; cases hr
        · rw [h] at hr; cases hr; exact absurd rfl hne
    obtain ⟨hc, hs⟩ := hA ha
    refine ⟨by rw [crcBytes_append, crcBytes_quiet hQ, List.append_nil, hc], fun h => ?_⟩
    rw [sentBytes_append, sentBytes_quiet hQ, List.append_nil, hs h]

theorem wireBytes_last (data : List Nat) :
    (wireBytes data)[readByte data 1 + 2]? = some (0xFF ^^^ checksum data) := by
  have hlen : (covered data).length = readByte data 1 + 2 := by simp [covered, payload]
  unfold wireBytes
  rw [List.getElem?_map, ← hlen, List.getElem?_append_right (Nat.le_refl _)]
  simp

theorem getElem?_of_isPrefix {α : Type} {l w : List α} (h : l <+: w) {i : Nat} {x : α}
    (hx : l[i]? = some x) : w[i]? = some x := by
  obtain ⟨t, rfl⟩ := h
  obtain ⟨hi, -⟩ := List.getElem?_eq_some_iff.1 hx
  rw [List.getElem?_append_left hi]
  exact hx

/-! ## Claims about the bytes and the checksum of `send` -/

/-- C2: for a message with declared length `L = m[1]` at most 254, the checksum byte is
`(m[0] xor (L + 1) xor m[2] xor ... xor m[L+1]) - 1` modulo 256, so `0xFF` for an accumulator of
0; the byte number `L + 3` that `send` hands to the byte-transfer callback, whenever it gets
that far, is the complement of this checksum, and the bytes folded into the accumulator are
the opcode, the length byte and the payload, not the checksum.  On a device that
acknowledges every byte and never pulses, `send([0x10, 0x02, 0xAA, 0xBB])` returns `SUCCESS`
and its checksum is `(0x10 ^ 0x03 ^ 0xAA ^ 0xBB) - 1 = 0x01`. -/
theorem send_checksum_byte (E : Env) (self : TLBLib) (data : List Nat) (fuel : Nat)
    (tr : List Event) (hcb : self._sendFunction = true) (hL : readByte data 1 ≤ 254) :
    ((checksum data : Int) = ((accumulator data : Int) - 1) % 256) ∧
    (accumulator data = 0 → checksum data = 0xFF) ∧
    (∃ ev, (send E self data fuel tr).2.2 = tr ++ ev ∧
      (∀ x, (sentBytes ev)[readByte data 1 + 2]? = some x → x = 0xFF ^^^ checksum data) ∧
      (∀ r, (send E self data fuel tr).1 = some r → r ≠ sendError.FAIL →
        (sentBytes ev)[readByte data 1 + 2]? = some (0xFF ^^^ checksum data) ∧
        crcBytes ev = covered data)) ∧
    ((send (scripted (ackScript 4)) defaults demoMessage 100 []).1 = some sendError.SUCCESS ∧
      sentBytes (send (scripted (ackScript 4)) defaults demoMessage 100 []).2.2 =
        [0xFF ^^^ 0x10, 0xFF ^^^ 0x03, 0xFF ^^^ 0xAA, 0xFF ^^^ 0xBB, 0xFF ^^^ 0x01] ∧
      checksum demoMessage = 0x01 ∧ (0x10 ^^^ 0x03 ^^^ 0xAA ^^^ 0xBB) - 1 = 0x01) := by
  refine ⟨?_, ?_, ?_, by decide!⟩
  · unfold checksum
    push_cast
    omega
  · intro h; unfold checksum; rw [h]
  · obtain ⟨ev, hev, hP, hA⟩ := send_run_bytes E self data fuel tr hL
    refine ⟨ev, hev, fun x hx => ?_, fun r hr hne => ⟨?_, (hA r hr hne).1⟩⟩
    · have := getElem?_of_isPrefix (hP hcb) hx
      rw [wireBytes_last] at this
      exact (Option.some.inj this).symm
    · rw [(hA r hr hne).2 hcb, wireBytes_last]

/-- C2, at the message of the specification's scenario. -/
theorem send_checksum_byte_witness :
    defaults._sendFunction = true ∧ readByte demoMessage 1 ≤ 254 ∧
    accumulator demoMessage = 0x02 ∧ checksum demoMessage = 0x01 ∧
    ∃ ev, (send (scripted (ackScript 4)) defaults demoMessage 100 []).2.2 = [] ++ ev ∧
      (∀ x, (sentBytes ev)[readByte demoMessage 1 + 2]? = some x →
        x = 0xFF ^^^ checksum demoMessage) ∧
      (∀ r, (send (scripted (ackScript 4)) defaults demoMessage 100 []).1 = some r →
        r ≠ sendError.FAIL →
        (sentBytes ev)[readByte demoMessage 1 + 2]? = some (0xFF ^^^ checksum demoMessage) ∧
        crcBytes ev = covered demoMessage) :=
  ⟨rfl, by decide, by decide, by decide,
    (send_checksum_byte (scripted (ackScript 4)) defaults demoMessage 100 [] rfl
      (by decide)).2.2.1⟩

/-- C3 fails for `L = 255`: the frame length `L + 1` wraps to 0, the loop of `send` does not
run, and a `send` that returns `SUCCESS` has folded one byte, the opcode, not `L + 2`. -/
theorem send_long_message_folds_opcode_only :
    2 ≤ longMessage.length ∧ readByte longMessage 1 = 255 ∧
    (send (scripted (ackScript 1)) defaults longMessage 100 []).1 = some sendError.SUCCESS ∧
    crcBytes (send (scripted (ackScript 1)) defaults longMessage 100 []).2.2 = [0x10] ∧
    (crcBytes (send (scripted (ackScript 1)) defaults longMessage 100 []).2.2).length ≠
      readByte longMessage 1 + 2 := by
  decide!

/-- C3, amended: for every message with declared length `L = m[1]` from 0 to 254, a `send`
that returns `SUCCESS` has folded exactly `L + 2` bytes into the checksum: the opcode as
seed, the length byte `L + 1`, and the `L` payload bytes. -/
theorem send_folds_covered_bytes (E : Env) (self : TLBLib) (data : List Nat) (fuel : Nat)
    (tr : List Event) (hL : readByte data 1 ≤ 254)
    (hr : (send E self data fuel tr).1 = some sendError.SUCCESS) :
    ∃ ev, (send E self data fuel tr).2.2 = tr ++ ev ∧
      crcBytes ev =
        readByte data 0 :: (readByte data 1 + 1) :: payload data (readByte data 1) ∧
      (crcBytes ev).length = readByte data 1 + 2 := by
  obtain ⟨ev, hev, -, hA⟩ := send_run_bytes E self data fuel tr hL
  have hc := (hA _ hr (by decide)).1
  refine ⟨ev, hev, hc, ?_⟩
  rw [hc]; simp [covered, payload]

/-- C3 amended, at the message of the specification's scenario. -/
theorem send_folds_covered_bytes_witness :
    readByte demoMessage 1 ≤ 254 ∧
    (send (scripted (ackScript 4)) defaults demoMessage 100 []).1 = some sendError.SUCCESS ∧
    ∃ ev, (send (scripted (ackScript 4)) defaults demoMessage 100 []).2.2 = [] ++ ev ∧
      crcBytes ev = readByte demoMessage 0 :: (readByte demoMessage 1 + 1) ::
        payload demoMessage (readByte demoMessage 1) ∧
      (crcBytes ev).length = readByte demoMessage 1 + 2 :=
  ⟨by decide, by decide!,
    send_folds_covered_bytes (scripted (ackScript 4)) defaults demoMessage 100 [] (by decide)
      (by decide!)⟩

/-! ## Splitting a history -/

theorem append_cons_cases {α : Type} {a b a' b' : List α} {x y : α}
    (h : a ++ x :: b = a' ++ y :: b') :
    (a = a' ∧ x = y ∧ b = b') ∨ (∃ q, a' = a ++ x :: q ∧ b = q ++ y :: b') ∨
      (∃ q, a = a' ++ y :: q ∧ b' = q ++ x :: b) := by
  induction a generalizing a' with
  | nil =>
    cases a' with
    | nil =>
      simp only [List.nil_append, List.cons.injEq] at h
      exact Or.inl ⟨rfl, h.1, h.2⟩
    | cons z a'' =>
      simp only [List.nil_append, List.cons_append, List.cons.injEq] at h
      exact Or.inr (Or.inl ⟨a'', by simp [h.1], h.2⟩)
  | cons e a0 ih =>
    cases a' with
    | nil =>
      simp only [List.nil_append, List.cons_append, List.cons.injEq] at h
      exact Or.inr (Or.inr ⟨a0, by simp [h.1], h.2.symm⟩)
    | cons z a'' =>
      simp only [List.cons_append, List.cons.injEq] at h
      rcases ih h.2 with ⟨h1, h2, h3⟩ | ⟨q, h1, h2⟩ | ⟨q, h1, h2⟩
      · exact Or.inl ⟨by rw [h.1, h1], h2, h3⟩
      · exact Or.inr (Or.inl ⟨q, by rw [h.1, h1]; rfl, h2⟩)
      · exact Or.inr (Or.inr ⟨q, by rw [h.1, h1]; rfl, h2⟩)

theorem watch_nil : Watch [] := by simp [Watch]

theorem watch_cons_iff (e : Event) (p : List Event) :
    Watch (e :: p) ↔ e.isWatch = true ∧ Watch p := by
  simp [Watch]

theorem watch_append_iff (a b : List Event) : Watch (a ++ b) ↔ Watch a ∧ Watch b := by
  simp only [Watch, List.mem_append]
  constructor
  · intro h; exact ⟨fun e he => h e (Or.inl he), fun e he => h e (Or.inr he)⟩
  · rintro ⟨h1, h2⟩ e (he | he)
    · exact h1 e he
    · exact h2 e he

theorem watch_lows {E : Env} {limit timer : Nat} {p : List Event} (h : Lows E limit timer p) :
    Watch p := by
  induction h with
  | nil => exact watch_nil
  | cons t p _ _ ih => exact (watch_cons_iff _ _).2 ⟨rfl, (watch_cons_iff _ _).2 ⟨rfl, ih⟩⟩

theorem watch_replicate (k : Nat) (v : Bool) : Watch (List.replicate k (Event.read v)) := by
  intro e he
  rw [List.eq_of_mem_replicate he]; rfl

theorem watch_exitDelay (self : TLBLib) (r : sendError) : Watch (exitDelay self r) := by
  unfold exitDelay
  split
  · split <;> simp [Watch, Event.isWatch]
  · simp [Watch, Event.isWatch]

theorem not_timeout_of_watch {p : List Event} (hp : Watch p) {st : Bool} {ok : Bool} :
    Event.waitDone st ok ∉ p := by
  intro h
  have := hp _ h
  simp [Event.isWatch] at this

theorem not_timeout_of_frame {p : List Event} (hp : Frame p) {st : Bool} :
    Event.waitDone st false ∉ p := by
  intro h
  have := hp _ h
  simp [Event.isFrame] at this

theorem not_millis_of_frame {p : List Event} (hp : Frame p) {t : Nat} :
    Event.millis t ∉ p := by
  intro h
  have := hp _ h
  simp [Event.isFrame] at this

/-- Every return of `send` is a return of `exit_send`. -/
theorem send_returns_through_exit (E : Env) (self : TLBLib) (data : List Nat) (fuel : Nat)
    (tr : List Event) (r : sendError) (hr : (send E self data fuel tr).1 = some r) :
    ∃ ev, send E self data fuel tr = exit_send E self r (tr ++ ev) := by
  obtain ⟨pre, acked, -, hE, -, -, -⟩ := send_cases E self data fuel tr
  rcases hE with ⟨-, h⟩ | ⟨-, st, h⟩ | ⟨-, fuel', h⟩
  · rw [h] at hr; cases hr
  · have : r = sendError.FAIL := by
      rw [h, exit_send_eq] at hr
      exact (Option.some.inj hr).symm
    exact ⟨_, this ▸ h⟩
  · obtain ⟨lows, -, hl⟩ := send_repeat_loop_cases E self
      (millis E (tr ++ (pre ++ [Event.waitDone false true]))).1 fuel'
      (millis E (tr ++ (pre ++ [Event.waitDone false true]))).2
    rw [← h] at hl
    rcases hl with hl | ⟨t, k, -, hl⟩ | ⟨t, k, -, hl⟩ | ⟨-, hl⟩
    · rw [hl] at hr; cases hr
    · rw [hl] at hr; cases hr
    · have : r = sendError.REPEAT := by
        rw [hl, exit_send_eq] at hr
        exact (Option.some.inj hr).symm
      refine ⟨(pre ++ [Event.waitDone false true]) ++
        [Event.millis (millis E (tr ++ (pre ++ [Event.waitDone false true]))).1] ++ (lows ++
          Event.millis t :: Event.read true :: (List.replicate k (Event.read true) ++
            [Event.read false])), ?_⟩
      rw [this, hl]
      simp [millis]
    · have : r = sendError.SUCCESS := by
        rw [hl, exit_send_eq] at hr
        exact (Option.some.inj hr).symm
      refine ⟨(pre ++ [Event.waitDone false true]) ++
        [Event.millis (millis E (tr ++ (pre ++ [Event.waitDone false true]))).1] ++ (lows ++
          [Event.millis (millis E ((millis E (tr ++ (pre ++ [Event.waitDone false true]))).2
            ++ lows)).1]), ?_⟩
      rw [this, hl]
      simp [millis]

/-! ## Claim about the pacing of `exit_send` -/

/-- C7 fails with the default constants (`RPT_TIMEOUT_ms = 6`, `MIN_MESSAGE_RATE_ms = 5`): for
the outcome `SUCCESS`, `exit_send` calls no `delay` at all, not `delay(MIN_MESSAGE_RATE_ms)`. -/
theorem exit_send_success_skips_delay :
    defaults.RPT_TIMEOUT_ms ≥ defaults.MIN_MESSAGE_RATE_ms ∧
    delays (exit_send (scripted []) defaults sendError.SUCCESS []).2.2 = [] ∧
    delays (exit_send (scripted []) defaults sendError.SUCCESS []).2.2 ≠
      [defaults.MIN_MESSAGE_RATE_ms] := by
  decide

/-- C7, amended: the pacing delay of `exit_send` is `MIN_MESSAGE_RATE_ms - RPT_TIMEOUT_ms`
when the outcome is `SUCCESS` and `RPT_TIMEOUT_ms < MIN_MESSAGE_RATE_ms`, no delay when the
outcome is `SUCCESS` and `RPT_TIMEOUT_ms ≥ MIN_MESSAGE_RATE_ms`, and the full
`MIN_MESSAGE_RATE_ms` when the outcome is `FAIL` or `REPEAT`; `message_rate_timer` is set to
the clock value read after that delay; and every return of `send` goes through it. -/
theorem exit_send_pacing (E : Env) (self : TLBLib) (r : sendError) (tr : List Event) :
    exitDelay self r =
      (if r = sendError.SUCCESS then
        (if self.RPT_TIMEOUT_ms < self.MIN_MESSAGE_RATE_ms then
          [Event.delay (self.MIN_MESSAGE_RATE_ms - self.RPT_TIMEOUT_ms)] else [])
       else [Event.delay self.MIN_MESSAGE_RATE_ms]) ∧
    (exit_send E self r tr).1 = some r ∧
    (exit_send E self r tr).2.2 = tr ++ (exitDelay self r ++
      [Event.millis (E.millis (tr ++ exitDelay self r) % 2 ^ E.ulongBits)]) ∧
    (exit_send E self r tr).2.1.message_rate_timer =
      E.millis (tr ++ exitDelay self r) % 2 ^ E.ulongBits ∧
    (∀ data fuel tr0, (send E self data fuel tr0).1 = some r →
      ∃ ev, send E self data fuel tr0 = exit_send E self r (tr0 ++ ev)) := by
  refine ⟨rfl, ?_, ?_, ?_, fun data fuel tr0 h => send_returns_through_exit E self data fuel tr0 r h⟩
  · rw [exit_send_eq]
  · rw [exit_send_eq]; rfl
  · rw [exit_send_eq]; rfl

/-- C7 amended, at the scenario of the specification: `send` returns `SUCCESS` through
`exit_send`, which with the default constants delays nothing. -/
theorem exit_send_pacing_witness :
    (send (scripted (ackScript 4)) defaults demoMessage 100 []).1 = some sendError.SUCCESS ∧
    exitDelay defaults sendError.SUCCESS = [] ∧
    ∃ ev, send (scripted (ackScript 4)) defaults demoMessage 100 [] =
      exit_send (scripted (ackScript 4)) defaults sendError.SUCCESS ([] ++ ev) :=
  ⟨by decide!, by decide,
    (exit_send_pacing (scripted (ackScript 4)) defaults sendError.SUCCESS []).2.2.2.2
      demoMessage 100 [] (by decide!)⟩

/-! ## Timeouts inside `send` -/

/-- The history written by `exit_send` is a delay, if any, and a read of the clock. -/
theorem exit_send_watch (E : Env) (self : TLBLib) (r : sendError) (tr : List Event) :
    ∃ post, Watch post ∧ exit_send E self r tr =
      (some r, { self with message_rate_timer := (millis E (tr ++ exitDelay self r)).1 },
        tr ++ post) := by
  refine ⟨exitDelay self r ++ [Event.millis (millis E (tr ++ exitDelay self r)).1], ?_,
    exit_send_eq E self r tr⟩
  exact (watch_append_iff _ _).2 ⟨watch_exitDelay _ _, by simp [Watch, Event.isWatch]⟩

/-- The repeat window of `send` only watches, and never answers `FAIL`. -/
theorem send_repeat_loop_watch (E : Env) (self : TLBLib) (t0 fuel : Nat) (tr : List Event) :
    ∃ win, Watch win ∧ (send_repeat_loop E self t0 fuel tr).2.2 = tr ++ win ∧
      (send_repeat_loop E self t0 fuel tr).1 ≠ some sendError.FAIL := by
  obtain ⟨lows, hl, h⟩ := send_repeat_loop_cases E self t0 fuel tr
  have hq := watch_lows hl
  rcases h with h | ⟨t, k, -, h⟩ | ⟨t, k, -, h⟩ | ⟨-, h⟩
  · exact ⟨lows, hq, by rw [h], by rw [h]; simp⟩
  · refine ⟨_, ?_, by rw [h], by rw [h]; simp⟩
    simp [watch_append_iff, watch_cons_iff, hq, watch_replicate, Event.isWatch]
  · obtain ⟨post, hpq, he⟩ := exit_send_watch E self sendError.REPEAT (tr ++ (lows ++
      Event.millis t :: Event.read true :: (List.replicate k (Event.read true) ++
        [Event.read false])))
    rw [h, he]
    refine ⟨(lows ++ Event.millis t :: Event.read true :: (List.replicate k (Event.read true) ++
        [Event.read false])) ++ post, ?_, by simp, by simp⟩
    simp [watch_append_iff, watch_cons_iff, hq, watch_replicate, Event.isWatch, hpq, watch_nil]
  · obtain ⟨post, hpq, he⟩ := exit_send_watch E self sendError.SUCCESS (millis E (tr ++ lows)).2
    rw [h, he]
    refine ⟨(lows ++ [Event.millis (millis E (tr ++ lows)).1]) ++ post, ?_, by simp [millis],
      by simp⟩
    simp [watch_append_iff, watch_cons_iff, hq, Event.isWatch, hpq, watch_nil]

/-- A run of `send`, told apart by how the frame phase ends. -/
theorem send_shape (E : Env) (self : TLBLib) (data : List Nat) (fuel : Nat) (tr : List Event) :
    ∃ pre acked post, Frame pre ∧ (send E self data fuel tr).2.2 = tr ++ (pre ++ post) ∧
      (self._sendFunction = true → sentBytes pre <+:
        (0xFF ^^^ readByte data 0) ::
          wireFrom data ((readByte data 1 + 1) % 256) 0 (readByte data 0)) ∧
      (self._sendFunction = true → (sentBytes pre).length ≤ 1 ∨ LowSeen pre) ∧
      (acked = true → self._sendFunction = true → sentBytes pre =
          (0xFF ^^^ readByte data 0) ::
            wireFrom data ((readByte data 1 + 1) % 256) 0 (readByte data 0)) ∧
      ((acked = false ∧ post = [] ∧ (send E self data fuel tr).1 = none) ∨
       (acked = false ∧ (send E self data fuel tr).1 = some sendError.FAIL ∧
          ∃ st, post = [Event.waitDone st false, Event.delay self.MIN_MESSAGE_RATE_ms,
            Event.millis (send E self data fuel tr).2.1.message_rate_timer]) ∨
       (acked = true ∧ (send E self data fuel tr).1 ≠ some sendError.FAIL ∧
          ∃ t0 win, post = Event.waitDone false true :: Event.millis t0 :: win ∧ Watch win)) := by
  obtain ⟨pre, acked, hF, hE, hP, hD, hA⟩ := send_cases E self data fuel tr
  rcases hE with ⟨ha, h⟩ | ⟨ha, st, h⟩ | ⟨ha, fuel', h⟩
  · exact ⟨pre, acked, [], hF, by rw [h]; simp, hP, hD, fun a => (hA a).2,
      Or.inl ⟨ha, rfl, by rw [h]⟩⟩
  · rw [exit_send_eq] at h
    refine ⟨pre, acked, _, hF, ?_, hP, hD, fun a => (hA a).2,
      Or.inr (Or.inl ⟨ha, by rw [h], st, rfl⟩)⟩
    rw [h]
    simp [exitDelay]
  · obtain ⟨win, hw, hwe, hne⟩ := send_repeat_loop_watch E self
      (millis E (tr ++ (pre ++ [Event.waitDone false true]))).1 fuel'
      (millis E (tr ++ (pre ++ [Event.waitDone false true]))).2
    rw [← h] at hwe hne
    refine ⟨pre, acked, _, hF, ?_, hP, hD, fun a => (hA a).2,
      Or.inr (Or.inr ⟨ha, hne, (millis E (tr ++ (pre ++ [Event.waitDone false true]))).1, win,
        rfl, hw⟩)⟩
    rw [hwe]
    simp [millis]

theorem sentBytes_ne_nil_of_mem {ev : List Event} {x : Nat} (h : Event.sent x ∈ ev) :
    sentBytes ev ≠ [] := by
  intro hn
  have : x ∈ sentBytes ev := List.mem_filterMap.2 ⟨_, h, rfl⟩
  rw [hn] at this
  cases this

theorem wireFrom_ne_nil (data : List Nat) (n i c : Nat) : wireFrom data n i c ≠ [] := by
  simp [wireFrom]

/-- C5: for every message and every line behaviour, once a wait inside `send` has timed out,
`send` returns `FAIL` and the only things it still does are the pacing delay and the read of
the clock for `message_rate_timer`: no call to the byte-transfer callback, no write to the
line, no change of its direction.  In particular, with a byte-transfer callback registered,
if the opcode byte was handed over, the line is never sampled low after it, and `send`
returns (or, the same, a wait times out), then `send` returns `FAIL` and the opcode byte is
the only byte handed over. -/
theorem send_timeout_fails (E : Env) (self : TLBLib) (data : List Nat) (fuel : Nat)
    (tr : List Event) :
    ∃ ev, (send E self data fuel tr).2.2 = tr ++ ev ∧
      (∀ p st post, ev = p ++ Event.waitDone st false :: post →
        (send E self data fuel tr).1 = some sendError.FAIL ∧
        post = [Event.delay self.MIN_MESSAGE_RATE_ms,
          Event.millis (send E self data fuel tr).2.1.message_rate_timer]) ∧
      (self._sendFunction = true →
        (∀ a x b, ev = a ++ Event.sent x :: b → Event.read false ∉ b) →
        (∃ x, Event.sent x ∈ ev) →
        ((send E self data fuel tr).1 ≠ none ∨ ∃ st, Event.waitDone st false ∈ ev) →
        (send E self data fuel tr).1 = some sendError.FAIL ∧
        sentBytes ev = [0xFF ^^^ readByte data 0]) := by
  obtain ⟨pre, acked, post, hF, hev, hP, hD, hA, hcases⟩ := send_shape E self data fuel tr
  refine ⟨pre ++ post, hev, ?_, ?_⟩
  · intro p st post' hsplit
    rcases hcases with ⟨-, hp, -⟩ | ⟨-, hr, st0, hp⟩ | ⟨-, -, t0, win, hp, hw⟩
    · rw [hp, List.append_nil] at hsplit
      exact absurd (hsplit ▸ List.mem_append_right p (List.mem_cons_self _ _))
        (not_timeout_of_frame hF)
    · refine ⟨hr, ?_⟩
      rw [hp] at hsplit
      rcases append_cons_cases hsplit with ⟨-, -, h3⟩ | ⟨q, -, h2⟩ | ⟨q, h1, -⟩
      · exact h3.symm
      · have : Event.waitDone st false ∈ q ++ Event.waitDone st false :: post' :=
          List.mem_append_right q (List.mem_cons_self _ _)
        rw [← h2] at this
        simp at this
      · exact absurd (h1 ▸ List.mem_append_right p (List.mem_cons_self _ _))
          (not_timeout_of_frame hF)
    · rw [hp] at hsplit
      have hm : Event.waitDone st false ∈ pre ++ Event.waitDone false true ::
          Event.millis t0 :: win := hsplit ▸ List.mem_append_right p (List.mem_cons_self _ _)
      simp only [List.mem_append, List.mem_cons] at hm
      rcases hm with hm | hm | hm | hm
      · exact absurd hm (not_timeout_of_frame hF)
      · cases hm
      · cases hm
      · exact absurd hm (not_timeout_of_watch hw)
  · intro hs hnolow hsent hret
    have hlen : (sentBytes pre).length ≤ 1 := by
      rcases hD hs with h | h
      · exact h
      · exact absurd (lowSeen_append_right post h) (by
          rintro ⟨a, x, b, hab, hb⟩
          exact hnolow a x b hab hb)
    rcases hcases with ⟨-, hp, hr⟩ | ⟨-, hr, st0, hp⟩ | ⟨ha, -, t0, win, hp, hw⟩
    · exfalso
      rcases hret with h | ⟨st, h⟩
      · exact h hr
      · rw [hp, List.append_nil] at h
        exact not_timeout_of_frame hF h
    · refine ⟨hr, ?_⟩
      have hq : sentBytes post = [] := by rw [hp]; rfl
      rw [sentBytes_append, hq, List.append_nil]
      obtain ⟨x, hx⟩ := hsent
      have hx' : Event.sent x ∈ pre := by
        rcases List.mem_append.1 hx with h | h
        · exact h
        · rw [hp] at h; simp at h
      have hne := sentBytes_ne_nil_of_mem hx'
      have hpre := hP hs
      cases hsb : sentBytes pre with
      | nil => exact absurd hsb hne
      | cons y l =>
        rw [hsb] at hlen hpre
        cases l with
        | nil =>
          have := (List.cons_prefix_cons.1 hpre).1
          rw [this]
        | cons z l' => simp at hlen
    · exfalso
      have := hA ha hs
      rw [this] at hlen
      have hne := wireFrom_ne_nil data ((readByte data 1 + 1) % 256) 0 (readByte data 0)
      cases hw' : wireFrom data ((readByte data 1 + 1) % 256) 0 (readByte data 0) with
      | nil => exact hne hw'
      | cons y l => rw [hw'] at hlen; simp at hlen

/-! ## The repeat window -/

theorem lows_no_high {E : Env} {limit timer : Nat} {p : List Event} (h : Lows E limit timer p) :
    Event.read true ∉ p := by
  induction h with
  | nil => simp
  | cons t p _ _ ih => simp [ih]

theorem lows_in_window {E : Env} {limit timer : Nat} {p : List Event}
    (h : Lows E limit timer p) {t : Nat} (ht : Event.millis t ∈ p) : usub E t timer < limit := by
  induction h with
  | nil => simp at ht
  | cons t' p ht' _ ih =>
    simp only [List.mem_cons] at ht
    rcases ht with h1 | h1 | h1
    · cases h1; exact ht'
    · cases h1
    · exact ih h1

theorem highThenLow_low {l : List Event} (h : HighThenLow l) : Event.read false ∈ l := by
  obtain ⟨a, b, rfl, hb⟩ := h
  exact List.mem_append_right _ (List.mem_cons_of_mem _ hb)

theorem highThenLow_high {l : List Event} (h : HighThenLow l) : Event.read true ∈ l := by
  obtain ⟨a, b, rfl, -⟩ := h
  exact List.mem_append_right _ (List.mem_cons_self _ _)

theorem highThenLow_append_left {a : List Event} (ha : Event.read true ∉ a) {b : List Event}
    (h : HighThenLow (a ++ b)) : HighThenLow b := by
  induction a with
  | nil => exact h
  | cons e a' ih =>
    apply ih (fun hm => ha (List.mem_cons_of_mem _ hm))
    obtain ⟨a1, b1, h1, hb⟩ := h
    cases a1 with
    | nil =>
      simp only [List.cons_append, List.nil_append, List.cons.injEq] at h1
      exact absurd (h1.1 ▸ List.mem_cons_self _ _) ha
    | cons z a1' =>
      simp only [List.cons_append, List.cons.injEq] at h1
      exact ⟨a1', b1, h1.2, hb⟩

theorem read_not_mem_exitDelay (self : TLBLib) (r : sendError) (v : Bool) :
    Event.read v ∉ exitDelay self r := by
  unfold exitDelay
  split
  · split <;> simp
  · simp

/-- What the repeat window of `send` answers, read off the history it writes. -/
theorem send_repeat_loop_verdict (E : Env) (self : TLBLib) (t0 fuel : Nat) (tr : List Event) :
    ∃ win, (send_repeat_loop E self t0 fuel tr).2.2 = tr ++ win ∧
      (HighThenLow win → (send_repeat_loop E self t0 fuel tr).1 = some sendError.REPEAT) ∧
      (Event.read true ∉ win →
        (∃ t, Event.millis t ∈ win ∧ self.RPT_TIMEOUT_ms ≤ usub E t t0) →
        (send_repeat_loop E self t0 fuel tr).1 = some sendError.SUCCESS) ∧
      ((send_repeat_loop E self t0 fuel tr).1 = some sendError.REPEAT → HighThenLow win) ∧
      ((send_repeat_loop E self t0 fuel tr).1 = some sendError.SUCCESS →
        Event.read true ∉ win) := by
  obtain ⟨lows, hl, h⟩ := send_repeat_loop_cases E self t0 fuel tr
  have hnh := lows_no_high hl
  rcases h with h | ⟨t, k, ht, h⟩ | ⟨t, k, ht, h⟩ | ⟨ht, h⟩
  · refine ⟨lows, by rw [h], ?_, ?_, by rw [h]; simp, by rw [h]; simp⟩
    · intro hh; exact absurd (highThenLow_high hh) hnh
    · rintro - ⟨t, hm, hle⟩
      exact absurd (lows_in_window hl hm) (Nat.not_lt.2 hle)
  · refine ⟨_, by rw [h], ?_, ?_, by rw [h]; simp, by rw [h]; simp⟩
    · intro hh
      have := highThenLow_low (highThenLow_append_left hnh hh)
      simp at this
    · intro hn; exact absurd (by simp) hn
  · rw [h, exit_send_eq]
    refine ⟨(lows ++ Event.millis t :: Event.read true :: (List.replicate k (Event.read true) ++
        [Event.read false])) ++ (exitDelay self sendError.REPEAT ++
          [Event.millis (millis E (tr ++ (lows ++ Event.millis t :: Event.read true ::
            (List.replicate k (Event.read true) ++ [Event.read false])) ++
              exitDelay self sendError.REPEAT)).1]), by simp, fun _ => rfl, ?_, ?_, by simp⟩
    · intro hn; exact absurd (by simp) hn
    · intro _
      exact ⟨lows ++ [Event.millis t],
        List.replicate k (Event.read true) ++ [Event.read false] ++
          (exitDelay self sendError.REPEAT ++
          [Event.millis (millis E (tr ++ (lows ++ Event.millis t :: Event.read true ::
            (List.replicate k (Event.read true) ++ [Event.read false])) ++
              exitDelay self sendError.REPEAT)).1]), by simp, by simp⟩
  · rw [h, exit_send_eq]
    have hno : Event.read true ∉ (lows ++ [Event.millis (millis E (tr ++ lows)).1]) ++
      (exitDelay self sendError.SUCCESS ++
        [Event.millis (millis E ((millis E (tr ++ lows)).2 ++
          exitDelay self sendError.SUCCESS)).1]) := by
      simp [hnh, read_not_mem_exitDelay]
    exact ⟨_, by simp [millis], fun hh => absurd (highThenLow_high hh) hno, fun _ _ => rfl,
      by simp, fun _ => hno⟩

/-- In a history `pre ++ w :: millis t0' :: win'`, with no read of the millisecond clock in
`pre` or `w` and no acknowledged wait in `win'`, an acknowledged wait directly followed by a
read of the millisecond clock can only be `w`. -/
theorem split_at_ack {pre p win win' : List Event} {t0 t0' : Nat} {w : Event}
    (hpre : ∀ t, Event.millis t ∉ pre) (hw : ∀ t, w ≠ Event.millis t)
    (hwin : Event.waitDone false true ∉ win')
    (h : pre ++ w :: Event.millis t0' :: win' =
      p ++ Event.waitDone false true :: Event.millis t0 :: win) :
    p = pre ∧ w = Event.waitDone false true ∧ t0 = t0' ∧ win = win' := by
  have h' : (pre ++ [w]) ++ Event.millis t0' :: win' =
      (p ++ [Event.waitDone false true]) ++ Event.millis t0 :: win := by simpa using h
  rcases append_cons_cases h' with ⟨h1, h2, h3⟩ | ⟨q, h1, h2⟩ | ⟨q, h1, -⟩
  · obtain ⟨e1, e2⟩ := List.append_inj' h1 rfl
    cases h2
    simp only [List.cons.injEq, and_true] at e2
    exact ⟨e1.symm, e2, rfl, h3.symm⟩
  · exfalso
    rcases List.eq_nil_or_concat q with hq | ⟨q', z, hq⟩
    · subst hq
      have e : p ++ [Event.waitDone false true] =
          (pre ++ [w]) ++ [Event.millis t0'] := by simpa using h1
      have := (List.append_inj' e rfl).2
      simp at this
    · subst hq
      have e : p ++ [Event.waitDone false true] =
          ((pre ++ [w]) ++ Event.millis t0' :: q') ++ [z] := by simpa using h1
      have hz := (List.append_inj' e rfl).2
      simp only [List.cons.injEq, and_true] at hz
      apply hwin
      rw [h2, ← hz]
      simp
  · exfalso
    have hm : Event.millis t0 ∈ pre ++ [w] := by rw [h1]; simp
    rcases List.mem_append.1 hm with hm | hm
    · exact hpre _ hm
    · simp only [List.mem_singleton] at hm
      exact hw _ hm.symm

/-! ## Claim about the repeat window of `send` -/

/-- C4: in every run of `send` in which the checksum byte has been acknowledged, that is
where the history of the run has an acknowledged wait for low directly followed by the read
of the clock that opens the repeat window: if in the window the line is sampled high and
later sampled low, `send` returns `REPEAT`; if the line is never sampled high and the clock
is read `RPT_TIMEOUT_ms` or more past the opening, `send` returns `SUCCESS`.  Conversely
`REPEAT` is returned only after a high and a later low sample, `SUCCESS` only without a high
sample. -/
theorem send_repeat_window (E : Env) (self : TLBLib) (data : List Nat) (fuel : Nat)
    (tr : List Event) :
    ∃ ev, (send E self data fuel tr).2.2 = tr ++ ev ∧
      ∀ p t0 win, ev = p ++ Event.waitDone false true :: Event.millis t0 :: win →
        (HighThenLow win → (send E self data fuel tr).1 = some sendError.REPEAT) ∧
        (Event.read true ∉ win →
          (∃ t, Event.millis t ∈ win ∧ self.RPT_TIMEOUT_ms ≤ usub E t t0) →
          (send E self data fuel tr).1 = some sendError.SUCCESS) ∧
        ((send E self data fuel tr).1 = some sendError.REPEAT → HighThenLow win) ∧
        ((send E self data fuel tr).1 = some sendError.SUCCESS → Event.read true ∉ win) := by
  obtain ⟨pre, acked, hF, hE, -, -, -⟩ := send_cases E self data fuel tr
  rcases hE with ⟨-, h⟩ | ⟨-, st, h⟩ | ⟨-, fuel', h⟩
  · refine ⟨pre, by rw [h], fun p t0 win hsplit => ?_⟩
    exact absurd (hsplit ▸ by simp) (not_millis_of_frame hF (t := t0))
  · rw [exit_send_eq] at h
    refine ⟨pre ++ [Event.waitDone st false] ++ (exitDelay self sendError.FAIL ++
      [Event.millis (millis E (tr ++ (pre ++ [Event.waitDone st false]) ++
        exitDelay self sendError.FAIL)).1]), by rw [h]; simp, fun p t0 win hsplit => ?_⟩
    exfalso
    have hs : (pre ++ [Event.waitDone st false]) ++ Event.delay self.MIN_MESSAGE_RATE_ms ::
        Event.millis (millis E (tr ++ (pre ++ [Event.waitDone st false]) ++
        exitDelay self sendError.FAIL)).1 :: [] =
        p ++ Event.waitDone false true :: Event.millis t0 :: win := by
      rw [← hsplit]; simp [exitDelay]
    have := (split_at_ack (fun t hm => ?_) (fun t => by simp) (by simp) hs).2.1
    · cases this
    · rcases List.mem_append.1 hm with hm | hm
      · exact not_millis_of_frame hF hm
      · simp at hm
  · obtain ⟨win', hw, hA, hB, hC, hD⟩ := send_repeat_loop_verdict E self
      (millis E (tr ++ (pre ++ [Event.waitDone false true]))).1 fuel'
      (millis E (tr ++ (pre ++ [Event.waitDone false true]))).2
    obtain ⟨win2, hwatch, hw2, -⟩ := send_repeat_loop_watch E self
      (millis E (tr ++ (pre ++ [Event.waitDone false true]))).1 fuel'
      (millis E (tr ++ (pre ++ [Event.waitDone false true]))).2
    have hsame : win2 = win' := List.append_cancel_left (hw2.symm.trans hw)
    subst hsame
    rw [← h] at hw hA hB hC hD
    refine ⟨pre ++ Event.waitDone false true ::
      Event.millis (millis E (tr ++ (pre ++ [Event.waitDone false true]))).1 :: win2,
      by rw [hw]; simp [millis], fun p t0 win hsplit => ?_⟩
    obtain ⟨-, -, ht, hwin⟩ := split_at_ack (fun t => not_millis_of_frame hF)
      (fun t => by simp) (not_timeout_of_watch hwatch) hsplit
    subst hwin
    subst ht
    exact ⟨hA, hB, hC, hD⟩

/-- C4, at the scenario of the specification: the checksum byte is acknowledged, the line
stays low through the window, and `send` returns `SUCCESS`; with a pulse right after the
acknowledge it returns `REPEAT`. -/
theorem send_repeat_window_witness :
    (send (scripted (ackScript 4)) defaults demoMessage 100 []).1 = some sendError.SUCCESS ∧
    (send (scripted (ackScript 4 ++ [true, true, false])) defaults demoMessage 100 []).1 =
      some sendError.REPEAT ∧
    ∃ ev, (send (scripted (ackScript 4)) defaults demoMessage 100 []).2.2 = [] ++ ev ∧
      ∀ p t0 win, ev = p ++ Event.waitDone false true :: Event.millis t0 :: win →
        (HighThenLow win →
          (send (scripted (ackScript 4)) defaults demoMessage 100 []).1 =
            some sendError.REPEAT) ∧
        (Event.read true ∉ win →
          (∃ t, Event.millis t ∈ win ∧
            defaults.RPT_TIMEOUT_ms ≤ usub (scripted (ackScript 4)) t t0) →
          (send (scripted (ackScript 4)) defaults demoMessage 100 []).1 =
            some sendError.SUCCESS) ∧
        ((send (scripted (ackScript 4)) defaults demoMessage 100 []).1 =
            some sendError.REPEAT → HighThenLow win) ∧
        ((send (scripted (ackScript 4)) defaults demoMessage 100 []).1 =
            some sendError.SUCCESS → Event.read true ∉ win) :=
  ⟨by decide!, by decide!,
    send_repeat_window (scripted (ackScript 4)) defaults demoMessage 100 []⟩

/-! ## Claim about the bytes handed to the byte channel -/

/-- A run of `send` for a message whose declared length is at most 254, with a byte-transfer
callback: the bytes handed over, also when the run does not return. -/
theorem send_shape_bytes (E : Env) (self : TLBLib) (data : List Nat) (fuel : Nat)
    (tr : List Event) (hcb : self._sendFunction = true) (hL : readByte data 1 ≤ 254) :
    ∃ ev, (send E self data fuel tr).2.2 = tr ++ ev ∧
      sentBytes ev <+: wireBytes data ∧
      (∀ r, (send E self data fuel tr).1 = some r → r ≠ sendError.FAIL →
        sentBytes ev = wireBytes data) ∧
      (∀ p t0 win, ev = p ++ Event.waitDone false true :: Event.millis t0 :: win →
        sentBytes ev = wireBytes data) := by
  obtain ⟨pre, acked, post, hF, hev, hP, -, hA, hcases⟩ := send_shape E self data fuel tr
  rw [wire_eq data hL] at hP hA
  have hpost : sentBytes post = [] := by
    rcases hcases with ⟨-, hp, -⟩ | ⟨-, -, st, hp⟩ | ⟨-, -, t0, win, hp, hw⟩
    · rw [hp]; rfl
    · rw [hp]; rfl
    · rw [hp, sentBytes_cons, sentBytes_cons, sentBytes_quiet (fun e he => by
        have := hw e he
        cases e <;> simp_all [Event.isWatch, Event.isQuiet])]
      rfl
  have hsb : sentBytes (pre ++ post) = sentBytes pre := by
    rw [sentBytes_append, hpost, List.append_nil]
  refine ⟨pre ++ post, hev, by rw [hsb]; exact hP hcb, ?_, ?_⟩
  · intro r hr hne
    rcases hcases with ⟨-, -, h⟩ | ⟨-, h, -⟩ | ⟨ha, -, -⟩
    · rw [h] at hr; cases hr
    · rw [h] at hr; cases hr; exact absurd rfl hne
    · rw [hsb]; exact hA ha hcb
  · intro p t0 win hsplit
    rcases hcases with ⟨-, hp, -⟩ | ⟨-, -, st, hp⟩ | ⟨ha, -, -⟩
    · rw [hp, List.append_nil] at hsplit
      exact absurd (hsplit ▸ by simp) (not_millis_of_frame hF (t := t0))
    · exfalso
      rw [hp] at hsplit
      have hs : (pre ++ [Event.waitDone st false]) ++ Event.delay self.MIN_MESSAGE_RATE_ms ::
          Event.millis (send E self data fuel tr).2.1.message_rate_timer :: [] =
          p ++ Event.waitDone false true :: Event.millis t0 :: win := by
        rw [← hsplit]; simp
      have := (split_at_ack (fun t hm => ?_) (fun t => by simp) (by simp) hs).2.1
      · cases this
      · rcases List.mem_append.1 hm with hm | hm
        · exact not_millis_of_frame hF hm
        · simp at hm
    · rw [hsb]; exact hA ha hcb

/-- C1: for a message with declared length `L = m[1]` at most 254, sent through a
registered byte-transfer callback, the bytes that `send` hands to the callback are always an
initial part of: complement of `m[0]`, complement of `L + 1`, complements of
`m[2], ..., m[L+1]`, complement of the checksum byte; when every wait succeeds they are
exactly these `L + 3` bytes in this order: both when `send` returns something else than
`FAIL`, and as soon as the wait for the acknowledge of the checksum byte has succeeded and
the repeat window is opened. -/
theorem send_hands_wire_bytes (E : Env) (self : TLBLib) (data : List Nat) (fuel : Nat)
    (tr : List Event) (hcb : self._sendFunction = true) (hL : readByte data 1 ≤ 254) :
    ∃ ev, (send E self data fuel tr).2.2 = tr ++ ev ∧
      sentBytes ev <+: wireBytes data ∧
      (∀ r, (send E self data fuel tr).1 = some r → r ≠ sendError.FAIL →
        sentBytes ev = wireBytes data) ∧
      (∀ p t0 win, ev = p ++ Event.waitDone false true :: Event.millis t0 :: win →
        sentBytes ev = wireBytes data) ∧
      wireBytes data = (0xFF ^^^ readByte data 0) :: (0xFF ^^^ (readByte data 1 + 1)) ::
        ((payload data (readByte data 1)).map (fun b => 0xFF ^^^ b) ++
          [0xFF ^^^ checksum data]) ∧
      (wireBytes data).length = readByte data 1 + 3 := by
  obtain ⟨ev, hev, hP, hA, hS⟩ := send_shape_bytes E self data fuel tr hcb hL
  refine ⟨ev, hev, hP, hA, hS, ?_, wireBytes_length data⟩
  simp [wireBytes, covered]

/-- C1, at the message of the specification's scenario on a device that acknowledges
every byte. -/
theorem send_hands_wire_bytes_witness :
    defaults._sendFunction = true ∧ readByte demoMessage 1 ≤ 254 ∧
    (send (scripted (ackScript 4)) defaults demoMessage 100 []).1 = some sendError.SUCCESS ∧
    ∃ ev, (send (scripted (ackScript 4)) defaults demoMessage 100 []).2.2 = [] ++ ev ∧
      sentBytes ev <+: wireBytes demoMessage ∧
      (∀ r, (send (scripted (ackScript 4)) defaults demoMessage 100 []).1 = some r →
        r ≠ sendError.FAIL → sentBytes ev = wireBytes demoMessage) ∧
      (∀ p t0 win, ev = p ++ Event.waitDone false true :: Event.millis t0 :: win →
        sentBytes ev = wireBytes demoMessage) ∧
      wireBytes demoMessage =
        (0xFF ^^^ readByte demoMessage 0) :: (0xFF ^^^ (readByte demoMessage 1 + 1)) ::
        ((payload demoMessage (readByte demoMessage 1)).map (fun b => 0xFF ^^^ b) ++
          [0xFF ^^^ checksum demoMessage]) ∧
      (wireBytes demoMessage).length = readByte demoMessage 1 + 3 :=
  ⟨rfl, by decide, by decide!,
    send_hands_wire_bytes (scripted (ackScript 4)) defaults demoMessage 100 [] rfl (by decide)⟩

/-! ## Pacing after `send` -/

theorem clock_mono_append {E : Env} (hc : MonotonicClock E) (tr ev : List Event) :
    E.millis tr ≤ E.millis (tr ++ ev) := by
  induction ev generalizing tr with
  | nil => simp
  | cons e ev ih =>
    have h1 := hc.1 tr e
    have h2 := ih (tr ++ [e])
    simp only [List.append_assoc, List.singleton_append] at h2
    exact Nat.le_trans h1 h2

theorem usub_le_sub (E : Env) {a b : Nat} (h : b ≤ a) :
    usub E (a % 2 ^ E.ulongBits) (b % 2 ^ E.ulongBits) ≤ a - b := by
  unfold usub
  have hm : 0 < 2 ^ E.ulongBits := Nat.two_pow_pos _
  generalize 2 ^ E.ulongBits = m at hm
  rw [Nat.mod_mod]
  have hb : b % m < m := Nat.mod_lt _ hm
  have key : a % m + m - b % m ≡ a - b [MOD m] := by
    apply Nat.ModEq.add_right_cancel' b
    have h1 : a % m + m - b % m + b ≡ a % m + m - b % m + b % m [MOD m] :=
      Nat.ModEq.add_left _ (Nat.mod_modEq b m).symm
    have h2 : a % m + m - b % m + b % m = a % m + m := by omega
    have h3 : a % m + m ≡ a [MOD m] := by unfold Nat.ModEq; simp
    rw [h2] at h1
    rw [Nat.sub_add_cancel h]
    exact h1.trans h3
  rw [show (a % m + m - b % m) % m = (a - b) % m from key]
  exact Nat.mod_le _ _

/-- Over `exit_send` the clock advances by the pacing delay. -/
theorem exit_send_paces {E : Env} (hc : MonotonicClock E) (self : TLBLib) (r : sendError)
    (tr : List Event) :
    E.millis tr + (if r = sendError.SUCCESS then
        self.MIN_MESSAGE_RATE_ms - self.RPT_TIMEOUT_ms else self.MIN_MESSAGE_RATE_ms) ≤
      E.millis (exit_send E self r tr).2.2 := by
  rw [exit_send_eq]
  simp only []
  have h1 : E.millis tr + (if r = sendError.SUCCESS then
        self.MIN_MESSAGE_RATE_ms - self.RPT_TIMEOUT_ms else self.MIN_MESSAGE_RATE_ms) ≤
      E.millis (tr ++ exitDelay self r) := by
    unfold exitDelay
    by_cases hs : r = sendError.SUCCESS
    · by_cases hlt : self.RPT_TIMEOUT_ms < self.MIN_MESSAGE_RATE_ms
      · simp only [hs, hlt, if_true]
        exact hc.2 tr _
      · simp only [hs, hlt, if_true, if_false, List.append_nil]
        omega
    · simp only [hs, if_false]
      exact hc.2 tr _
  have h2 := clock_mono_append hc (tr ++ exitDelay self r)
    [Event.millis (millis E (tr ++ exitDelay self r)).1]
  rw [List.append_assoc] at h2
  exact Nat.le_trans h1 h2

/-- A repeat window that returns has lasted `MIN_MESSAGE_RATE_ms` or more since its
opening. -/
theorem send_repeat_loop_paces {E : Env} (hc : MonotonicClock E) (self : TLBLib)
    (fuel : Nat) (tr0 : List Event) (r : sendError)
    (hr : (send_repeat_loop E self (millis E tr0).1 fuel (millis E tr0).2).1 = some r) :
    E.millis tr0 + self.MIN_MESSAGE_RATE_ms ≤
      E.millis (send_repeat_loop E self (millis E tr0).1 fuel (millis E tr0).2).2.2 := by
  obtain ⟨lows, -, h⟩ := send_repeat_loop_cases E self (millis E tr0).1 fuel (millis E tr0).2
  rcases h with h | ⟨t, k, -, h⟩ | ⟨t, k, -, h⟩ | ⟨ht, h⟩
  · rw [h] at hr; cases hr
  · rw [h] at hr; cases hr
  · rw [h]
    have h1 := exit_send_paces hc self sendError.REPEAT ((millis E tr0).2 ++ (lows ++
      Event.millis t :: Event.read true :: (List.replicate k (Event.read true) ++
        [Event.read false])))
    have h2 := clock_mono_append hc tr0 ([Event.millis (millis E tr0).1] ++ (lows ++
      Event.millis t :: Event.read true :: (List.replicate k (Event.read true) ++
        [Event.read false])))
    have e : (millis E tr0).2 = tr0 ++ [Event.millis (millis E tr0).1] := rfl
    rw [e, List.append_assoc] at h1
    simp only [if_neg (show sendError.REPEAT ≠ sendError.SUCCESS by decide)] at h1
    rw [e, List.append_assoc]
    omega
  · rw [h]
    have e : (millis E tr0).2 = tr0 ++ [Event.millis (millis E tr0).1] := rfl
    have h1 := exit_send_paces hc self sendError.SUCCESS (millis E ((millis E tr0).2 ++ lows)).2
    simp only [if_true] at h1
    have h2 : E.millis ((millis E tr0).2 ++ lows) ≤
        E.millis (millis E ((millis E tr0).2 ++ lows)).2 := hc.1 _ _
    have h3 : E.millis tr0 ≤ E.millis ((millis E tr0).2 ++ lows) := by
      rw [e, List.append_assoc]; exact clock_mono_append hc _ _
    have h4 := usub_le_sub E h3
    have h5 : self.RPT_TIMEOUT_ms ≤ E.millis ((millis E tr0).2 ++ lows) - E.millis tr0 :=
      Nat.le_trans ht h4
    omega

theorem sent_split_left {X Y a b : List Event} {x : Nat} (hY : ∀ y, Event.sent y ∉ Y)
    (h : X ++ Y = a ++ Event.sent x :: b) : ∃ c, X = (a ++ [Event.sent x]) ++ c := by
  rcases List.append_eq_append_iff.1 h with ⟨a', -, h2⟩ | ⟨c', h1, h2⟩
  · exact absurd (h2 ▸ List.mem_append_right a' (List.mem_cons_self _ _)) (hY x)
  · cases c' with
    | nil =>
      simp only [List.nil_append] at h2
      exact absurd (h2 ▸ List.mem_cons_self _ _) (hY x)
    | cons z c'' =>
      simp only [List.cons_append, List.cons.injEq] at h2
      exact ⟨c'', by rw [h1, ← h2.1]; simp⟩

theorem no_sent_of_watch {p : List Event} (hp : Watch p) (y : Nat) : Event.sent y ∉ p := by
  intro h
  have := hp _ h
  simp [Event.isWatch] at this

theorem usElapsed_append (a b : List Event) : usElapsed (a ++ b) = usElapsed a + usElapsed b := by
  induction a with
  | nil => simp [usElapsed]
  | cons e a ih =>
    have ih' : usElapsed (a.append b) = usElapsed a + usElapsed b := ih
    cases e <;> simp only [List.cons_append, usElapsed, ih, ih'] <;> omega

/-- The simulated platform has a monotonic clock on which a delay takes its time. -/
theorem scripted_clock (script : List Bool) : MonotonicClock (scripted script) := by
  constructor
  · intro tr e
    show usElapsed tr / 1000 ≤ usElapsed (tr ++ [e]) / 1000
    rw [usElapsed_append]
    exact Nat.div_le_div_right (Nat.le_add_right _ _)
  · intro tr n
    show usElapsed tr / 1000 + n ≤ usElapsed (tr ++ [Event.delay n]) / 1000
    rw [usElapsed_append]
    simp only [usElapsed]
    omega

/-! ## Claim about the spacing after `send` -/

/-- C6: on a monotonic millisecond clock on which `delay(n)` takes at least `n`, for every
message, every setting of the timing constants and every outcome, when `send` returns the
clock stands at least `MIN_MESSAGE_RATE_ms` past the moment the call began and at least
`MIN_MESSAGE_RATE_ms` past every byte this call handed to the byte-transfer callback, the
last one included. -/
theorem send_keeps_message_rate (E : Env) (self : TLBLib) (data : List Nat) (fuel : Nat)
    (tr : List Event) (hc : MonotonicClock E) (r : sendError)
    (hr : (send E self data fuel tr).1 = some r) :
    ∃ ev, (send E self data fuel tr).2.2 = tr ++ ev ∧
      E.millis tr + self.MIN_MESSAGE_RATE_ms ≤ E.millis (tr ++ ev) ∧
      ∀ a x b, ev = a ++ Event.sent x :: b →
        E.millis (tr ++ a ++ [Event.sent x]) + self.MIN_MESSAGE_RATE_ms ≤
          E.millis (tr ++ ev) := by
  have key : ∃ X Y, (send E self data fuel tr).2.2 = tr ++ (X ++ Y) ∧
      (∀ y, Event.sent y ∉ Y) ∧
      E.millis (tr ++ X) + self.MIN_MESSAGE_RATE_ms ≤ E.millis (tr ++ (X ++ Y)) := by
    obtain ⟨pre, acked, -, hE, -, -, -⟩ := send_cases E self data fuel tr
    rcases hE with ⟨-, h⟩ | ⟨-, st, h⟩ | ⟨-, fuel', h⟩
    · rw [h] at hr; cases hr
    · have hp := exit_send_paces hc self sendError.FAIL
        (tr ++ (pre ++ [Event.waitDone st false]))
      simp only [if_neg (show sendError.FAIL ≠ sendError.SUCCESS by decide)] at hp
      obtain ⟨post, hw, he⟩ := exit_send_watch E self sendError.FAIL
        (tr ++ (pre ++ [Event.waitDone st false]))
      rw [he] at hp
      refine ⟨pre ++ [Event.waitDone st false], post, ?_, no_sent_of_watch hw, ?_⟩
      · rw [h, he]; simp
      · simpa using hp
    · rw [h] at hr
      have hp := send_repeat_loop_paces hc self fuel'
        (tr ++ (pre ++ [Event.waitDone false true])) r hr
      obtain ⟨win, hw, hwe, -⟩ := send_repeat_loop_watch E self
        (millis E (tr ++ (pre ++ [Event.waitDone false true]))).1 fuel'
        (millis E (tr ++ (pre ++ [Event.waitDone false true]))).2
      rw [hwe] at hp
      refine ⟨pre ++ [Event.waitDone false true],
        Event.millis (millis E (tr ++ (pre ++ [Event.waitDone false true]))).1 :: win, ?_, ?_, ?_⟩
      · rw [h, hwe]; simp [millis]
      · intro y hy
        rcases List.mem_cons.1 hy with hy | hy
        · cases hy
        · exact no_sent_of_watch hw y hy
      · simpa [millis] using hp
  obtain ⟨X, Y, hev, hY, hp⟩ := key
  refine ⟨X ++ Y, hev, ?_, ?_⟩
  · have := clock_mono_append hc tr X
    omega
  · intro a x b hsplit
    obtain ⟨c, hc'⟩ := sent_split_left hY hsplit
    have := clock_mono_append hc (tr ++ a ++ [Event.sent x]) c
    have e : tr ++ a ++ [Event.sent x] ++ c = tr ++ X := by rw [hc']; simp
    rw [e] at this
    omega

/-- C6, at the scenario of the specification on the simulated platform. -/
theorem send_keeps_message_rate_witness :
    MonotonicClock (scripted (ackScript 4)) ∧
    (send (scripted (ackScript 4)) defaults demoMessage 100 []).1 = some sendError.SUCCESS ∧
    ∃ ev, (send (scripted (ackScript 4)) defaults demoMessage 100 []).2.2 = [] ++ ev ∧
      (scripted (ackScript 4)).millis [] + defaults.MIN_MESSAGE_RATE_ms ≤
        (scripted (ackScript 4)).millis ([] ++ ev) ∧
      ∀ a x b, ev = a ++ Event.sent x :: b →
        (scripted (ackScript 4)).millis ([] ++ a ++ [Event.sent x]) +
          defaults.MIN_MESSAGE_RATE_ms ≤ (scripted (ackScript 4)).millis ([] ++ ev) :=
  ⟨scripted_clock _, by decide!,
    send_keeps_message_rate (scripted (ackScript 4)) defaults demoMessage 100 []
      (scripted_clock _) sendError.SUCCESS (by decide!)⟩

/-! ## The window of `turnOff` -/

/-- Shape of the history written by the window of `turnOff`: low samples inside the window,
then one of four endings. -/
theorem turnOff_window_cases (E : Env) (self : TLBLib) (t0 : Nat) (fuel : Nat) :
    ∀ tr, ∃ lows, Lows E self.RPT_TIMEOUT_ms t0 lows ∧
      (turnOff_window E self t0 fuel tr = (none, self, tr ++ lows) ∨
       (∃ t k, usub E t t0 < self.RPT_TIMEOUT_ms ∧
          turnOff_window E self t0 fuel tr =
            (none, self, tr ++ (lows ++ Event.millis t :: Event.read true ::
              List.replicate k (Event.read true)))) ∨
       (∃ t k t', usub E t t0 < self.RPT_TIMEOUT_ms ∧
          turnOff_window E self t0 fuel tr =
            (some true, { self with message_rate_timer := t' },
              tr ++ (lows ++ Event.millis t :: Event.read true ::
                (List.replicate k (Event.read true) ++ [Event.read false, Event.millis t',
                  Event.delay self.MIN_MESSAGE_RATE_ms])))) ∨
       (self.RPT_TIMEOUT_ms ≤ usub E (millis E (tr ++ lows)).1 t0 ∧
          turnOff_window E self t0 fuel tr = (some false, self, (millis E (tr ++ lows)).2))) := by
  induction fuel with
  | zero => intro tr; exact ⟨[], lows_nil _ _ _, Or.inl (by simp [turnOff_window])⟩
  | succ n ih =>
    intro tr
    unfold turnOff_window
    by_cases h1 : usub E (millis E tr).1 t0 < self.RPT_TIMEOUT_ms
    · rw [if_pos h1]
      by_cases h2 : (digitalRead E (millis E tr).2).1 = true
      · rw [if_pos h2]
        have e2 : (digitalRead E (millis E tr).2).2 =
            tr ++ [Event.millis (millis E tr).1, Event.read true] := by
          simp only [digitalRead] at h2 ⊢; rw [h2]; simp [millis]
        refine ⟨[], lows_nil _ _ _, Or.inr ?_⟩
        obtain ⟨k, hk | hk⟩ := wait_while_high_cases E n (digitalRead E (millis E tr).2).2
        · refine Or.inl ⟨(millis E tr).1, k, h1, ?_⟩
          rw [hk, e2]; simp
        · refine Or.inr (Or.inl ⟨(millis E tr).1, k,
            (millis E (tr ++ [Event.millis (millis E tr).1, Event.read true] ++
              (List.replicate k (Event.read true) ++ [Event.read false]))).1, h1, ?_⟩)
          rw [hk, e2]
          simp only [millis, delay]
          simp
      · rw [if_neg h2]
        have e2 : (digitalRead E (millis E tr).2).2 =
            tr ++ [Event.millis (millis E tr).1, Event.read false] := by
          simp only [digitalRead, Bool.not_eq_true] at h2 ⊢; rw [h2]; simp [millis]
        obtain ⟨lows, hl, h⟩ := ih (digitalRead E (millis E tr).2).2
        refine ⟨Event.millis (millis E tr).1 :: Event.read false :: lows, lows_cons2 h1 hl, ?_⟩
        rw [e2] at h ⊢
        simpa [List.append_assoc] using h
    · rw [if_neg h1]
      exact ⟨[], lows_nil _ _ _, Or.inr (Or.inr (Or.inr ⟨by simpa using Nat.le_of_not_lt h1,
        by simp⟩))⟩

theorem afterHighSample_skip {a : List Event} (ha : ∀ e ∈ a, e.isMillis = false)
    (b : List Event) : afterHighSample (a ++ b) = afterHighSample b := by
  induction a with
  | nil => rfl
  | cons e a' ih =>
    have he : e.isMillis = false := ha e (List.mem_cons_self _ _)
    rw [List.cons_append, afterHighSample, if_neg (by simp [he])]
    exact ih (fun x hx => ha x (List.mem_cons_of_mem _ hx))

theorem afterHighSample_lows {E : Env} {limit timer : Nat} {p : List Event}
    (h : Lows E limit timer p) (b : List Event) :
    afterHighSample (p ++ b) = afterHighSample b := by
  induction h with
  | nil => rfl
  | cons t p _ _ ih =>
    rw [List.cons_append, List.cons_append, afterHighSample, if_neg (by simp), afterHighSample,
      if_neg (by simp [Event.isMillis])]
    exact ih

theorem afterHighSample_cons {e : Event} {l : List Event}
    (h : l.head? ≠ some (Event.read true)) :
    afterHighSample (e :: l) = afterHighSample l := by
  rw [afterHighSample, if_neg (fun hc => h hc.2)]

theorem afterHighSample_hit (t : Nat) (l : List Event) :
    afterHighSample (Event.millis t :: Event.read true :: l) = some l := by
  rw [afterHighSample, if_pos ⟨rfl, rfl⟩]
  rfl

theorem frames_replicate_read (k : Nat) (v : Bool) :
    frames (List.replicate k (Event.read v)) = [] :=
  frames_quiet (quiet_replicate k v)

theorem frames_cons (e : Event) (l : List Event) :
    frames (e :: l) = e.frameOpcode.toList ++ frames l := by
  unfold frames
  rw [List.filterMap_cons]
  cases e.frameOpcode <;> rfl

theorem frames_nil : frames [] = [] := rfl

theorem polls_no_millis {p : List Event} (hp : Polls p) : ∀ e ∈ p, e.isMillis = false := by
  intro e he
  have := hp e he
  cases e <;> simp_all [Event.isPoll, Event.isMillis]

theorem drive_no_millis (self : TLBLib) (opcode : Nat) :
    ∀ e ∈ driveEvents self opcode, e.isMillis = false := by
  unfold driveEvents
  by_cases hs : self._sendFunction = true <;> simp [hs, Event.isMillis]

theorem frames_drive (self : TLBLib) (opcode : Nat) : frames (driveEvents self opcode) = [] := by
  unfold driveEvents
  by_cases hs : self._sendFunction = true <;>
    simp [hs, frames_cons, frames_nil, Event.frameOpcode]

theorem delays_nil : delays [] = [] := rfl

theorem delays_append (a b : List Event) : delays (a ++ b) = delays a ++ delays b :=
  List.filterMap_append _ _ _

theorem delays_cons (e : Event) (l : List Event) :
    delays (e :: l) = e.delayArg.toList ++ delays l := by
  unfold delays
  rw [List.filterMap_cons]
  cases e.delayArg <;> rfl

theorem delays_polls {p : List Event} (hp : Polls p) : delays p = [] :=
  filterMap_polls _ (fun _ => rfl) (fun _ => rfl) hp

theorem delays_drive (self : TLBLib) (opcode : Nat) : delays (driveEvents self opcode) = [] := by
  unfold driveEvents
  by_cases hs : self._sendFunction = true <;>
    simp [hs, delays_cons, delays_nil, Event.delayArg]

/-- A call of `send_opcode` starts one frame, reads no millisecond clock and does not
delay. -/
theorem send_opcode_frame (E : Env) (self : TLBLib) (opcode fuel : Nat) (tr : List Event) :
    ∃ F, (send_opcode E self opcode fuel tr).2 = tr ++ (Event.opcodeFrame opcode :: F) ∧
      (∀ e ∈ F, e.isMillis = false) ∧ frames F = [] ∧ delays F = [] := by
  obtain ⟨p1, p2, hp1, hp2, h⟩ := send_opcode_cases E self opcode fuel tr
  have m1 := polls_no_millis hp1
  have m2 := polls_no_millis hp2
  have md := drive_no_millis self opcode
  have f1 := frames_polls hp1
  have f2 := frames_polls hp2
  have fd := frames_drive self opcode
  have d1 := delays_polls hp1
  have d2 := delays_polls hp2
  have dd := delays_drive self opcode
  rcases h with h | h | h | h | ⟨h, -⟩
  · exact ⟨p1, by rw [h], m1, f1, d1⟩
  · refine ⟨p1 ++ [Event.waitDone false false], by rw [h]; simp, ?_, ?_, ?_⟩
    · intro e he
      rcases List.mem_append.1 he with he | he
      · exact m1 e he
      · simp only [List.mem_singleton] at he; rw [he]; rfl
    · rw [frames_append, f1]; rfl
    · rw [delays_append, d1]; rfl
  · refine ⟨p1 ++ Event.waitDone false true :: driveEvents self opcode ++ p2,
      by rw [h]; simp, ?_, ?_, ?_⟩
    · intro e he
      simp only [List.mem_append, List.mem_cons] at he
      rcases he with (he | he | he) | he
      · exact m1 e he
      · rw [he]; rfl
      · exact md e he
      · exact m2 e he
    · simp [frames_append, frames_cons, f1, f2, fd, Event.frameOpcode]
    · simp [delays_append, delays_cons, d1, d2, dd, Event.delayArg]
  · refine ⟨p1 ++ Event.waitDone false true :: driveEvents self opcode ++ p2 ++
      [Event.waitDone false false], by rw [h]; simp, ?_, ?_, ?_⟩
    · intro e he
      simp only [List.mem_append, List.mem_cons, List.mem_singleton, List.not_mem_nil,
        or_false] at he
      rcases he with ((he | he | he) | he) | he
      · exact m1 e he
      · rw [he]; rfl
      · exact md e he
      · exact m2 e he
      · rw [he]; rfl
    · simp [frames_append, frames_cons, frames_nil, f1, f2, fd, Event.frameOpcode]
    · simp [delays_append, delays_cons, delays_nil, d1, d2, dd, Event.delayArg]
  · refine ⟨p1 ++ Event.waitDone false true :: driveEvents self opcode ++ p2 ++
      [Event.waitDone false true], by rw [h]; simp, ?_, ?_, ?_⟩
    · intro e he
      simp only [List.mem_append, List.mem_cons, List.mem_singleton, List.not_mem_nil,
        or_false] at he
      rcases he with ((he | he | he) | he) | he
      · exact m1 e he
      · rw [he]; rfl
      · exact md e he
      · exact m2 e he
      · rw [he]; rfl
    · simp [frames_append, frames_cons, frames_nil, f1, f2, fd, Event.frameOpcode]
    · simp [delays_append, delays_cons, delays_nil, d1, d2, dd, Event.delayArg]

theorem lows_head {E : Env} {limit timer : Nat} {p : List Event} (h : Lows E limit timer p)
    {Y : List Event} (hY : Y.head? ≠ some (Event.read true)) :
    (p ++ Y).head? ≠ some (Event.read true) := by
  cases h with
  | nil => exact hY
  | cons t p _ _ => simp

theorem afterHighSample_nil : afterHighSample [] = none := rfl

/-- The window of `turnOff`, as seen by `afterHighSample`. -/
theorem turnOff_window_summary (E : Env) (self : TLBLib) (t0 fuel : Nat) (tr : List Event) :
    ∃ w, (turnOff_window E self t0 fuel tr).2.2 = tr ++ w ∧ frames w = [] ∧
      (∀ Y, Y.head? ≠ some (Event.read true) → (w ++ Y).head? ≠ some (Event.read true)) ∧
      ((turnOff_window E self t0 fuel tr).1 = some false →
        ∀ Y, Y.head? ≠ some (Event.read true) →
          afterHighSample (w ++ Y) = afterHighSample Y) ∧
      ((turnOff_window E self t0 fuel tr).1 ≠ some false →
        ∀ rest, afterHighSample w = some rest →
          frames rest = [] ∧
          (Event.read false ∈ rest → (turnOff_window E self t0 fuel tr).1 = some true)) ∧
      ((turnOff_window E self t0 fuel tr).1 = some true → afterHighSample w ≠ none) := by
  obtain ⟨lows, hl, h⟩ := turnOff_window_cases E self t0 fuel tr
  have hfl : frames lows = [] := frames_quiet (quiet_lows hl)
  rcases h with h | ⟨t, k, -, h⟩ | ⟨t, k, t', -, h⟩ | ⟨-, h⟩
  · refine ⟨lows, by rw [h], hfl, fun Y hY => lows_head hl hY, by rw [h]; simp, ?_,
      by rw [h]; simp⟩
    intro _ rest hrest
    have := afterHighSample_lows hl []
    rw [List.append_nil, afterHighSample_nil] at this
    rw [this] at hrest
    cases hrest
  · refine ⟨lows ++ Event.millis t :: Event.read true :: List.replicate k (Event.read true),
      by rw [h], ?_, fun Y _ => by rw [List.append_assoc]; exact lows_head hl (by simp),
      by rw [h]; simp, ?_, by rw [h]; simp⟩
    · rw [frames_append, hfl, frames_cons, frames_cons, frames_replicate_read]; rfl
    · intro _ rest hrest
      rw [afterHighSample_lows hl, afterHighSample_hit] at hrest
      cases hrest
      exact ⟨frames_replicate_read _ _, fun hm => by simp at hm⟩
  · refine ⟨lows ++ Event.millis t :: Event.read true :: (List.replicate k (Event.read true) ++
      [Event.read false, Event.millis t', Event.delay self.MIN_MESSAGE_RATE_ms]),
      by rw [h], ?_, fun Y _ => by rw [List.append_assoc]; exact lows_head hl (by simp),
      by rw [h]; simp, ?_, ?_⟩
    · rw [frames_append, hfl, frames_cons, frames_cons, frames_append,
        frames_replicate_read]
      rfl
    · intro _ rest hrest
      rw [afterHighSample_lows hl, afterHighSample_hit] at hrest
      cases hrest
      refine ⟨?_, fun _ => by rw [h]⟩
      rw [frames_append, frames_replicate_read]
      rfl
    · intro _
      rw [afterHighSample_lows hl, afterHighSample_hit]
      simp
  · refine ⟨lows ++ [Event.millis (millis E (tr ++ lows)).1], by rw [h]; simp [millis], ?_,
      fun Y _ => ?_, ?_, by rw [h]; simp, by rw [h]; simp⟩
    · rw [frames_append, hfl]; rfl
    · rw [List.append_assoc]; exact lows_head hl (by simp)
    · intro _ Y hY
      rw [List.append_assoc, afterHighSample_lows hl, List.singleton_append,
        afterHighSample_cons hY]

/-- The loop of `turnOff` with `c` attempts already made: it starts at most `11 - c` more
frames, all with the turn-off opcode, and after the first high sample in a window it starts
none and, once the line is sampled low again, returns. -/
theorem turnOff_loop_attempts (E : Env) (self : TLBLib) (fuel : Nat) :
    ∀ c tr, c ≤ 10 → ∃ ev, (turnOff_loop E self fuel c tr).2.2 = tr ++ ev ∧
      (frames ev).length ≤ 11 - c ∧ (∀ op ∈ frames ev, op = TURN_OFF_OPCODE) ∧
      ev.head? ≠ some (Event.read true) ∧
      (∀ rest, afterHighSample ev = some rest →
        frames rest = [] ∧
        (Event.read false ∈ rest → (turnOff_loop E self fuel c tr).1 = some ())) := by
  induction fuel with
  | zero =>
    intro c tr _
    exact ⟨[], by simp [turnOff_loop], by simp [frames_nil], by simp [frames_nil], by simp,
      fun rest h => by cases h⟩
  | succ n ih =>
    intro c tr hc
    obtain ⟨F, hF, hFm, hFf, -⟩ := send_opcode_frame E self TURN_OFF_OPCODE n tr
    have hFm' : ∀ e ∈ Event.opcodeFrame TURN_OFF_OPCODE :: F, e.isMillis = false := by
      intro e he
      rcases List.mem_cons.1 he with he | he
      · rw [he]; rfl
      · exact hFm e he
    have hframes1 : frames (Event.opcodeFrame TURN_OFF_OPCODE :: F) = [TURN_OFF_OPCODE] := by
      rw [frames_cons, hFf]; rfl
    have hskip0 := afterHighSample_skip hFm' []
    rw [List.append_nil, afterHighSample_nil] at hskip0
    have single : ∀ (res : Option Unit × TLBLib × List Event),
        res.2.2 = tr ++ (Event.opcodeFrame TURN_OFF_OPCODE :: F) →
        ∃ ev, res.2.2 = tr ++ ev ∧
          (frames ev).length ≤ 11 - c ∧ (∀ op ∈ frames ev, op = TURN_OFF_OPCODE) ∧
          ev.head? ≠ some (Event.read true) ∧
          (∀ rest, afterHighSample ev = some rest →
            frames rest = [] ∧ (Event.read false ∈ rest → res.1 = some ())) := by
      intro res hres
      refine ⟨_, hres, ?_, ?_, by simp, fun rest h => ?_⟩
      · rw [hframes1]; simp; omega
      · rw [hframes1]; simp
      · rw [hskip0] at h; cases h
    unfold turnOff_loop
    rcases hso : send_opcode E self TURN_OFF_OPCODE n tr with ⟨_ | b, tr1⟩
    · rw [hso] at hF
      exact single (none, self, tr1) hF
    · rw [hso] at hF
      simp only [] at hF ⊢
      by_cases h10 : c ≥ 10
      · rw [if_pos h10]
        exact single (some (), self, tr1) hF
      · rw [if_neg h10]
        have e1 : (millis E tr1).2 =
            tr ++ (Event.opcodeFrame TURN_OFF_OPCODE :: F ++ [Event.millis (millis E tr1).1]) := by
          rw [hF]; simp [millis]
        obtain ⟨w, hw, hwf, hwh, hwT, hwN, -⟩ :=
          turnOff_window_summary E self (millis E tr1).1 n (millis E tr1).2
        have hc1 : (c + 1) % 256 = c + 1 := Nat.mod_eq_of_lt (by omega)
        have stop : ∀ (r : Option Unit) (self1 : TLBLib) (tr2 : List Event),
            tr2 = (millis E tr1).2 ++ w →
            (∀ rest, afterHighSample w = some rest →
              frames rest = [] ∧ (Event.read false ∈ rest → r = some ())) →
            ∃ ev, (r, self1, tr2).2.2 = tr ++ ev ∧
              (frames ev).length ≤ 11 - c ∧ (∀ op ∈ frames ev, op = TURN_OFF_OPCODE) ∧
              ev.head? ≠ some (Event.read true) ∧
              (∀ rest, afterHighSample ev = some rest →
                frames rest = [] ∧ (Event.read false ∈ rest → (r, self1, tr2).1 = some ())) := by
          intro r self1 tr2 htr2 hrest
          refine ⟨(Event.opcodeFrame TURN_OFF_OPCODE :: F) ++
            Event.millis (millis E tr1).1 :: w, ?_, ?_, ?_, by simp, ?_⟩
          · simp only []; rw [htr2, e1]; simp
          · rw [frames_append, hframes1, frames_cons, hwf]; simp [Event.frameOpcode]; omega
          · rw [frames_append, hframes1, frames_cons, hwf]; simp [Event.frameOpcode]
          · intro rest h
            rw [afterHighSample_skip hFm', afterHighSample_cons] at h
            · exact hrest rest h
            · have := hwh [] (by simp)
              rwa [List.append_nil] at this
        rcases htw : turnOff_window E self (millis E tr1).1 n (millis E tr1).2 with
          ⟨_ | _ | _, self1, tr2⟩
        · rw [htw] at hw hwN
          simp only [] at hw ⊢
          exact stop none self1 tr2 hw (fun rest h => ⟨(hwN (by simp) rest h).1, fun hm => by
            have := (hwN (by simp) rest h).2 hm
            cases this⟩)
        · rw [htw] at hw hwT
          simp only [] at hw ⊢
          rw [hc1]
          generalize hDl : (if self.MIN_MESSAGE_RATE_ms > self.RPT_TIMEOUT_ms then
            [Event.delay (self.MIN_MESSAGE_RATE_ms - self.RPT_TIMEOUT_ms)] else []) = Dl
          have hDm : ∀ e ∈ Dl, e.isMillis = false := by
            rw [← hDl]
            split <;> simp [Event.isMillis]
          have hDf : frames Dl = [] := by
            rw [← hDl]
            split <;> simp [frames_cons, frames_nil, Event.frameOpcode]
          have hDh : ∀ Y : List Event, Y.head? ≠ some (Event.read true) →
              (Dl ++ Y).head? ≠ some (Event.read true) := by
            intro Y hY
            rw [← hDl]
            split
            · simp
            · simpa using hY
          have hD : (if self.MIN_MESSAGE_RATE_ms > self.RPT_TIMEOUT_ms then
              delay (self.MIN_MESSAGE_RATE_ms - self.RPT_TIMEOUT_ms) tr2 else tr2) = tr2 ++ Dl := by
            rw [← hDl]
            split <;> simp [delay]
          rw [hD]
          obtain ⟨ev, hev, hlen, hops, hhead, hrest⟩ := ih (c + 1) (tr2 ++ Dl) (by omega)
          refine ⟨(Event.opcodeFrame TURN_OFF_OPCODE :: F) ++
            Event.millis (millis E tr1).1 :: (w ++ (Dl ++ ev)), ?_, ?_, ?_, by simp, ?_⟩
          · rw [hev, hw, e1]; simp
          · rw [frames_append, hframes1, frames_cons, frames_append, frames_append, hwf, hDf]
            simp [Event.frameOpcode]
            omega
          · rw [frames_append, hframes1, frames_cons, frames_append, frames_append, hwf, hDf]
            intro op hop
            simp [Event.frameOpcode] at hop
            rcases hop with hop | hop
            · exact hop
            · exact hops op hop
          · intro rest h
            rw [afterHighSample_skip hFm', afterHighSample_cons (hwh _ (hDh _ hhead)),
              hwT rfl _ (hDh _ hhead), afterHighSample_skip hDm] at h
            exact hrest rest h
        · rw [htw] at hw hwN
          simp only [] at hw ⊢
          simpa using stop (some ()) self1 tr2 hw (fun rest h => ⟨(hwN (by simp) rest h).1,
            fun _ => rfl⟩)

/-- The loop of `turnOff` when it returns without a high sample in any window: it has used
up its attempts, the handle is as it was, and nothing follows the last call of
`send_opcode`. -/
theorem turnOff_loop_exhausted (E : Env) (self : TLBLib) (fuel : Nat) :
    ∀ c tr ev, c ≤ 10 → (turnOff_loop E self fuel c tr).2.2 = tr ++ ev →
      (turnOff_loop E self fuel c tr).1 = some () → afterHighSample ev = none →
      (turnOff_loop E self fuel c tr).2.1 = self ∧ (frames ev).length = 11 - c ∧
      ∃ pre F, ev = pre ++ Event.opcodeFrame TURN_OFF_OPCODE :: F ∧
        (∀ e ∈ F, e.isMillis = false) ∧ frames F = [] ∧ delays F = [] := by
  induction fuel with
  | zero =>
    intro c tr ev _ _ hret _
    simp [turnOff_loop] at hret
  | succ n ih =>
    intro c tr ev hc hev hret hno
    obtain ⟨F, hF, hFm, hFf, hFd⟩ := send_opcode_frame E self TURN_OFF_OPCODE n tr
    have hFm' : ∀ e ∈ Event.opcodeFrame TURN_OFF_OPCODE :: F, e.isMillis = false := by
      intro e he
      rcases List.mem_cons.1 he with he | he
      · rw [he]; rfl
      · exact hFm e he
    have hframes1 : frames (Event.opcodeFrame TURN_OFF_OPCODE :: F) = [TURN_OFF_OPCODE] := by
      rw [frames_cons, hFf]; rfl
    unfold turnOff_loop at hev hret ⊢
    rcases hso : send_opcode E self TURN_OFF_OPCODE n tr with ⟨_ | b, tr1⟩
    · rw [hso] at hret
      simp at hret
    · rw [hso] at hF hev hret
      simp only [] at hF hev hret ⊢
      by_cases h10 : c ≥ 10
      · rw [if_pos h10] at hev ⊢
        simp only [] at hev
        have e : ev = Event.opcodeFrame TURN_OFF_OPCODE :: F :=
          (List.append_cancel_left (hF.symm.trans hev)).symm
        refine ⟨rfl, ?_, [], F, by rw [e]; rfl, hFm, hFf, hFd⟩
        rw [e, hframes1]
        simp
        omega
      · rw [if_neg h10] at hev hret ⊢
        have e1 : (millis E tr1).2 =
            tr ++ (Event.opcodeFrame TURN_OFF_OPCODE :: F ++ [Event.millis (millis E tr1).1]) := by
          rw [hF]; simp [millis]
        obtain ⟨w, hw, hwf, hwh, hwT, -, hwC⟩ :=
          turnOff_window_summary E self (millis E tr1).1 n (millis E tr1).2
        have hc1 : (c + 1) % 256 = c + 1 := Nat.mod_eq_of_lt (by omega)
        rcases htw : turnOff_window E self (millis E tr1).1 n (millis E tr1).2 with
          ⟨_ | _ | _, self1, tr2⟩
        · rw [htw] at hret
          simp at hret
        · rw [htw] at hw hwT hev hret
          simp only [] at hw hev hret ⊢
          rw [hc1] at hev hret ⊢
          generalize hDl : (if self.MIN_MESSAGE_RATE_ms > self.RPT_TIMEOUT_ms then
            [Event.delay (self.MIN_MESSAGE_RATE_ms - self.RPT_TIMEOUT_ms)] else []) = Dl
          have hDm : ∀ e ∈ Dl, e.isMillis = false := by
            rw [← hDl]
            split <;> simp [Event.isMillis]
          have hDh : ∀ Y : List Event, Y.head? ≠ some (Event.read true) →
              (Dl ++ Y).head? ≠ some (Event.read true) := by
            intro Y hY
            rw [← hDl]
            split
            · simp
            · simpa using hY
          have hDf : frames Dl = [] := by
            rw [← hDl]
            split <;> simp [frames_cons, frames_nil, Event.frameOpcode]
          have hD : (if self.MIN_MESSAGE_RATE_ms > self.RPT_TIMEOUT_ms then
              delay (self.MIN_MESSAGE_RATE_ms - self.RPT_TIMEOUT_ms) tr2 else tr2) = tr2 ++ Dl := by
            rw [← hDl]
            split <;> simp [delay]
          rw [hD] at hev hret ⊢
          obtain ⟨ev', hev', -, -, hhead, -⟩ :=
            turnOff_loop_attempts E self n (c + 1) (tr2 ++ Dl) (by omega)
          have e : ev = (Event.opcodeFrame TURN_OFF_OPCODE :: F) ++
              Event.millis (millis E tr1).1 :: (w ++ (Dl ++ ev')) := by
            refine @List.append_cancel_left _ tr _ _ ?_
            rw [← hev, hev', hw, e1]
            simp
          have hno' : afterHighSample ev' = none := by
            rw [e, afterHighSample_skip hFm', afterHighSample_cons (hwh _ (hDh _ hhead)),
              hwT rfl _ (hDh _ hhead), afterHighSample_skip hDm] at hno
            exact hno
          obtain ⟨hs, hl, pre, F', hpre, hm, hf, hd⟩ :=
            ih (c + 1) (tr2 ++ Dl) ev' (by omega) hev' hret hno'
          refine ⟨hs, ?_, (Event.opcodeFrame TURN_OFF_OPCODE :: F) ++
              Event.millis (millis E tr1).1 :: (w ++ (Dl ++ pre)), F', ?_, hm, hf, hd⟩
          · rw [e, frames_append, hframes1, frames_cons, frames_append, frames_append, hwf, hDf]
            simp [Event.frameOpcode]
            omega
          · rw [e, hpre]; simp
        · exfalso
          rw [htw] at hw hwC hev
          simp only [] at hw hev
          have e : ev = (Event.opcodeFrame TURN_OFF_OPCODE :: F) ++
              Event.millis (millis E tr1).1 :: w := by
            refine @List.append_cancel_left _ tr _ _ ?_
            rw [← hev, hw, e1]
            simp
          rw [e, afterHighSample_skip hFm', afterHighSample_cons] at hno
          · exact hwC rfl hno
          · have := hwh [] (by simp)
            rwa [List.append_nil] at this

/-- A call of `turnOff` that returns without a high sample in any window: eleven frames
were started, the handle is as it was, and after the start of the last frame the
millisecond clock is not read and nothing is delayed. -/
theorem turnOff_exhausted (E : Env) (self : TLBLib) (fuel : Nat) (tr ev : List Event)
    (hev : (turnOff E self fuel tr).2.2 = tr ++ ev) (hret : (turnOff E self fuel tr).1 = some ())
    (hno : afterHighSample ev = none) :
    (turnOff E self fuel tr).2.1 = self ∧ (frames ev).length = 11 ∧
    ∃ pre F, ev = pre ++ Event.opcodeFrame TURN_OFF_OPCODE :: F ∧
      (∀ e ∈ F, e.isMillis = false) ∧ frames F = [] ∧ delays F = [] := by
  unfold turnOff at hev hret ⊢
  generalize hP : (if usub E (millis E tr).1 self.message_rate_timer < self.MIN_MESSAGE_RATE_ms
      then [Event.delay (self.MIN_MESSAGE_RATE_ms -
        usub E (millis E tr).1 self.message_rate_timer)] else []) = P
  have hPm : ∀ e ∈ P, e.isMillis = false := by
    rw [← hP]; split <;> simp [Event.isMillis]
  have hPf : frames P = [] := by
    rw [← hP]; split <;> simp [frames_cons, frames_nil, Event.frameOpcode]
  have hPh : ∀ Y : List Event, Y.head? ≠ some (Event.read true) →
      (P ++ Y).head? ≠ some (Event.read true) := by
    intro Y hY
    rw [← hP]
    split
    · simp
    · simpa using hY
  have hPe : (if usub E (millis E tr).1 self.message_rate_timer < self.MIN_MESSAGE_RATE_ms then
      delay (self.MIN_MESSAGE_RATE_ms - usub E (millis E tr).1 self.message_rate_timer)
        (millis E tr).2 else (millis E tr).2) =
      tr ++ (Event.millis (millis E tr).1 :: P) := by
    rw [← hP]
    split <;> simp [delay, millis]
  rw [hPe] at hev hret ⊢
  obtain ⟨ev', hev', -, -, hhead, -⟩ := turnOff_loop_attempts E self fuel 0
    (tr ++ (Event.millis (millis E tr).1 :: P)) (by omega)
  have e : ev = Event.millis (millis E tr).1 :: (P ++ ev') := by
    refine @List.append_cancel_left _ tr _ _ ?_
    rw [← hev, hev']
    simp
  have hno' : afterHighSample ev' = none := by
    rw [e, afterHighSample_cons (hPh _ hhead), afterHighSample_skip hPm] at hno
    exact hno
  obtain ⟨hs, hl, pre, F, hpre, hm, hf, hd⟩ := turnOff_loop_exhausted E self fuel 0
    (tr ++ (Event.millis (millis E tr).1 :: P)) ev' (by omega) hev' hret hno'
  refine ⟨hs, ?_, Event.millis (millis E tr).1 :: (P ++ pre), F, by rw [e, hpre]; simp,
    hm, hf, hd⟩
  rw [e, frames_cons, frames_append, hPf]
  simpa [Event.frameOpcode] using hl

/-! ## Claims about `turnOff` -/

/-- C9: for every line and clock behaviour, `turnOff` enters `send_opcode` at most 11
times, each time with the turn-off opcode `0xC0`; and once the line has been sampled high in
the window that follows an attempt, `turnOff` starts no further attempt, and it returns as
soon as the line is sampled low again. -/
theorem turnOff_attempts (E : Env) (self : TLBLib) (fuel : Nat) (tr : List Event) :
    ∃ ev, (turnOff E self fuel tr).2.2 = tr ++ ev ∧
      (frames ev).length ≤ 11 ∧ (∀ op ∈ frames ev, op = 0xC0) ∧
      ∀ rest, afterHighSample ev = some rest →
        frames rest = [] ∧ (Event.read false ∈ rest → (turnOff E self fuel tr).1 = some ()) := by
  unfold turnOff
  generalize hP : (if usub E (millis E tr).1 self.message_rate_timer < self.MIN_MESSAGE_RATE_ms
      then [Event.delay (self.MIN_MESSAGE_RATE_ms -
        usub E (millis E tr).1 self.message_rate_timer)] else []) = P
  have hPm : ∀ e ∈ P, e.isMillis = false := by
    rw [← hP]; split <;> simp [Event.isMillis]
  have hPf : frames P = [] := by
    rw [← hP]; split <;> simp [frames_cons, frames_nil, Event.frameOpcode]
  have hPh : ∀ Y : List Event, Y.head? ≠ some (Event.read true) →
      (P ++ Y).head? ≠ some (Event.read true) := by
    intro Y hY
    rw [← hP]
    split
    · simp
    · simpa using hY
  have hPe : (if usub E (millis E tr).1 self.message_rate_timer < self.MIN_MESSAGE_RATE_ms then
      delay (self.MIN_MESSAGE_RATE_ms - usub E (millis E tr).1 self.message_rate_timer)
        (millis E tr).2 else (millis E tr).2) =
      tr ++ (Event.millis (millis E tr).1 :: P) := by
    rw [← hP]
    split <;> simp [delay, millis]
  rw [hPe]
  obtain ⟨ev, hev, hlen, hops, hhead, hrest⟩ := turnOff_loop_attempts E self fuel 0
    (tr ++ (Event.millis (millis E tr).1 :: P)) (by omega)
  refine ⟨Event.millis (millis E tr).1 :: (P ++ ev), by rw [hev]; simp, ?_, ?_, ?_⟩
  · rw [frames_cons, frames_append, hPf]
    simpa [Event.frameOpcode] using hlen
  · rw [frames_cons, frames_append, hPf]
    simpa [Event.frameOpcode, TURN_OFF_OPCODE] using hops
  · intro rest h
    rw [afterHighSample_cons (hPh _ hhead), afterHighSample_skip hPm] at h
    exact hrest rest h

/-- C9, on a device that confirms the first attempt: one frame, then the pulse, then the
return. -/
theorem turnOff_attempts_witness :
    (turnOff (scripted [false, false, true, true, false]) defaults 100 []).1 = some () ∧
    frames (turnOff (scripted [false, false, true, true, false]) defaults 100 []).2.2 =
      [0xC0] ∧
    ∃ ev, (turnOff (scripted [false, false, true, true, false]) defaults 100 []).2.2 =
        [] ++ ev ∧
      (frames ev).length ≤ 11 ∧ (∀ op ∈ frames ev, op = 0xC0) ∧
      ∀ rest, afterHighSample ev = some rest →
        frames rest = [] ∧ (Event.read false ∈ rest →
          (turnOff (scripted [false, false, true, true, false]) defaults 100 []).1 = some ()) :=
  ⟨by decide!, by decide!,
    turnOff_attempts (scripted [false, false, true, true, false]) defaults 100 []⟩

/-- C8, what the code does instead: on every platform and for every setting of the
constants, a call of `turnOff` that returns without having sampled the line high in a window
has started eleven frames and leaves `message_rate_timer` as it was before the call: no clock
value is stored after the last frame. -/
theorem turnOff_exhausted_keeps_old_timer (E : Env) (self : TLBLib) (fuel : Nat)
    (tr ev : List Event) (hev : (turnOff E self fuel tr).2.2 = tr ++ ev)
    (hret : (turnOff E self fuel tr).1 = some ()) (hno : afterHighSample ev = none) :
    (frames ev).length = 11 ∧
    (turnOff E self fuel tr).2.1.message_rate_timer = self.message_rate_timer := by
  obtain ⟨hs, hl, -⟩ := turnOff_exhausted E self fuel tr ev hev hret hno
  exact ⟨hl, by rw [hs]⟩

set_option maxRecDepth 100000 in
/-- C8, on a device that acknowledges every frame and never raises the line: the opcode is
handed over eleven times, the clock stands past zero at the return, and
`message_rate_timer` is still 0. -/
theorem turnOff_exhausted_keeps_old_timer_witness :
    exhaustedRun.2.2 = [] ++ exhaustedRun.2.2 ∧ exhaustedRun.1 = some () ∧
    afterHighSample exhaustedRun.2.2 = none ∧
    sentBytes exhaustedRun.2.2 = List.replicate 11 (0xFF ^^^ 0xC0) ∧
    0 < (scripted []).millis exhaustedRun.2.2 ∧
    (frames exhaustedRun.2.2).length = 11 ∧
    exhaustedRun.2.1.message_rate_timer = quick.message_rate_timer :=
  have h : exhaustedRun.1 = some () ∧ afterHighSample exhaustedRun.2.2 = none ∧
      sentBytes exhaustedRun.2.2 = List.replicate 11 (0xFF ^^^ 0xC0) ∧
      0 < (scripted []).millis exhaustedRun.2.2 := by decide!
  ⟨rfl, h.1, h.2.1, h.2.2.1, h.2.2.2,
    turnOff_exhausted_keeps_old_timer (scripted []) quick 100 [] exhaustedRun.2.2 rfl
      h.1 h.2.1⟩

/-- C10, what the code does instead: on every platform and for every setting of the
constants, a call of `turnOff` that returns without having sampled the line high in a window
has started eleven frames, and after the start of the eleventh it reads no millisecond clock
and calls no `delay`: the eleventh attempt has no window and is not paced. -/
theorem turnOff_last_attempt_unobserved (E : Env) (self : TLBLib) (fuel : Nat)
    (tr ev : List Event) (hev : (turnOff E self fuel tr).2.2 = tr ++ ev)
    (hret : (turnOff E self fuel tr).1 = some ()) (hno : afterHighSample ev = none) :
    (frames ev).length = 11 ∧
    ∃ pre F, ev = pre ++ Event.opcodeFrame 0xC0 :: F ∧ frames F = [] ∧
      (∀ e ∈ F, e.isMillis = false) ∧ delays F = [] := by
  obtain ⟨-, hl, pre, F, hpre, hm, hf, hd⟩ := turnOff_exhausted E self fuel tr ev hev hret hno
  exact ⟨hl, pre, F, hpre, hf, hm, hd⟩

set_option maxRecDepth 100000 in
/-- C10, on a device that shows its confirmation pulse after the eleventh frame: `turnOff`
returns right after the acknowledge of that frame, while the line is high, without ever
having sampled it in a window. -/
theorem turnOff_last_attempt_unobserved_witness :
    lateRun.2.2 = [] ++ lateRun.2.2 ∧ lateRun.1 = some () ∧
    afterHighSample lateRun.2.2 = none ∧
    lateRun.2.2.getLast? = some (Event.waitDone false true) ∧
    lateDevice.digitalRead lateRun.2.2 = true ∧
    ((frames lateRun.2.2).length = 11 ∧
      ∃ pre F, lateRun.2.2 = pre ++ Event.opcodeFrame 0xC0 :: F ∧ frames F = [] ∧
        (∀ e ∈ F, e.isMillis = false) ∧ delays F = []) :=
  have h : lateRun.1 = some () ∧ afterHighSample lateRun.2.2 = none ∧
      lateRun.2.2.getLast? = some (Event.waitDone false true) ∧
      lateDevice.digitalRead lateRun.2.2 = true := by decide!
  ⟨rfl, h.1, h.2.1, h.2.2.1, h.2.2.2,
    turnOff_last_attempt_unobserved lateDevice quick 100 [] lateRun.2.2 rfl h.1 h.2.1⟩

/-- C5, on a device that never pulls the line low after the opcode: `send` returns `FAIL`
and the complement of the opcode is the only byte handed over. -/
theorem send_timeout_fails_witness :
    (send (scripted [false, true, true, true]) defaults demoMessage 100 []).1 =
      some sendError.FAIL ∧
    sentBytes (send (scripted [false, true, true, true]) defaults demoMessage 100 []).2.2 =
      [0xFF ^^^ 0x10] ∧
    ∃ ev, (send (scripted [false, true, true, true]) defaults demoMessage 100 []).2.2 =
        [] ++ ev ∧
      (∀ p st post, ev = p ++ Event.waitDone st false :: post →
        (send (scripted [false, true, true, true]) defaults demoMessage 100 []).1 =
          some sendError.FAIL ∧
        post = [Event.delay defaults.MIN_MESSAGE_RATE_ms,
          Event.millis (send (scripted [false, true, true, true]) defaults demoMessage 100
            []).2.1.message_rate_timer]) ∧
      (defaults._sendFunction = true →
        (∀ a x b, ev = a ++ Event.sent x :: b → Event.read false ∉ b) →
        (∃ x, Event.sent x ∈ ev) →
        ((send (scripted [false, true, true, true]) defaults demoMessage 100 []).1 ≠ none ∨
          ∃ st, Event.waitDone st false ∈ ev) →
        (send (scripted [false, true, true, true]) defaults demoMessage 100 []).1 =
          some sendError.FAIL ∧
        sentBytes ev = [0xFF ^^^ readByte demoMessage 0]) :=
  ⟨by decide!, by decide!,
    send_timeout_fails (scripted [false, true, true, true]) defaults demoMessage 100 []⟩

/-! ## The loop of `wait_ENA`, sample by sample -/

theorem usub_mod (E : Env) {a b : Nat} (h : b ≤ a) :
    usub E (a % 2 ^ E.ulongBits) (b % 2 ^ E.ulongBits) = (a - b) % 2 ^ E.ulongBits := by
  unfold usub
  have hm : 0 < 2 ^ E.ulongBits := Nat.two_pow_pos _
  generalize 2 ^ E.ulongBits = m at hm
  rw [Nat.mod_mod]
  have hb : b % m < m := Nat.mod_lt _ hm
  have key : a % m + m - b % m ≡ a - b [MOD m] := by
    apply Nat.ModEq.add_right_cancel' b
    have h1 : a % m + m - b % m + b ≡ a % m + m - b % m + b % m [MOD m] :=
      Nat.ModEq.add_left _ (Nat.mod_modEq b m).symm
    have h2 : a % m + m - b % m + b % m = a % m + m := by omega
    have h3 : a % m + m ≡ a [MOD m] := by unfold Nat.ModEq; simp
    rw [h2] at h1
    rw [Nat.sub_add_cancel h]
    exact h1.trans h3
  exact key

theorem misses_polls {E : Env} {state : Bool} {timeout timer : Nat} {p : List Event}
    (h : Misses E state timeout timer p) : Polls p := by
  induction h with
  | nil => exact polls_nil
  | cons t p _ _ ih => exact polls_cons rfl (polls_cons rfl ih)

theorem misses_no_hit {E : Env} {state : Bool} {timeout timer : Nat} {p : List Event}
    (h : Misses E state timeout timer p) : Event.read state ∉ p := by
  induction h with
  | nil => simp
  | cons t p _ _ ih => cases state <;> simp [ih]

/-- In a stretch of misses, followed by anything that starts with a read of the clock inside
the window, every sample directly follows a read of the clock inside the window. -/
theorem misses_sample_in_window {E : Env} {state : Bool} {timeout timer : Nat}
    {p : List Event} (h : Misses E state timeout timer p) (q : List Event)
    (hq : ∀ a v b, q = a ++ Event.read v :: b →
      ∃ a' t, a = a' ++ [Event.micros t] ∧ usub E t timer ≤ timeout) :
    ∀ a v b, p ++ q = a ++ Event.read v :: b →
      ∃ a' t, a = a' ++ [Event.micros t] ∧ usub E t timer ≤ timeout := by
  induction h with
  | nil => simpa using hq
  | cons t p ht _ ih =>
    intro a v b hs
    match a, hs with
    | [], hs => simp at hs
    | [x], hs =>
      simp only [List.cons_append, List.nil_append, List.cons.injEq] at hs
      exact ⟨[], t, by simp [hs.1], ht⟩
    | x :: y :: a2, hs =>
      simp only [List.cons_append, List.cons.injEq] at hs
      obtain ⟨a', t', ha, ht'⟩ := ih a2 v b hs.2.2
      exact ⟨x :: y :: a', t', by simp [ha], ht'⟩

/-- Exact shape of the history written by the loop of `wait_ENA`. -/
theorem wait_ENA_loop_exact (E : Env) (state : Bool) (timeout timer : Nat) (fuel : Nat) :
    ∀ tr, ∃ p, Misses E state timeout timer p ∧
      ((wait_ENA_loop E state timeout timer fuel tr = (none, tr ++ p) ∧ p.length = 2 * fuel) ∨
       (∃ t, timeout < usub E t timer ∧
          wait_ENA_loop E state timeout timer fuel tr =
            (some false, tr ++ (p ++ [Event.micros t]))) ∨
       (∃ t, usub E t timer ≤ timeout ∧
          wait_ENA_loop E state timeout timer fuel tr =
            (some true, tr ++ (p ++ [Event.micros t, Event.read state])))) := by
  induction fuel with
  | zero => intro tr; exact ⟨[], Misses.nil, Or.inl ⟨by simp [wait_ENA_loop], rfl⟩⟩
  | succ n ih =>
    intro tr
    unfold wait_ENA_loop
    by_cases h1 : usub E (micros E tr).1 timer ≤ timeout
    · by_cases h2 : (digitalRead E (micros E tr).2).1 = state
      · refine ⟨[], Misses.nil, Or.inr (Or.inr ⟨(micros E tr).1, h1, ?_⟩)⟩
        simp only [h1, h2, if_true]
        simp [digitalRead, micros] at h2 ⊢
        exact h2
      · have h3 : (digitalRead E (micros E tr).2).1 = !state := by
          cases state <;> simpa using h2
        obtain ⟨p, hp, h⟩ := ih (digitalRead E (micros E tr).2).2
        refine ⟨Event.micros (micros E tr).1 :: Event.read (!state) :: p,
          Misses.cons _ _ h1 hp, ?_⟩
        simp only [h1, h2, if_true, if_false]
        have e : (digitalRead E (micros E tr).2).2 ++ p = tr ++
            Event.micros (micros E tr).1 :: Event.read (!state) :: p := by
          rw [← h3]; simp [digitalRead, micros]
        have e' : ∀ q, (digitalRead E (micros E tr).2).2 ++ (p ++ q) = tr ++
            (Event.micros (micros E tr).1 :: Event.read (!state) :: p ++ q) := by
          intro q; rw [← List.append_assoc, e]; simp
        rcases h with ⟨h, hl⟩ | ⟨t, ht, h⟩ | ⟨t, ht, h⟩
        · rw [e] at h
          exact Or.inl ⟨h, by simp [hl]; omega⟩
        · rw [e'] at h
          exact Or.inr (Or.inl ⟨t, ht, h⟩)
        · rw [e'] at h
          exact Or.inr (Or.inr ⟨t, ht, h⟩)
    · refine ⟨[], Misses.nil, Or.inr (Or.inl ⟨(micros E tr).1, by omega, ?_⟩)⟩
      rw [if_neg h1]; simp [micros]

/-- Exact shape of the history written by `wait_ENA`: the read of the clock that starts the
window, misses inside the window, then one of three endings. -/
theorem wait_ENA_exact (E : Env) (state : Bool) (timeout fuel : Nat) (tr : List Event) :
    ∃ p, Misses E state timeout (E.micros tr % 2 ^ E.ulongBits) p ∧
      ((wait_ENA E state timeout fuel tr =
          (none, tr ++ (Event.micros (E.micros tr % 2 ^ E.ulongBits) :: p)) ∧
        p.length = 2 * fuel) ∨
       (∃ t, timeout < usub E t (E.micros tr % 2 ^ E.ulongBits) ∧
          wait_ENA E state timeout fuel tr =
            (some false, tr ++ (Event.micros (E.micros tr % 2 ^ E.ulongBits) :: p ++
              [Event.micros t, Event.waitDone state false]))) ∨
       (∃ t, usub E t (E.micros tr % 2 ^ E.ulongBits) ≤ timeout ∧
          wait_ENA E state timeout fuel tr =
            (some true, tr ++ (Event.micros (E.micros tr % 2 ^ E.ulongBits) :: p ++
              [Event.micros t, Event.read state, Event.waitDone state true])))) := by
  obtain ⟨p, hp, h⟩ := wait_ENA_loop_exact E state timeout (micros E tr).1 fuel (micros E tr).2
  refine ⟨p, hp, ?_⟩
  unfold wait_ENA
  rcases h with ⟨h, hl⟩ | ⟨t, ht, h⟩ | ⟨t, ht, h⟩
  · exact Or.inl ⟨by rw [h]; simp [micros], hl⟩
  · exact Or.inr (Or.inl ⟨t, ht, by rw [h]; simp [micros]⟩)
  · exact Or.inr (Or.inr ⟨t, ht, by rw [h]; simp [micros]⟩)

/-- On a microsecond clock that advances by at least 1 and at most `S` with every poll, the
loop of `wait_ENA` returns when it has more fuel than the window has microseconds left. -/
theorem wait_ENA_loop_returns (E : Env) (state : Bool) (timeout T0 S : Nat)
    (hclock : ∀ h e, e.isPoll = true →
      E.micros h < E.micros (h ++ [e]) ∧ E.micros (h ++ [e]) ≤ E.micros h + S)
    (hS : timeout + 2 * S < 2 ^ E.ulongBits) (fuel : Nat) :
    ∀ tr, T0 ≤ E.micros tr → E.micros tr - T0 ≤ timeout + 2 * S → 1 ≤ fuel →
      timeout + 2 ≤ fuel + (E.micros tr - T0) →
      (wait_ENA_loop E state timeout (T0 % 2 ^ E.ulongBits) fuel tr).1 ≠ none := by
  induction fuel with
  | zero => intro tr _ _ h; omega
  | succ n ih =>
    intro tr h0 hd _ hf
    unfold wait_ENA_loop
    have hu : usub E (micros E tr).1 (T0 % 2 ^ E.ulongBits) = E.micros tr - T0 := by
      simp only [micros]
      rw [usub_mod E h0]
      exact Nat.mod_eq_of_lt (by omega)
    rw [hu]
    by_cases h1 : E.micros tr - T0 ≤ timeout
    · rw [if_pos h1]
      by_cases h2 : (digitalRead E (micros E tr).2).1 = state
      · rw [if_pos h2]; simp
      · rw [if_neg h2]
        have c1 := hclock tr (Event.micros (E.micros tr % 2 ^ E.ulongBits)) rfl
        have c2 := hclock (tr ++ [Event.micros (E.micros tr % 2 ^ E.ulongBits)])
          (Event.read (digitalRead E (micros E tr).2).1) rfl
        have e : (digitalRead E (micros E tr).2).2 =
            tr ++ [Event.micros (E.micros tr % 2 ^ E.ulongBits)] ++
              [Event.read (digitalRead E (micros E tr).2).1] := by
          simp [digitalRead, micros]
        rw [e]
        exact ih _ (by omega) (by omega) (by omega) (by omega)
    · rw [if_neg h1]; simp

/-- On such a clock `wait_ENA` returns when its fuel exceeds its timeout. -/
theorem wait_ENA_returns (E : Env) (state : Bool) (timeout S fuel : Nat) (tr : List Event)
    (hclock : ∀ h e, e.isPoll = true →
      E.micros h < E.micros (h ++ [e]) ∧ E.micros (h ++ [e]) ≤ E.micros h + S)
    (hS : timeout + 2 * S < 2 ^ E.ulongBits) (hf : timeout < fuel) :
    (wait_ENA E state timeout fuel tr).1 ≠ none := by
  have c := hclock tr (Event.micros (E.micros tr % 2 ^ E.ulongBits)) rfl
  have h := wait_ENA_loop_returns E state timeout (E.micros tr) S hclock hS fuel
    (micros E tr).2 (by simp only [micros]; omega) (by simp only [micros]; omega) (by omega)
    (by simp only [micros]; omega)
  unfold wait_ENA
  have e : (micros E tr).1 = E.micros tr % 2 ^ E.ulongBits := rfl
  rw [e]
  revert h
  cases hw : wait_ENA_loop E state timeout (E.micros tr % 2 ^ E.ulongBits) fuel (micros E tr).2
    with
  | mk r tr1 =>
    cases r with
    | none => simp
    | some r => simp

theorem last_of_append_pair {α : Type} {l a : List α} {x y z : α}
    (h : l ++ [z] = a ++ [x, y]) : z = y := by
  have h1 : (l ++ [z]).getLast? = (a ++ [x, y]).getLast? := by rw [h]
  have e : a ++ [x, y] = (a ++ [x]) ++ [y] := by simp
  rw [e, List.getLast?_concat, List.getLast?_concat] at h1
  exact Option.some.inj h1

theorem scripted_poll_step (script : List Bool) : ∀ h e, e.isPoll = true →
    (scripted script).micros h < (scripted script).micros (h ++ [e]) ∧
    (scripted script).micros (h ++ [e]) ≤ (scripted script).micros h + 100 := by
  intro h e he
  simp only [scripted, usElapsed_append]
  cases e <;> simp [Event.isPoll, usElapsed] at he ⊢

/-! ## Claim about `wait_ENA` -/

/-- C16: for every requested level, timeout, line and clock, the history `ev` written by
`wait_ENA` starts with the read of the microsecond clock that opens the window; every sample
in it directly follows a read of the clock that is at most `timeout` (inclusive) past that
start; `wait_ENA` returns `true` exactly when one of these samples equals the requested
level, and `false` exactly when a read of the clock was more than `timeout` past the start,
no sample having equalled the level before.  It is out of fuel only when `fuel` samples in
the window have all differed from the level, so it has returned as soon as a sample matches
or a reading leaves the window; on a microsecond clock that advances with every poll, by at
most `S` with `timeout + 2 * S < 2 ^ w`, a fuel above `timeout` is enough.  The history holds
nothing but reads of the clock, samples and the returned value: no write to the line, no
change of its direction, no callback; the function has no access to the fields of the
handle. -/
theorem wait_ENA_reports_level_seen (E : Env) (state : Bool) (timeout fuel : Nat)
    (tr : List Event) :
    ∃ ev, (wait_ENA E state timeout fuel tr).2 = tr ++ ev ∧
      ev.head? = some (Event.micros (E.micros tr % 2 ^ E.ulongBits)) ∧
      (∀ a v b, ev = a ++ Event.read v :: b →
        ∃ a' t, a = a' ++ [Event.micros t] ∧
          usub E t (E.micros tr % 2 ^ E.ulongBits) ≤ timeout) ∧
      ((wait_ENA E state timeout fuel tr).1 = some true ↔ Event.read state ∈ ev) ∧
      ((wait_ENA E state timeout fuel tr).1 = some false ↔
        ∃ a t, ev = a ++ [Event.micros t, Event.waitDone state false] ∧
          timeout < usub E t (E.micros tr % 2 ^ E.ulongBits)) ∧
      ((wait_ENA E state timeout fuel tr).1 = none → ev.length = 2 * fuel + 1) ∧
      (∀ e ∈ ev, e.isPoll = true ∨
        ∃ r, e = Event.waitDone state r ∧ (wait_ENA E state timeout fuel tr).1 = some r) ∧
      (∀ S, (∀ h e, e.isPoll = true →
          E.micros h < E.micros (h ++ [e]) ∧ E.micros (h ++ [e]) ≤ E.micros h + S) →
        timeout + 2 * S < 2 ^ E.ulongBits → timeout < fuel →
        (wait_ENA E state timeout fuel tr).1 ≠ none) := by
  obtain ⟨p, hp, h⟩ := wait_ENA_exact E state timeout fuel tr
  have hpolls := misses_polls hp
  have hno := misses_no_hit hp
  have key : ∀ q, (∀ a v b, q = a ++ Event.read v :: b →
        ∃ a' t, a = a' ++ [Event.micros t] ∧
          usub E t (E.micros tr % 2 ^ E.ulongBits) ≤ timeout) →
      ∀ a v b, Event.micros (E.micros tr % 2 ^ E.ulongBits) :: (p ++ q) =
          a ++ Event.read v :: b →
        ∃ a' t, a = a' ++ [Event.micros t] ∧
          usub E t (E.micros tr % 2 ^ E.ulongBits) ≤ timeout := by
    intro q hq a v b hs
    match a, hs with
    | [], hs => simp at hs
    | x :: a2, hs =>
      simp only [List.cons_append, List.cons.injEq] at hs
      obtain ⟨a', t, ha, ht⟩ := misses_sample_in_window hp q hq a2 v b hs.2
      exact ⟨x :: a', t, by simp [ha], ht⟩
  have hret := fun S hc hS hf => wait_ENA_returns E state timeout S fuel tr hc hS hf
  rcases h with ⟨h, hl⟩ | ⟨t, ht, h⟩ | ⟨t, ht, h⟩
  · refine ⟨Event.micros (E.micros tr % 2 ^ E.ulongBits) :: p, by rw [h], rfl, ?_, ?_, ?_,
      ?_, ?_, hret⟩
    · have := key [] (by intro a v b hq; simp at hq)
      simpa using this
    · rw [h]; simp [hno]
    · rw [h]
      simp only [false_iff, not_exists, not_and, reduceCtorEq]
      intro a t he
      exfalso
      have hm : Event.waitDone state false ∈ Event.micros (E.micros tr % 2 ^ E.ulongBits) :: p := by
        rw [he]; simp
      rcases List.mem_cons.1 hm with hm | hm
      · cases hm
      · have := hpolls _ hm
        simp [Event.isPoll] at this
    · intro _; simp [hl]
    · intro e he
      left
      rcases List.mem_cons.1 he with he | he
      · rw [he]; rfl
      · exact hpolls e he
  · refine ⟨Event.micros (E.micros tr % 2 ^ E.ulongBits) :: p ++
        [Event.micros t, Event.waitDone state false], by rw [h], rfl, ?_, ?_, ?_, ?_, ?_, hret⟩
    · have := key [Event.micros t, Event.waitDone state false] (by
        intro a v b hq
        have hm : Event.read v ∈ [Event.micros t, Event.waitDone state false] := by
          rw [hq]; simp
        simp at hm)
      simpa using this
    · rw [h]; simp [hno]
    · rw [h]
      simp only [true_iff]
      exact ⟨Event.micros (E.micros tr % 2 ^ E.ulongBits) :: p, t, rfl, ht⟩
    · rw [h]; simp
    · intro e he
      rw [h]
      simp only [List.cons_append, List.mem_cons, List.mem_append, List.mem_singleton,
        List.not_mem_nil, or_false] at he
      rcases he with he | he | he | he
      · left; rw [he]; rfl
      · left; exact hpolls e he
      · left; rw [he]; rfl
      · right; exact ⟨false, he, rfl⟩
  · refine ⟨Event.micros (E.micros tr % 2 ^ E.ulongBits) :: p ++
        [Event.micros t, Event.read state, Event.waitDone state true], by rw [h], rfl, ?_, ?_,
        ?_, ?_, ?_, hret⟩
    · have := key [Event.micros t, Event.read state, Event.waitDone state true] (by
        intro a v b hq
        match a, hq with
        | [], hq => simp at hq
        | [x], hq =>
          simp only [List.cons_append, List.nil_append, List.cons.injEq] at hq
          exact ⟨[], t, by simp [hq.1], ht⟩
        | [x, y], hq => simp at hq
        | x :: y :: z :: a3, hq =>
          simp only [List.cons_append, List.cons.injEq] at hq
          have := hq.2.2.2
          simp at this)
      simpa using this
    · rw [h]; simp
    · rw [h]
      simp only [false_iff, not_exists, not_and, reduceCtorEq, Option.some.injEq,
        Bool.true_eq_false]
      intro a t' he
      exfalso
      have e : Event.micros (E.micros tr % 2 ^ E.ulongBits) :: p ++
          [Event.micros t, Event.read state, Event.waitDone state true] =
          (Event.micros (E.micros tr % 2 ^ E.ulongBits) :: p ++
            [Event.micros t, Event.read state]) ++ [Event.waitDone state true] := by simp
      rw [e] at he
      have := last_of_append_pair he
      simp at this
    · rw [h]; simp
    · intro e he
      rw [h]
      simp only [List.cons_append, List.mem_cons, List.mem_append, List.mem_singleton,
        List.not_mem_nil, or_false] at he
      rcases he with he | he | he | he | he
      · left; rw [he]; rfl
      · left; exact hpolls e he
      · left; rw [he]; rfl
      · left; rw [he]; rfl
      · right; exact ⟨true, he, rfl⟩

/-- C16, on the simulated platform, whose microsecond clock advances by 100 with every
poll: a line that is low at the first sample gives `true`; a line that stays high through
the window of 200 microseconds gives `false` after one sample, taken 100 microseconds after
the start, when the clock reads 300. -/
theorem wait_ENA_reports_level_seen_witness :
    (wait_ENA (scripted []) false 200 201 []).1 = some true ∧
    wait_ENA (scripted [true, true, true]) false 200 201 [] =
      (some false, [Event.micros 0, Event.micros 100, Event.read true, Event.micros 300,
        Event.waitDone false false]) ∧
    (wait_ENA (scripted [true, true, true]) false 200 201 []).1 ≠ none ∧
    ((wait_ENA (scripted [true, true, true]) false 200 201 []).1 = some true ↔
      Event.read false ∈ (wait_ENA (scripted [true, true, true]) false 200 201 []).2) := by
  obtain ⟨ev, hev, -, -, htrue, -, -, -, hret⟩ :=
    wait_ENA_reports_level_seen (scripted [true, true, true]) false 200 201 []
  refine ⟨by decide!, by decide!, hret 100 (scripted_poll_step _) (by decide) (by decide), ?_⟩
  rw [hev]
  simpa using htrue

/-! ## Drives of the line and reads of the buffer -/

theorem inert_nil : Inert [] := by simp [Inert]

theorem inert_cons_iff (e : Event) (p : List Event) :
    Inert (e :: p) ↔ e.isInert = true ∧ Inert p := by
  simp [Inert]

theorem inert_append_iff (a b : List Event) : Inert (a ++ b) ↔ Inert a ∧ Inert b := by
  simp only [Inert, List.mem_append]
  constructor
  · intro h; exact ⟨fun e he => h e (Or.inl he), fun e he => h e (Or.inr he)⟩
  · rintro ⟨h1, h2⟩ e (he | he)
    · exact h1 e he
    · exact h2 e he

theorem inert_polls {p : List Event} (hp : Polls p) : Inert p := by
  intro e he
  have := hp e he
  cases e <;> simp_all [Event.isPoll, Event.isInert]

theorem inert_quiet {p : List Event} (hp : Quiet p) : Inert p := by
  intro e he
  have := hp e he
  cases e <;> simp_all [Event.isQuiet, Event.isInert]

theorem loads_nil : loads [] = [] := rfl

theorem loads_append (a b : List Event) : loads (a ++ b) = loads a ++ loads b :=
  List.filterMap_append _ _ _

theorem loads_cons (e : Event) (l : List Event) :
    loads (e :: l) = e.loadIndex.toList ++ loads l := by
  unfold loads
  rw [List.filterMap_cons]
  cases e.loadIndex <;> rfl

theorem loads_inert {p : List Event} (hp : Inert p) : loads p = [] := by
  induction p with
  | nil => rfl
  | cons e p ih =>
    have he := hp e (List.mem_cons_self _ _)
    rw [loads_cons, ih (fun x hx => hp x (List.mem_cons_of_mem _ hx))]
    cases e <;> simp_all [Event.isInert, Event.loadIndex]

theorem errors_nil : errors [] = [] := rfl

theorem errors_append (a b : List Event) : errors (a ++ b) = errors a ++ errors b :=
  List.filterMap_append _ _ _

theorem errors_cons (e : Event) (l : List Event) :
    errors (e :: l) = e.errorArg.toList ++ errors l := by
  unfold errors
  rw [List.filterMap_cons]
  cases e.errorArg <;> rfl

theorem errors_polls {p : List Event} (hp : Polls p) : errors p = [] :=
  filterMap_polls _ (fun _ => rfl) (fun _ => rfl) hp

theorem loopLoads_step {n i : Nat} (h : i < n) :
    loopLoads n i = (if i = 0 then [] else [i + 1]) ++ loopLoads n (i + 1) := by
  unfold loopLoads
  have e : n - i = (n - (i + 1)) + 1 := by omega
  rw [e, List.range'_succ, List.filterMap_cons]
  by_cases h0 : i = 0 <;> simp [h0]

theorem loopLoads_done (n : Nat) : loopLoads n n = [] := by
  simp [loopLoads]

theorem mem_loopLoads {n i j : Nat} (h : j ∈ loopLoads n i) : 2 ≤ j ∧ i < j ∧ j ≤ n := by
  unfold loopLoads at h
  obtain ⟨k, hk, hj⟩ := List.mem_filterMap.1 h
  rw [List.mem_range'_1] at hk
  by_cases h0 : k = 0
  · simp [h0] at hj
  · simp only [h0, if_false, Option.some.injEq] at hj
    omega

theorem drives_inert (self : TLBLib) {p : List Event} (hp : Inert p) : Drives self p := by
  induction p with
  | nil => exact Drives.nil
  | cons e p ih =>
    refine Drives.other e p ?_ (ih (fun x hx => hp x (List.mem_cons_of_mem _ hx)))
    have he := hp e (List.mem_cons_self _ _)
    cases e <;> simp_all [Event.isInert, Event.isPin]

theorem drives_append {self : TLBLib} {a b : List Event} (ha : Drives self a)
    (hb : Drives self b) : Drives self (a ++ b) := by
  induction ha with
  | nil => simpa using hb
  | other e p he _ ih => exact Drives.other e (p ++ b) he ih
  | drive opcode p _ ih =>
    rw [List.append_assoc]
    exact Drives.drive opcode (p ++ b) ih

theorem drives_drive (self : TLBLib) (opcode : Nat) : Drives self (driveEvents self opcode) := by
  have := Drives.drive opcode [] (Drives.nil : Drives self [])
  simpa using this

theorem drives_single (self : TLBLib) {e : Event} (he : e.isPin = false) : Drives self [e] :=
  Drives.other e [] he Drives.nil

theorem pinOutput_append (o : Bool) (a b : List Event) :
    pinOutput o (a ++ b) = pinOutput (pinOutput o a) b := by
  induction a generalizing o with
  | nil => rfl
  | cons e a ih => cases e <;> simp [pinOutput, ih]

theorem pinOutput_drives {self : TLBLib} {ev : List Event} (h : Drives self ev) :
    pinOutput false ev = false := by
  induction h with
  | nil => rfl
  | other e p he _ ih => cases e <;> simp_all [pinOutput, Event.isPin]
  | drive opcode p _ ih =>
    rw [pinOutput_append]
    have : pinOutput false (driveEvents self opcode) = false := by
      unfold driveEvents
      by_cases hs : self._sendFunction = true <;> simp [hs, pinOutput]
    rw [this, ih]

theorem filter_drives {self : TLBLib} {ev : List Event} (h : Drives self ev) :
    ∃ k, ev.filter Event.isPin = (List.replicate k pinCycle).flatten := by
  induction h with
  | nil => exact ⟨0, rfl⟩
  | other e p he _ ih =>
    obtain ⟨k, hk⟩ := ih
    exact ⟨k, by rw [List.filter_cons_of_neg (by simp [he]), hk]⟩
  | drive opcode p _ ih =>
    obtain ⟨k, hk⟩ := ih
    refine ⟨k + 1, ?_⟩
    rw [List.filter_append, hk, List.replicate_succ, List.flatten_cons]
    congr 1
    unfold driveEvents pinCycle
    by_cases hs : self._sendFunction = true <;> simp [hs, Event.isPin]

/-- With a byte-transfer callback, every write of HIGH in a stretch of whole drives is
directly followed by the switch to output, one byte for the callback, the write of LOW and
the switch to input. -/
theorem split_drives {self : TLBLib} (hcb : self._sendFunction = true) {ev : List Event}
    (h : Drives self ev) :
    ∀ a b, ev = a ++ Event.write true :: b →
      ∃ x c, b = Event.mode true :: Event.sent x :: Event.write false :: Event.mode false :: c := by
  induction h with
  | nil => intro a b h; simp at h
  | other e p he _ ih =>
    intro a b h
    match a, h with
    | [], h =>
      simp only [List.nil_append, List.cons.injEq] at h
      rw [h.1] at he
      simp [Event.isPin] at he
    | x :: a2, h =>
      simp only [List.cons_append, List.cons.injEq] at h
      exact ih a2 b h.2
  | drive opcode p _ ih =>
    intro a b h
    have e : driveEvents self opcode ++ p =
        Event.write true :: Event.mode true :: Event.sent ((0xFF ^^^ opcode) % 256) ::
          Event.write false :: Event.mode false :: p := by
      simp [driveEvents, hcb]
    rw [e] at h
    match a, h with
    | [], h =>
      simp only [List.nil_append, List.cons.injEq, true_and] at h
      exact ⟨_, p, h.symm⟩
    | [_], h => simp at h
    | [_, _], h => simp at h
    | [_, _, _], h => simp at h
    | [_, _, _, _], h => simp at h
    | _ :: _ :: _ :: _ :: _ :: a5, h =>
      simp only [List.cons_append, List.cons.injEq] at h
      exact ih a5 b h.2.2.2.2.2

/-! ## What `send` does to the pin and to the buffer -/

/-- Summary of the history written by `send_opcode`: it starts with the entry into the
frame, touches the pin by whole drives only, reads no buffer, calls no error callback, holds
no further frame and reads no millisecond clock; the opcode's complement is the only byte it
can hand over, and it hands it over exactly when the wait for the idle line succeeds. -/
theorem send_opcode_summary (E : Env) (self : TLBLib) (opcode fuel : Nat) (tr : List Event) :
    ∃ F, (send_opcode E self opcode fuel tr).2 = tr ++ (Event.opcodeFrame opcode :: F) ∧
      Drives self F ∧ loads F = [] ∧ errors F = [] ∧ frames F = [] ∧
      (Event.waitDone false true ∉ F → sentBytes F = []) ∧
      (self._sendFunction = true → Event.waitDone false true ∈ F →
        sentBytes F = [(0xFF ^^^ opcode) % 256]) := by
  obtain ⟨p1, p2, hp1, hp2, h⟩ := send_opcode_cases E self opcode fuel tr
  have hD1 := drives_inert self (inert_polls hp1)
  have hD2 := drives_inert self (inert_polls hp2)
  have hL1 := loads_inert (inert_polls hp1)
  have hL2 := loads_inert (inert_polls hp2)
  have hE1 := errors_polls hp1
  have hE2 := errors_polls hp2
  have hF1 := frames_polls hp1
  have hF2 := frames_polls hp2
  have hS1 := sentBytes_polls hp1
  have hS2 := sentBytes_polls hp2
  have hw1 : Event.waitDone false true ∉ p1 := fun hm => by
    have := hp1 _ hm; simp [Event.isPoll] at this
  have hDd := drives_drive self opcode
  have hLd : loads (driveEvents self opcode) = [] := by
    unfold driveEvents
    by_cases hs : self._sendFunction = true <;> simp [hs, loads_cons, loads_nil, Event.loadIndex]
  have hEd : errors (driveEvents self opcode) = [] := by
    unfold driveEvents
    by_cases hs : self._sendFunction = true <;>
      simp [hs, errors_cons, errors_nil, Event.errorArg]
  have hFd := frames_drive self opcode
  have hSd : self._sendFunction = true →
      sentBytes (driveEvents self opcode) = [(0xFF ^^^ opcode) % 256] := by
    intro hs
    simp [driveEvents, hs, sentBytes_cons, sentBytes_nil, Event.sentByte]
  have hwd : ∀ r, Drives self [Event.waitDone false r] := fun r => drives_single self rfl
  rcases h with h | h | h | h | ⟨h, -⟩
  · exact ⟨p1, by rw [h], hD1, hL1, hE1, hF1, fun _ => hS1, fun _ hm => absurd hm hw1⟩
  · refine ⟨p1 ++ [Event.waitDone false false], by rw [h]; simp, drives_append hD1 (hwd _),
      ?_, ?_, ?_, ?_, ?_⟩
    · rw [loads_append, hL1]; rfl
    · rw [errors_append, hE1]; rfl
    · rw [frames_append, hF1]; rfl
    · intro _; rw [sentBytes_append, hS1]; rfl
    · intro _ hm; simp [hw1] at hm
  · refine ⟨p1 ++ Event.waitDone false true :: (driveEvents self opcode ++ p2),
      by rw [h]; simp, drives_append hD1 (Drives.other _ _ rfl (drives_append hDd hD2)),
      ?_, ?_, ?_, ?_, ?_⟩
    · rw [loads_append, loads_cons, loads_append, hL1, hLd, hL2]; rfl
    · rw [errors_append, errors_cons, errors_append, hE1, hEd, hE2]; rfl
    · rw [frames_append, frames_cons, frames_append, hF1, hFd, hF2]; rfl
    · intro hm; simp at hm
    · intro hs _
      rw [sentBytes_append, sentBytes_cons, sentBytes_append, hS1, hSd hs, hS2]; rfl
  · refine ⟨p1 ++ Event.waitDone false true :: (driveEvents self opcode ++ p2 ++
        [Event.waitDone false false]),
      by rw [h]; simp,
      drives_append hD1 (Drives.other _ _ rfl (drives_append (drives_append hDd hD2) (hwd _))),
      ?_, ?_, ?_, ?_, ?_⟩
    · rw [loads_append, loads_cons, loads_append, loads_append, hL1, hLd, hL2]; rfl
    · rw [errors_append, errors_cons, errors_append, errors_append, hE1, hEd, hE2]; rfl
    · rw [frames_append, frames_cons, frames_append, frames_append, hF1, hFd, hF2]; rfl
    · intro hm; simp at hm
    · intro hs _
      rw [sentBytes_append, sentBytes_cons, sentBytes_append, sentBytes_append, hS1, hSd hs,
        hS2]
      rfl
  · refine ⟨p1 ++ Event.waitDone false true :: (driveEvents self opcode ++ p2 ++
        [Event.waitDone false true]),
      by rw [h]; simp,
      drives_append hD1 (Drives.other _ _ rfl (drives_append (drives_append hDd hD2) (hwd _))),
      ?_, ?_, ?_, ?_, ?_⟩
    · rw [loads_append, loads_cons, loads_append, loads_append, hL1, hLd, hL2]; rfl
    · rw [errors_append, errors_cons, errors_append, errors_append, hE1, hEd, hE2]; rfl
    · rw [frames_append, frames_cons, frames_append, frames_append, hF1, hFd, hF2]; rfl
    · intro hm; simp at hm
    · intro hs _
      rw [sentBytes_append, sentBytes_cons, sentBytes_append, sentBytes_append, hS1, hSd hs,
        hS2]
      rfl

/-- The history written by a wait is inert. -/
theorem wait_ENA_inert (E : Env) (state : Bool) (timeout fuel : Nat) (tr : List Event) :
    ∃ w, Inert w ∧ (wait_ENA E state timeout fuel tr).2 = tr ++ w ∧
      ((wait_ENA E state timeout fuel tr).1 = none ∨
       (wait_ENA E state timeout fuel tr).1 = some false ∨
       (wait_ENA E state timeout fuel tr).1 = some true) := by
  obtain ⟨p, hp, h⟩ := wait_ENA_cases E state timeout fuel tr
  have hi := inert_polls hp
  rcases h with h | h | ⟨h, -⟩
  · exact ⟨p, hi, by rw [h], Or.inl (by rw [h])⟩
  · refine ⟨p ++ [Event.waitDone state false], ?_, by rw [h], Or.inr (Or.inl (by rw [h]))⟩
    exact (inert_append_iff _ _).2 ⟨hi, by simp [Inert, Event.isInert]⟩
  · refine ⟨p ++ [Event.waitDone state true], ?_, by rw [h], Or.inr (Or.inr (by rw [h]))⟩
    exact (inert_append_iff _ _).2 ⟨hi, by simp [Inert, Event.isInert]⟩

/-- The history written by `exit_send` is inert. -/
theorem exit_send_inert (E : Env) (self : TLBLib) (r : sendError) (tr : List Event) :
    ∃ post, Inert post ∧ (exit_send E self r tr).2.2 = tr ++ post := by
  obtain ⟨post, hq, h⟩ := exit_send_quiet E self r tr
  exact ⟨post, inert_quiet hq, by rw [h]⟩

/-- The history written from the checksum byte on is inert. -/
theorem send_finish_inert (E : Env) (self : TLBLib) (c fuel : Nat) (tr : List Event) :
    ∃ ev, Inert ev ∧ (send_finish E self c fuel tr).2.2 = tr ++ ev := by
  have e : ∃ s, Inert s ∧ (send_byte self ((c + 255) % 256) none tr).2 = tr ++ s := by
    unfold send_byte
    by_cases hs : self._sendFunction = true
    · exact ⟨[Event.sent ((0xFF ^^^ ((c + 255) % 256)) % 256)], by simp [Inert, Event.isInert],
        by simp [hs]⟩
    · exact ⟨[], inert_nil, by simp [hs]⟩
  obtain ⟨s, hs, es⟩ := e
  unfold send_finish
  rw [es]
  obtain ⟨w, hw, ew, hr⟩ := wait_ENA_inert E false self.ACK_TIMEOUT_us fuel (tr ++ s)
  have hsw := (inert_append_iff _ _).2 ⟨hs, hw⟩
  cases hres : wait_ENA E false self.ACK_TIMEOUT_us fuel (tr ++ s) with
  | mk r tr1 =>
    rw [hres] at ew
    simp only [] at ew
    subst ew
    cases r with
    | none => exact ⟨s ++ w, hsw, by simp⟩
    | some b =>
      cases b with
      | false =>
        obtain ⟨post, hp, ep⟩ := exit_send_inert E self sendError.FAIL (tr ++ s ++ w)
        exact ⟨s ++ w ++ post, (inert_append_iff _ _).2 ⟨hsw, hp⟩, by simp only []; rw [ep]; simp⟩
      | true =>
        obtain ⟨win, hq, ewin, -⟩ := send_repeat_loop_quiet E self
          (millis E (tr ++ s ++ w)).1 fuel (millis E (tr ++ s ++ w)).2
        refine ⟨s ++ w ++ Event.millis (millis E (tr ++ s ++ w)).1 :: win, ?_, ?_⟩
        · exact (inert_append_iff _ _).2 ⟨hsw, (inert_cons_iff _ _).2 ⟨rfl, inert_quiet hq⟩⟩
        · simp only []; rw [ewin]; simp [millis]

/-- The loop of `send` from index `i` on and what follows it: the pin is not touched, and
the buffer is read at an initial part of the indices `i + 1, ..., data_length`, index 1
excepted. -/
theorem send_loop_events (E : Env) (self : TLBLib) (data : List Nat) {n : Nat} (hn : n ≤ 255)
    (fuel : Nat) : ∀ i c tr, i ≤ n →
    ∃ ev, (send_loop E self data n fuel i c tr).2.2 = tr ++ ev ∧ Drives self ev ∧
      loads ev <+: loopLoads n i := by
  induction fuel with
  | zero =>
    intro i c tr _
    exact ⟨[], by simp [send_loop], Drives.nil, List.nil_prefix⟩
  | succ m ih =>
    intro i c tr hi
    unfold send_loop
    by_cases hlt : i < n
    · rw [if_pos hlt, send_loop_byte self data hn i c tr]
      simp only []
      have hD : Drives self ((if i = 0 then [] else [Event.load (i + 1)]) ++
          Event.crcAbsorb (loopByte data n i) ::
            (if self._sendFunction then [Event.sent (0xFF ^^^ loopByte data n i)] else [])) := by
        by_cases h0 : i = 0 <;> by_cases hs : self._sendFunction = true <;>
          simp [h0, hs] <;>
          repeat (first | exact Drives.nil | refine Drives.other _ _ rfl ?_)
      have hL : loads ((if i = 0 then [] else [Event.load (i + 1)]) ++
          Event.crcAbsorb (loopByte data n i) ::
            (if self._sendFunction then [Event.sent (0xFF ^^^ loopByte data n i)] else [])) =
          (if i = 0 then [] else [i + 1]) := by
        by_cases h0 : i = 0 <;> by_cases hs : self._sendFunction = true <;>
          simp [h0, hs, loads_cons, loads_nil, Event.loadIndex]
      generalize ((if i = 0 then [] else [Event.load (i + 1)]) ++
        Event.crcAbsorb (loopByte data n i) ::
          (if self._sendFunction then [Event.sent (0xFF ^^^ loopByte data n i)] else [])) = hd
        at hD hL ⊢
      have hstep := loopLoads_step (n := n) hlt
      have hpre : ∀ w, Inert w → loads (hd ++ w) <+: loopLoads n i := by
        intro w hw
        rw [loads_append, hL, loads_inert hw, hstep, List.append_nil]
        exact List.prefix_append _ _
      obtain ⟨w1, hw1, e1, -⟩ := wait_ENA_inert E false self.ACK_TIMEOUT_us m (tr ++ hd)
      cases hres1 : wait_ENA E false self.ACK_TIMEOUT_us m (tr ++ hd) with
      | mk r1 tr1 =>
        rw [hres1] at e1
        simp only [] at e1
        subst e1
        have hD1 : Drives self (hd ++ w1) := drives_append hD (drives_inert self hw1)
        cases r1 with
        | none => exact ⟨hd ++ w1, by simp, hD1, hpre w1 hw1⟩
        | some b1 =>
          cases b1 with
          | false =>
            obtain ⟨post, hp, ep⟩ := exit_send_inert E self sendError.FAIL (tr ++ hd ++ w1)
            refine ⟨hd ++ (w1 ++ post), by simp only []; rw [ep]; simp, ?_, ?_⟩
            · rw [← List.append_assoc]; exact drives_append hD1 (drives_inert self hp)
            · exact hpre _ ((inert_append_iff _ _).2 ⟨hw1, hp⟩)
          | true =>
            simp only []
            obtain ⟨w2, hw2, e2, -⟩ :=
              wait_ENA_inert E true self.REQ_TIMEOUT_us m (tr ++ hd ++ w1)
            cases hres2 : wait_ENA E true self.REQ_TIMEOUT_us m (tr ++ hd ++ w1) with
            | mk r2 tr2 =>
              rw [hres2] at e2
              simp only [] at e2
              subst e2
              have hw12 := (inert_append_iff _ _).2 ⟨hw1, hw2⟩
              have hD2 : Drives self (hd ++ (w1 ++ w2)) :=
                drives_append hD (drives_inert self hw12)
              cases r2 with
              | none => exact ⟨hd ++ (w1 ++ w2), by simp, hD2, hpre _ hw12⟩
              | some b2 =>
                cases b2 with
                | false =>
                  obtain ⟨post, hp, ep⟩ :=
                    exit_send_inert E self sendError.FAIL (tr ++ hd ++ w1 ++ w2)
                  refine ⟨hd ++ (w1 ++ w2 ++ post), by simp only []; rw [ep]; simp, ?_, ?_⟩
                  · rw [← List.append_assoc]; exact drives_append hD2 (drives_inert self hp)
                  · exact hpre _ ((inert_append_iff _ _).2 ⟨hw12, hp⟩)
                | true =>
                  simp only []
                  have hi1 : (i + 1) % 256 = i + 1 := Nat.mod_eq_of_lt (by omega)
                  rw [hi1]
                  obtain ⟨ev, hev, hDe, hLe⟩ := ih (i + 1)
                    ((some (c ^^^ loopByte data n i)).getD c) (tr ++ hd ++ w1 ++ w2) (by omega)
                  refine ⟨hd ++ (w1 ++ w2) ++ ev, by rw [hev]; simp, drives_append hD2 hDe, ?_⟩
                  rw [loads_append, loads_append, hL, loads_inert hw12, List.append_nil, hstep]
                  exact (List.prefix_append_right_inj _).2 hLe
    · rw [if_neg hlt]
      obtain ⟨ev, hev, h⟩ := send_finish_inert E self c m tr
      exact ⟨ev, h, drives_inert self hev, by rw [loads_inert hev]; exact List.nil_prefix⟩

/-- The whole of `send`: the pin is touched by whole drives only, and the buffer is read at
an initial part of the indices `0, 1`, then `2, ..., data_length`. -/
theorem send_events (E : Env) (self : TLBLib) (data : List Nat) (fuel : Nat) (tr : List Event) :
    ∃ ev, (send E self data fuel tr).2.2 = tr ++ ev ∧ Drives self ev ∧
      loads ev <+: 0 :: 1 :: loopLoads ((readByte data 1 + 1) % 256) 0 := by
  have hn : (readByte data 1 + 1) % 256 ≤ 255 := by omega
  obtain ⟨F, hF, hDF, hLF, -⟩ :=
    send_opcode_summary E self (readByte data 0) fuel (tr ++ [Event.load 0])
  have hD0 : Drives self (Event.load 0 :: Event.opcodeFrame (readByte data 0) :: F) :=
    Drives.other _ _ rfl (Drives.other _ _ rfl hDF)
  have hL0 : loads (Event.load 0 :: Event.opcodeFrame (readByte data 0) :: F) = [0] := by
    rw [loads_cons, loads_cons, hLF]; rfl
  generalize hA : Event.load 0 :: Event.opcodeFrame (readByte data 0) :: F = A at hD0 hL0
  have eA : tr ++ [Event.load 0] ++ (Event.opcodeFrame (readByte data 0) :: F) = tr ++ A := by
    rw [← hA]; simp
  rw [eA] at hF
  have hpre : ∀ w, Inert w →
      loads (A ++ w) <+: 0 :: 1 :: loopLoads ((readByte data 1 + 1) % 256) 0 := by
    intro w hw
    rw [loads_append, hL0, loads_inert hw]
    simp
  unfold send
  cases hres : send_opcode E self (readByte data 0) fuel (tr ++ [Event.load 0]) with
  | mk r tr1 =>
    rw [hres] at hF
    simp only [] at hF
    subst hF
    cases r with
    | none => exact ⟨A, rfl, hD0, by simpa using hpre [] inert_nil⟩
    | some b =>
      cases b with
      | false =>
        obtain ⟨post, hp, ep⟩ := exit_send_inert E self sendError.FAIL (tr ++ A)
        exact ⟨A ++ post, by simp only []; rw [ep]; simp,
          drives_append hD0 (drives_inert self hp), hpre _ hp⟩
      | true =>
        simp only []
        obtain ⟨w, hw, ew, -⟩ := wait_ENA_inert E true self.REQ_TIMEOUT_us fuel (tr ++ A)
        cases hres2 : wait_ENA E true self.REQ_TIMEOUT_us fuel (tr ++ A) with
        | mk r2 tr2 =>
          rw [hres2] at ew
          simp only [] at ew
          subst ew
          have hDw := drives_append hD0 (drives_inert self hw)
          cases r2 with
          | none => exact ⟨A ++ w, by simp, hDw, hpre _ hw⟩
          | some b2 =>
            cases b2 with
            | false =>
              obtain ⟨post, hp, ep⟩ := exit_send_inert E self sendError.FAIL (tr ++ A ++ w)
              refine ⟨A ++ (w ++ post), by simp only []; rw [ep]; simp, ?_,
                hpre _ ((inert_append_iff _ _).2 ⟨hw, hp⟩)⟩
              rw [← List.append_assoc]; exact drives_append hDw (drives_inert self hp)
            | true =>
              simp only []
              obtain ⟨ev, hev, hDe, hLe⟩ := send_loop_events E self data hn fuel 0
                (readByte data 0)
                (tr ++ A ++ w ++ [Event.load 1] ++ [Event.crcSeed (readByte data 0)])
                (Nat.zero_le _)
              refine ⟨A ++ w ++ [Event.load 1, Event.crcSeed (readByte data 0)] ++ ev,
                by rw [hev]; simp, ?_, ?_⟩
              · exact drives_append (drives_append hDw
                  (Drives.other _ _ rfl (Drives.other _ _ rfl Drives.nil))) hDe
              · rw [loads_append, loads_append, loads_append, hL0, loads_inert hw]
                simp only [loads_cons, loads_nil, Event.loadIndex, Option.toList,
                  List.append_nil, List.nil_append, List.singleton_append, List.cons_append]
                exact (List.cons_prefix_cons).2 ⟨rfl, (List.cons_prefix_cons).2 ⟨rfl, hLe⟩⟩

/-! ## Claim about a declared length of 255 -/

/-- A run of `send` with a byte-transfer callback, for every declared length: the bytes
handed over, also when the run does not return. -/
theorem send_shape_sent (E : Env) (self : TLBLib) (data : List Nat) (fuel : Nat)
    (tr : List Event) (hcb : self._sendFunction = true) :
    ∃ ev, (send E self data fuel tr).2.2 = tr ++ ev ∧
      sentBytes ev <+: (0xFF ^^^ readByte data 0) ::
        wireFrom data ((readByte data 1 + 1) % 256) 0 (readByte data 0) ∧
      (∀ r, (send E self data fuel tr).1 = some r → r ≠ sendError.FAIL →
        sentBytes ev = (0xFF ^^^ readByte data 0) ::
          wireFrom data ((readByte data 1 + 1) % 256) 0 (readByte data 0)) ∧
      (∀ p t0 win, ev = p ++ Event.waitDone false true :: Event.millis t0 :: win →
        sentBytes ev = (0xFF ^^^ readByte data 0) ::
          wireFrom data ((readByte data 1 + 1) % 256) 0 (readByte data 0)) := by
  obtain ⟨pre, acked, post, hF, hev, hP, -, hA, hcases⟩ := send_shape E self data fuel tr
  have hpost : sentBytes post = [] := by
    rcases hcases with ⟨-, hp, -⟩ | ⟨-, -, st, hp⟩ | ⟨-, -, t0, win, hp, hw⟩
    · rw [hp]; rfl
    · rw [hp]; rfl
    · rw [hp, sentBytes_cons, sentBytes_cons, sentBytes_quiet (fun e he => by
        have := hw e he
        cases e <;> simp_all [Event.isWatch, Event.isQuiet])]
      rfl
  have hsb : sentBytes (pre ++ post) = sentBytes pre := by
    rw [sentBytes_append, hpost, List.append_nil]
  refine ⟨pre ++ post, hev, by rw [hsb]; exact hP hcb, ?_, ?_⟩
  · intro r hr hne
    rcases hcases with ⟨-, -, h⟩ | ⟨-, h, -⟩ | ⟨ha, -, -⟩
    · rw [h] at hr; cases hr
    · rw [h] at hr; cases hr; exact absurd rfl hne
    · rw [hsb]; exact hA ha hcb
  · intro p t0 win hsplit
    rcases hcases with ⟨-, hp, -⟩ | ⟨-, -, st, hp⟩ | ⟨ha, -, -⟩
    · rw [hp, List.append_nil] at hsplit
      exact absurd (hsplit ▸ by simp) (not_millis_of_frame hF (t := t0))
    · exfalso
      rw [hp] at hsplit
      have hs : (pre ++ [Event.waitDone st false]) ++ Event.delay self.MIN_MESSAGE_RATE_ms ::
          Event.millis (send E self data fuel tr).2.1.message_rate_timer :: [] =
          p ++ Event.waitDone false true :: Event.millis t0 :: win := by
        rw [← hsplit]; simp
      have := (split_at_ack (fun t hm => ?_) (fun t => by simp) (by simp) hs).2.1
      · cases this
      · rcases List.mem_append.1 hm with hm | hm
        · exact not_millis_of_frame hF hm
        · simp at hm
    · rw [hsb]; exact hA ha hcb

/-- C17: for every message whose declared length `m[1]` is 255, sent through a registered
byte-transfer callback, the 8-bit frame length `m[1] + 1` is 0; the bytes that `send` hands
to the callback are always an initial part of: complement of the opcode, complement of
`(opcode - 1) mod 256`; on a device that acknowledges every handshake (`send` returns
something else than `FAIL`, or the wait for the acknowledge of the last byte has succeeded)
they are exactly these two bytes, so neither a length byte nor a payload byte is
transmitted; and the message buffer is read at indices 0 and 1 only. -/
theorem send_length_255_wraps (E : Env) (self : TLBLib) (data : List Nat) (fuel : Nat)
    (tr : List Event) (hcb : self._sendFunction = true) (hL : readByte data 1 = 255) :
    (readByte data 1 + 1) % 256 = 0 ∧
    ∃ ev, (send E self data fuel tr).2.2 = tr ++ ev ∧
      sentBytes ev <+:
        [0xFF ^^^ readByte data 0, 0xFF ^^^ ((readByte data 0 + 255) % 256)] ∧
      (∀ r, (send E self data fuel tr).1 = some r → r ≠ sendError.FAIL →
        sentBytes ev = [0xFF ^^^ readByte data 0, 0xFF ^^^ ((readByte data 0 + 255) % 256)]) ∧
      (∀ p t0 win, ev = p ++ Event.waitDone false true :: Event.millis t0 :: win →
        sentBytes ev = [0xFF ^^^ readByte data 0, 0xFF ^^^ ((readByte data 0 + 255) % 256)]) ∧
      loads ev <+: [0, 1] := by
  have hn : (readByte data 1 + 1) % 256 = 0 := by rw [hL]
  obtain ⟨ev, hev, hP, hA, hS⟩ := send_shape_sent E self data fuel tr hcb
  obtain ⟨ev', hev', -, hLd⟩ := send_events E self data fuel tr
  have e : ev' = ev := List.append_cancel_left (hev'.symm.trans hev)
  rw [e] at hLd
  rw [hn, wireFrom_done] at hP hA hS
  rw [hn, loopLoads_done] at hLd
  exact ⟨hn, ev, hev, hP, hA, hS, hLd⟩

/-- C17, at a message that declares 255 payload bytes, on a device that acknowledges every
handshake: `send` returns `SUCCESS` after two bytes, the complements of `0x10` and `0x0F`. -/
theorem send_length_255_wraps_witness :
    defaults._sendFunction = true ∧ readByte longMessage 1 = 255 ∧
    longMessage.length = 257 ∧
    (send (scripted (ackScript 1)) defaults longMessage 100 []).1 = some sendError.SUCCESS ∧
    sentBytes (send (scripted (ackScript 1)) defaults longMessage 100 []).2.2 = [0xEF, 0xF0] ∧
    (readByte longMessage 1 + 1) % 256 = 0 ∧
    ∃ ev, (send (scripted (ackScript 1)) defaults longMessage 100 []).2.2 = [] ++ ev ∧
      sentBytes ev <+:
        [0xFF ^^^ readByte longMessage 0, 0xFF ^^^ ((readByte longMessage 0 + 255) % 256)] ∧
      (∀ r, (send (scripted (ackScript 1)) defaults longMessage 100 []).1 = some r →
        r ≠ sendError.FAIL →
        sentBytes ev =
          [0xFF ^^^ readByte longMessage 0, 0xFF ^^^ ((readByte longMessage 0 + 255) % 256)]) ∧
      (∀ p t0 win, ev = p ++ Event.waitDone false true :: Event.millis t0 :: win →
        sentBytes ev =
          [0xFF ^^^ readByte longMessage 0, 0xFF ^^^ ((readByte longMessage 0 + 255) % 256)]) ∧
      loads ev <+: [0, 1] :=
  ⟨rfl, by decide!, by decide!, by decide!, by decide!,
    send_length_255_wraps (scripted (ackScript 1)) defaults longMessage 100 [] rfl (by decide!)⟩

/-! ## Claim about the reads of the message buffer -/

theorem loopLoads_pos (n : Nat) : ∀ k i, 1 ≤ i → n - i = k →
    loopLoads n i = List.range' (i + 1) (n - i) := by
  intro k
  induction k with
  | zero =>
    intro i _ hk
    unfold loopLoads
    rw [hk]; rfl
  | succ k ih =>
    intro i hi hk
    have hlt : i < n := by omega
    rw [loopLoads_step hlt, if_neg (by omega), ih (i + 1) (by omega) (by omega)]
    have e : n - i = (n - (i + 1)) + 1 := by omega
    rw [e, List.range'_succ]
    rfl

theorem loopLoads_zero (L : Nat) : 0 :: 1 :: loopLoads (L + 1) 0 = List.range (L + 2) := by
  rw [loopLoads_step (Nat.succ_pos L), if_pos rfl, List.nil_append,
    loopLoads_pos (L + 1) L 1 (Nat.le_refl _) (by omega)]
  rw [List.range_eq_range', show L + 2 = (L + 1) + 1 from rfl, List.range'_succ,
    show L + 1 = L + 1 from rfl, List.range'_succ]
  simp

/-- C18: for every message buffer of exactly `L + 2` bytes whose byte 1 is `L`, with
`L ≤ 254`, and for every line behaviour, the indices at which `send` reads the buffer are, in
order, an initial part of `0, 1, 2, ..., L + 1`: every read is inside the buffer, and index
1 is read at most once, before the frame length is computed; with a byte-transfer callback
the second byte handed over, the length byte, is the complement of `L + 1`. -/
theorem send_reads_inside_buffer (E : Env) (self : TLBLib) (data : List Nat) (fuel : Nat)
    (tr : List Event) (L : Nat) (hlen : data.length = L + 2) (hL : readByte data 1 = L)
    (hle : L ≤ 254) :
    ∃ ev, (send E self data fuel tr).2.2 = tr ++ ev ∧
      loads ev <+: List.range (L + 2) ∧
      (∀ i ∈ loads ev, i < data.length) ∧
      (loads ev).count 1 ≤ 1 ∧
      (self._sendFunction = true →
        ∀ x, (sentBytes ev)[1]? = some x → x = 0xFF ^^^ (L + 1)) := by
  obtain ⟨ev, hev, -, hLd⟩ := send_events E self data fuel tr
  rw [hL, Nat.mod_eq_of_lt (by omega), loopLoads_zero] at hLd
  refine ⟨ev, hev, hLd, ?_, ?_, ?_⟩
  · intro i hi
    have := List.mem_range.1 (hLd.subset hi)
    omega
  · exact Nat.le_trans (hLd.sublist.count_le 1)
      (List.nodup_iff_count_le_one.1 (List.nodup_range _) 1)
  · intro hcb x hx
    obtain ⟨ev', hev', hP, -⟩ := send_shape_bytes E self data fuel tr hcb (by omega)
    have e : ev' = ev := List.append_cancel_left (hev'.symm.trans hev)
    rw [e] at hP
    have := getElem?_of_isPrefix hP hx
    rw [← hL]
    simp [wireBytes, covered] at this
    exact this.symm

/-- C18, at the message of the specification's scenario, a buffer of 4 bytes that declares 2
payload bytes: on a device that acknowledges every byte the buffer is read at indices 0, 1,
2, 3. -/
theorem send_reads_inside_buffer_witness :
    demoMessage.length = 2 + 2 ∧ readByte demoMessage 1 = 2 ∧ 2 ≤ 254 ∧
    loads (send (scripted (ackScript 4)) defaults demoMessage 100 []).2.2 = [0, 1, 2, 3] ∧
    ∃ ev, (send (scripted (ackScript 4)) defaults demoMessage 100 []).2.2 = [] ++ ev ∧
      loads ev <+: List.range (2 + 2) ∧
      (∀ i ∈ loads ev, i < demoMessage.length) ∧
      (loads ev).count 1 ≤ 1 ∧
      (defaults._sendFunction = true →
        ∀ x, (sentBytes ev)[1]? = some x → x = 0xFF ^^^ (2 + 1)) :=
  ⟨by decide, by decide, by decide, by decide!,
    send_reads_inside_buffer (scripted (ackScript 4)) defaults demoMessage 100 [] 2 (by decide)
      (by decide) (by decide)⟩

/-! ## The end of a pulse -/

/-- When the line is low after `k` further high samples, `while (digitalRead(_ENA_pin));`
returns with more than `k` units of fuel. -/
theorem wait_while_high_returns_of (E : Env) : ∀ k fuel h,
    E.digitalRead (h ++ List.replicate k (Event.read true)) = false → k < fuel →
    (wait_while_high E fuel h).1 ≠ none := by
  intro k
  induction k with
  | zero =>
    intro fuel h hl hf
    obtain ⟨n, rfl⟩ : ∃ n, fuel = n + 1 := ⟨fuel - 1, by omega⟩
    unfold wait_while_high
    have hr : (digitalRead E h).1 = false := by simpa [digitalRead] using hl
    rw [hr]
    simp
  | succ k ih =>
    intro fuel h hl hf
    obtain ⟨n, rfl⟩ : ∃ n, fuel = n + 1 := ⟨fuel - 1, by omega⟩
    unfold wait_while_high
    by_cases hr : (digitalRead E h).1 = true
    · rw [if_pos hr]
      have e : (digitalRead E h).2 = h ++ [Event.read true] := by
        simp only [digitalRead] at hr ⊢; rw [hr]
      rw [e]
      refine ih n _ ?_ (by omega)
      rw [List.append_assoc]
      simpa [List.replicate_succ] using hl
    · rw [if_neg hr]; simp

theorem wait_while_high_returns (E : Env) (B : Nat) (hline : PulsesEnd E B) (fuel : Nat)
    (h : List Event) (hf : B < fuel) : (wait_while_high E fuel h).1 ≠ none := by
  obtain ⟨k, hk, hl⟩ := hline h
  exact wait_while_high_returns_of E k fuel h hl (by omega)

/-! ## The two halves of `update` -/

/-- When the heartbeat is not due, `keep_alive` reads the clock once and does nothing
else. -/
theorem keep_alive_idle (E : Env) (self : TLBLib) (fuel : Nat) (tr : List Event)
    (h : usub E (millis E tr).1 self.keep_alive_timer < self.KEEP_ALIVE_RATE_ms) :
    keep_alive E self fuel tr = (some (), self, tr ++ [Event.millis (millis E tr).1]) := by
  unfold keep_alive
  rw [if_neg (by omega)]
  rfl

/-- When the heartbeat is due, `keep_alive` reads the clock twice, paces, and enters the
keep-alive frame; when the frame returns, both timers are read from the clock. -/
theorem keep_alive_due (E : Env) (self : TLBLib) (fuel : Nat) (tr : List Event)
    (h : self.KEEP_ALIVE_RATE_ms ≤ usub E (millis E tr).1 self.keep_alive_timer)
    (r : Option Bool) (tr1 : List Event)
    (hs : send_opcode E self KEEP_ALIVE_OPCODE fuel (tr ++ keepAliveHead E self tr) =
      (r, tr1)) :
    (r = none → keep_alive E self fuel tr = (none, self, tr1)) ∧
    (r ≠ none → keep_alive E self fuel tr =
      (some (),
        { self with keep_alive_timer := (millis E tr1).1,
                    message_rate_timer := (millis E (millis E tr1).2).1 },
        (millis E (millis E tr1).2).2)) := by
  have e : (if usub E (millis E (millis E tr).2).1 self.message_rate_timer <
        self.MIN_MESSAGE_RATE_ms then
      delay (self.MIN_MESSAGE_RATE_ms -
          usub E (millis E (millis E tr).2).1 self.message_rate_timer)
        (millis E (millis E tr).2).2
      else (millis E (millis E tr).2).2) = tr ++ keepAliveHead E self tr := by
    unfold keepAliveHead pacing
    simp only [millis, delay]
    split <;> simp
  unfold keep_alive
  rw [if_pos h, e, hs]
  cases r with
  | none => exact ⟨fun _ => rfl, fun hn => absurd rfl hn⟩
  | some b => exact ⟨fun hn => Option.noConfusion hn, fun _ => rfl⟩

/-- On a microsecond clock that advances with every poll, `send_opcode` returns when its
fuel exceeds `ACK_TIMEOUT_us`. -/
theorem send_opcode_returns (E : Env) (self : TLBLib) (S : Nat)
    (hus : ∀ h e, e.isPoll = true →
      E.micros h < E.micros (h ++ [e]) ∧ E.micros (h ++ [e]) ≤ E.micros h + S)
    (hA : self.ACK_TIMEOUT_us + 2 * S < 2 ^ E.ulongBits)
    (opcode fuel : Nat) (tr : List Event) (hf : self.ACK_TIMEOUT_us < fuel) :
    (send_opcode E self opcode fuel tr).1 ≠ none := by
  unfold send_opcode
  have w1 := wait_ENA_returns E false self.ACK_TIMEOUT_us S fuel
    (tr ++ [Event.opcodeFrame opcode]) hus hA hf
  revert w1
  cases wait_ENA E false self.ACK_TIMEOUT_us fuel (tr ++ [Event.opcodeFrame opcode]) with
  | mk r tr1 =>
    cases r with
    | none => intro w1; exact absurd rfl w1
    | some b =>
      intro _
      cases b with
      | false => simp
      | true =>
        simp only []
        have w2 := wait_ENA_returns E false self.ACK_TIMEOUT_us S fuel
          (stop_ENA (send_byte self opcode none (start_ENA tr1)).2) hus hA hf
        revert w2
        cases wait_ENA E false self.ACK_TIMEOUT_us fuel
            (stop_ENA (send_byte self opcode none (start_ENA tr1)).2) with
        | mk r2 tr2 =>
          cases r2 with
          | none => intro w2; exact absurd rfl w2
          | some b2 => intro _; cases b2 <;> simp

/-- On such a clock `keep_alive` returns when its fuel exceeds `ACK_TIMEOUT_us`. -/
theorem keep_alive_returns (E : Env) (self : TLBLib) (S : Nat)
    (hus : ∀ h e, e.isPoll = true →
      E.micros h < E.micros (h ++ [e]) ∧ E.micros (h ++ [e]) ≤ E.micros h + S)
    (hA : self.ACK_TIMEOUT_us + 2 * S < 2 ^ E.ulongBits)
    (fuel : Nat) (tr : List Event) (hf : self.ACK_TIMEOUT_us < fuel) :
    (keep_alive E self fuel tr).1 = some () := by
  by_cases h : self.KEEP_ALIVE_RATE_ms ≤ usub E (millis E tr).1 self.keep_alive_timer
  · have w := send_opcode_returns E self S hus hA KEEP_ALIVE_OPCODE fuel
      (tr ++ keepAliveHead E self tr) hf
    cases hres : send_opcode E self KEEP_ALIVE_OPCODE fuel (tr ++ keepAliveHead E self tr) with
    | mk r tr1 =>
      rw [hres] at w
      rw [(keep_alive_due E self fuel tr h r tr1 hres).2 w]
  · rw [keep_alive_idle E self fuel tr (by omega)]

/-- The two endings of `keep_alive` when the heartbeat is due, with what the keep-alive frame
writes. -/
theorem keep_alive_due_cases (E : Env) (self : TLBLib) (fuel : Nat) (tr : List Event)
    (h : self.KEEP_ALIVE_RATE_ms ≤ usub E (millis E tr).1 self.keep_alive_timer) :
    ∃ F, Drives self F ∧ errors F = [] ∧ frames F = [] ∧
      (Event.waitDone false true ∉ F → sentBytes F = []) ∧
      (self._sendFunction = true → Event.waitDone false true ∈ F →
        sentBytes F = [(0xFF ^^^ KEEP_ALIVE_OPCODE) % 256]) ∧
      (keep_alive E self fuel tr =
        (none, self,
          tr ++ (keepAliveHead E self tr ++ Event.opcodeFrame KEEP_ALIVE_OPCODE :: F)) ∨
       keep_alive E self fuel tr =
        (some (),
          { self with
            keep_alive_timer := (millis E (tr ++ (keepAliveHead E self tr ++
              Event.opcodeFrame KEEP_ALIVE_OPCODE :: F))).1,
            message_rate_timer := (millis E (millis E (tr ++ (keepAliveHead E self tr ++
              Event.opcodeFrame KEEP_ALIVE_OPCODE :: F))).2).1 },
          tr ++ (keepAliveHead E self tr ++ Event.opcodeFrame KEEP_ALIVE_OPCODE :: F ++
            [Event.millis (millis E (tr ++ (keepAliveHead E self tr ++
              Event.opcodeFrame KEEP_ALIVE_OPCODE :: F))).1,
             Event.millis (millis E (millis E (tr ++ (keepAliveHead E self tr ++
              Event.opcodeFrame KEEP_ALIVE_OPCODE :: F))).2).1]))) := by
  obtain ⟨F, hF, hD, -, hE, hFr, hS0, hS1⟩ :=
    send_opcode_summary E self KEEP_ALIVE_OPCODE fuel (tr ++ keepAliveHead E self tr)
  refine ⟨F, hD, hE, hFr, hS0, hS1, ?_⟩
  cases hres : send_opcode E self KEEP_ALIVE_OPCODE fuel (tr ++ keepAliveHead E self tr) with
  | mk r tr1 =>
    obtain ⟨hn, hsome⟩ := keep_alive_due E self fuel tr h r tr1 hres
    rw [hres] at hF
    simp only [] at hF
    rw [List.append_assoc] at hF
    subst hF
    cases r with
    | none => exact Or.inl (hn rfl)
    | some b =>
      right
      rw [hsome (by simp)]
      simp [millis]

/-- Shape of the history written by `check_error_pulse`: when the line is low, a low sample;
when it is high, a high sample and a read of the clock, then either high samples without
end, or high samples, a low sample, a second read of the clock and, if an error callback is
registered, its call with the difference of the two readings. -/
theorem check_error_pulse_cases (E : Env) (self : TLBLib) (fuel : Nat) (tr : List Event) :
    (E.digitalRead tr = false ∧
      check_error_pulse E self fuel tr = (some (), tr ++ [Event.read false])) ∨
    (E.digitalRead tr = true ∧ ∃ k, check_error_pulse E self fuel tr =
      (none, tr ++ (Event.read true ::
        Event.millis (E.millis (tr ++ [Event.read true]) % 2 ^ E.ulongBits) ::
        List.replicate k (Event.read true)))) ∨
    (E.digitalRead tr = true ∧
      ∃ k t2, t2 = E.millis (tr ++ (Event.read true ::
          Event.millis (E.millis (tr ++ [Event.read true]) % 2 ^ E.ulongBits) ::
          (List.replicate k (Event.read true) ++ [Event.read false]))) % 2 ^ E.ulongBits ∧
      check_error_pulse E self fuel tr =
        (some (), tr ++ (Event.read true ::
          Event.millis (E.millis (tr ++ [Event.read true]) % 2 ^ E.ulongBits) ::
          (List.replicate k (Event.read true) ++ Event.read false :: Event.millis t2 ::
            (if self._errorFunction then
              [Event.error (usub E t2 (E.millis (tr ++ [Event.read true]) % 2 ^ E.ulongBits))]
             else []))))) := by
  unfold check_error_pulse
  by_cases h : (digitalRead E tr).1 = true
  · rw [if_pos h]
    have hd : E.digitalRead tr = true := h
    have e1 : (digitalRead E tr).2 = tr ++ [Event.read true] := by
      simp only [digitalRead] at h ⊢; rw [h]
    rw [e1]
    have e2 : (millis E (tr ++ [Event.read true])).2 = tr ++ [Event.read true,
        Event.millis (E.millis (tr ++ [Event.read true]) % 2 ^ E.ulongBits)] := by
      simp [millis]
    have e3 : (millis E (tr ++ [Event.read true])).1 =
        E.millis (tr ++ [Event.read true]) % 2 ^ E.ulongBits := rfl
    rw [e2, e3]
    right
    obtain ⟨k, hk | hk⟩ := wait_while_high_cases E fuel (tr ++ [Event.read true,
        Event.millis (E.millis (tr ++ [Event.read true]) % 2 ^ E.ulongBits)])
    · left
      refine ⟨hd, k, ?_⟩
      rw [hk]; simp
    · right
      refine ⟨hd, k, _, rfl, ?_⟩
      rw [hk]
      by_cases he : self._errorFunction = true <;> simp [he, millis]
  · rw [if_neg h]
    left
    simp only [digitalRead, Bool.not_eq_true] at h ⊢
    exact ⟨h, by rw [h]⟩

/-- When the line is low after `k` further high samples, `check_error_pulse` returns with
more than `k` units of fuel. -/
theorem check_error_pulse_returns_of (E : Env) (self : TLBLib) (fuel : Nat) (tr : List Event)
    (k : Nat)
    (hl : E.digitalRead (tr ++ Event.read true ::
      Event.millis (millis E (tr ++ [Event.read true])).1 ::
      List.replicate k (Event.read true)) = false)
    (hf : k < fuel) : (check_error_pulse E self fuel tr).1 = some () := by
  unfold check_error_pulse
  by_cases h : (digitalRead E tr).1 = true
  · rw [if_pos h]
    have e1 : (digitalRead E tr).2 = tr ++ [Event.read true] := by
      simp only [digitalRead] at h ⊢; rw [h]
    rw [e1]
    have e2 : (millis E (tr ++ [Event.read true])).2 = tr ++ [Event.read true,
        Event.millis (millis E (tr ++ [Event.read true])).1] := by
      simp [millis]
    rw [e2]
    have hw := wait_while_high_returns_of E k fuel (tr ++ [Event.read true,
        Event.millis (millis E (tr ++ [Event.read true])).1]) (by simpa using hl) hf
    revert hw
    cases wait_while_high E fuel (tr ++ [Event.read true,
        Event.millis (millis E (tr ++ [Event.read true])).1]) with
    | mk r tr1 =>
      cases r with
      | none => intro hw; exact absurd rfl hw
      | some u => intro _; rfl
  · rw [if_neg h]

/-- The history written by `check_error_pulse` is inert, holds no byte for the byte channel
and no frame. -/
theorem check_error_pulse_inert (E : Env) (self : TLBLib) (fuel : Nat) (tr : List Event) :
    ∃ chk, (check_error_pulse E self fuel tr).2 = tr ++ chk ∧ Inert chk ∧
      sentBytes chk = [] ∧ frames chk = [] := by
  have hrep : ∀ k, Inert (List.replicate k (Event.read true)) := fun k =>
    inert_quiet (quiet_replicate k true)
  have hS : ∀ k, sentBytes (List.replicate k (Event.read true)) = [] := fun k =>
    sentBytes_quiet (quiet_replicate k true)
  have hF : ∀ k, frames (List.replicate k (Event.read true)) = [] := fun k =>
    frames_quiet (quiet_replicate k true)
  rcases check_error_pulse_cases E self fuel tr with ⟨-, h⟩ | ⟨-, k, h⟩ | ⟨-, k, t2, -, h⟩
  · exact ⟨[Event.read false], by rw [h], by simp [Inert, Event.isInert], rfl, rfl⟩
  · refine ⟨_, by rw [h], ?_, ?_, ?_⟩
    · exact (inert_cons_iff _ _).2 ⟨rfl, (inert_cons_iff _ _).2 ⟨rfl, hrep k⟩⟩
    · rw [sentBytes_cons, sentBytes_cons, hS]; rfl
    · rw [frames_cons, frames_cons, hF]; rfl
  · refine ⟨_, by rw [h], ?_, ?_, ?_⟩
    · refine (inert_cons_iff _ _).2 ⟨rfl, (inert_cons_iff _ _).2 ⟨rfl,
        (inert_append_iff _ _).2 ⟨hrep k, ?_⟩⟩⟩
      by_cases he : self._errorFunction = true <;> simp [he, Inert, Event.isInert]
    · rw [sentBytes_cons, sentBytes_cons, sentBytes_append, hS]
      by_cases he : self._errorFunction = true <;>
        simp [he, sentBytes_cons, sentBytes_nil, Event.sentByte]
    · rw [frames_cons, frames_cons, frames_append, hF]
      by_cases he : self._errorFunction = true <;>
        simp [he, frames_cons, frames_nil, Event.frameOpcode]

/-- A run of `update` is a run of `keep_alive` followed, unless that one is out of fuel, by a
run of `check_error_pulse`; the handle is the one left by `keep_alive`. -/
theorem update_cases (E : Env) (self : TLBLib) (fuel : Nat) (tr ka : List Event)
    (hka : (keep_alive E self fuel tr).2.2 = tr ++ ka) :
    ∃ chk, (update E self fuel tr).2.2 = tr ++ (ka ++ chk) ∧
      (update E self fuel tr).2.1 = (keep_alive E self fuel tr).2.1 ∧
      (((keep_alive E self fuel tr).1 = none ∧ chk = [] ∧ (update E self fuel tr).1 = none) ∨
       ((keep_alive E self fuel tr).1 = some () ∧
        check_error_pulse E (keep_alive E self fuel tr).2.1 fuel (tr ++ ka) =
          ((update E self fuel tr).1, tr ++ (ka ++ chk)))) := by
  unfold update
  cases hres : keep_alive E self fuel tr with
  | mk r rest =>
    cases rest with
    | mk self1 tr1 =>
      rw [hres] at hka
      simp only [] at hka
      subst hka
      cases r with
      | none => exact ⟨[], by simp, rfl, Or.inl ⟨rfl, rfl, rfl⟩⟩
      | some u =>
        obtain ⟨chk, hchk, -⟩ := check_error_pulse_inert E self1 fuel (tr ++ ka)
        refine ⟨chk, by simp only []; rw [hchk]; simp, rfl, Or.inr ⟨rfl, ?_⟩⟩
        simp only []
        rw [← List.append_assoc, ← hchk]

/-! ## Claim about the heartbeat of `update` -/

/-- C11 fails when the line is busy: the heartbeat is due (1000 ms have elapsed), the line
is sampled high during the wait for the idle line, and `update` returns after one keep-alive
frame in which no byte has been handed to the byte-transfer callback; both timers hold the
clock value 1000. -/
theorem heartbeat_on_busy_line_hands_no_byte :
    defaults._sendFunction = true ∧
    defaults.KEEP_ALIVE_RATE_ms ≤
      usub (scripted [true]) (millis (scripted [true]) [Event.delay 1000]).1
        defaults.keep_alive_timer ∧
    (update (scripted [true]) defaults 100 [Event.delay 1000]).1 = some () ∧
    frames (update (scripted [true]) defaults 100 [Event.delay 1000]).2.2 = [0xC3] ∧
    sentBytes (update (scripted [true]) defaults 100 [Event.delay 1000]).2.2 = [] ∧
    (update (scripted [true]) defaults 100 [Event.delay 1000]).2.1.keep_alive_timer = 1000 ∧
    (update (scripted [true]) defaults 100 [Event.delay 1000]).2.1.message_rate_timer = 1000 := by
  decide!

/-- C11, amended: a run of `update` with a byte-transfer callback writes the history `ka` of
`keep_alive`, then the history `chk` of the error check, which hands no byte over, starts no
frame, and leaves the handle as `keep_alive` left it.  When the time elapsed since
`keep_alive_timer` is at least `KEEP_ALIVE_RATE_ms`, `keep_alive` starts exactly one opcode
frame, with the keep-alive opcode `0xC3`; the bytes handed to the callback are none or the
one byte `0x3C`, the complement of `0xC3`, and it is handed over exactly when the wait for
the idle line before the frame succeeds; the frame returns when the microsecond clock
advances with every poll and the fuel exceeds `ACK_TIMEOUT_us`; and when the frame has
returned, with whatever outcome, the last two entries of `ka` are two reads of the
millisecond clock, whose values are stored in `keep_alive_timer` and `message_rate_timer`,
no other field being changed.
When the elapsed time is below `KEEP_ALIVE_RATE_ms`, `update` hands no byte over, starts no
frame and leaves the handle unchanged. -/
theorem update_heartbeat (E : Env) (self : TLBLib) (fuel : Nat) (tr : List Event)
    (hcb : self._sendFunction = true) :
    ∃ ka chk, (keep_alive E self fuel tr).2.2 = tr ++ ka ∧
      (update E self fuel tr).2.2 = tr ++ (ka ++ chk) ∧
      (update E self fuel tr).2.1 = (keep_alive E self fuel tr).2.1 ∧
      sentBytes chk = [] ∧ frames chk = [] ∧
      (self.KEEP_ALIVE_RATE_ms ≤ usub E (millis E tr).1 self.keep_alive_timer →
        frames ka = [0xC3] ∧ sentBytes ka <+: [0x3C] ∧
        (sentBytes ka = [0x3C] ↔ Event.waitDone false true ∈ ka) ∧
        (∀ S, (∀ h e, e.isPoll = true →
            E.micros h < E.micros (h ++ [e]) ∧ E.micros (h ++ [e]) ≤ E.micros h + S) →
          self.ACK_TIMEOUT_us + 2 * S < 2 ^ E.ulongBits → self.ACK_TIMEOUT_us < fuel →
          (keep_alive E self fuel tr).1 = some ()) ∧
        ((keep_alive E self fuel tr).1 = some () →
          ∃ pre, ka = pre ++ [Event.millis (millis E (tr ++ pre)).1,
              Event.millis (millis E (millis E (tr ++ pre)).2).1] ∧
            (keep_alive E self fuel tr).2.1 =
              { self with keep_alive_timer := (millis E (tr ++ pre)).1,
                          message_rate_timer := (millis E (millis E (tr ++ pre)).2).1 })) ∧
      (usub E (millis E tr).1 self.keep_alive_timer < self.KEEP_ALIVE_RATE_ms →
        (update E self fuel tr).2.1 = self ∧ sentBytes (ka ++ chk) = [] ∧
        frames (ka ++ chk) = []) := by
  have hka : ∃ ka, (keep_alive E self fuel tr).2.2 = tr ++ ka := by
    by_cases h : self.KEEP_ALIVE_RATE_ms ≤ usub E (millis E tr).1 self.keep_alive_timer
    · obtain ⟨F, -, -, -, -, -, hk | hk⟩ := keep_alive_due_cases E self fuel tr h
      · exact ⟨_, by rw [hk]⟩
      · exact ⟨_, by rw [hk]⟩
    · exact ⟨_, by rw [keep_alive_idle E self fuel tr (by omega)]⟩
  obtain ⟨ka, hka⟩ := hka
  obtain ⟨chk, hupd, hself, hchk⟩ := update_cases E self fuel tr ka hka
  have hc : sentBytes chk = [] ∧ frames chk = [] := by
    rcases hchk with ⟨-, hnil, -⟩ | ⟨-, hce⟩
    · rw [hnil]; exact ⟨rfl, rfl⟩
    · obtain ⟨chk', h1, -, h2, h3⟩ :=
        check_error_pulse_inert E (keep_alive E self fuel tr).2.1 fuel (tr ++ ka)
      rw [hce] at h1
      simp only [List.append_assoc] at h1
      have e : chk = chk' := List.append_cancel_left (List.append_cancel_left h1)
      rw [e]; exact ⟨h2, h3⟩
  refine ⟨ka, chk, hka, hupd, hself, hc.1, hc.2, ?_, ?_⟩
  · intro h
    obtain ⟨F, -, -, hFr, hS0, hS1, hk⟩ := keep_alive_due_cases E self fuel tr h
    have hH : frames (keepAliveHead E self tr) = [] ∧ sentBytes (keepAliveHead E self tr) = [] ∧
        Event.waitDone false true ∉ keepAliveHead E self tr := by
      unfold keepAliveHead pacing
      split <;> simp [frames_cons, frames_nil, sentBytes_cons, sentBytes_nil, Event.frameOpcode,
        Event.sentByte]
    have hop : (0xFF ^^^ KEEP_ALIVE_OPCODE) % 256 = 0x3C := by decide
    rw [hop] at hS1
    have hbody : frames (keepAliveHead E self tr ++ Event.opcodeFrame KEEP_ALIVE_OPCODE :: F) =
          [0xC3] ∧
        sentBytes (keepAliveHead E self tr ++ Event.opcodeFrame KEEP_ALIVE_OPCODE :: F) =
          sentBytes F ∧
        (Event.waitDone false true ∈
            keepAliveHead E self tr ++ Event.opcodeFrame KEEP_ALIVE_OPCODE :: F ↔
          Event.waitDone false true ∈ F) := by
      refine ⟨?_, ?_, ?_⟩
      · rw [frames_append, frames_cons, hFr, hH.1]; rfl
      · rw [sentBytes_append, sentBytes_cons, hH.2.1]; rfl
      · simp [hH.2.2]
    have hsF : sentBytes F <+: [0x3C] ∧ (sentBytes F = [0x3C] ↔ Event.waitDone false true ∈ F) := by
      by_cases hm : Event.waitDone false true ∈ F
      · rw [hS1 hcb hm]; simp [hm]
      · rw [hS0 hm]; simp [hm]
    rcases hk with hk | hk
    · rw [hk] at hka
      have e : ka = keepAliveHead E self tr ++ Event.opcodeFrame KEEP_ALIVE_OPCODE :: F :=
        (List.append_cancel_left hka).symm
      rw [e, hbody.1, hbody.2.1, hbody.2.2]
      exact ⟨rfl, hsF.1, hsF.2,
        fun S hus hA hf => keep_alive_returns E self S hus hA fuel tr hf,
        fun hr => by rw [hk] at hr; cases hr⟩
    · rw [hk] at hka
      have e : ka = (keepAliveHead E self tr ++ Event.opcodeFrame KEEP_ALIVE_OPCODE :: F) ++
          [Event.millis (millis E (tr ++ (keepAliveHead E self tr ++
              Event.opcodeFrame KEEP_ALIVE_OPCODE :: F))).1,
           Event.millis (millis E (millis E (tr ++ (keepAliveHead E self tr ++
              Event.opcodeFrame KEEP_ALIVE_OPCODE :: F))).2).1] := by
        have := (List.append_cancel_left hka).symm
        simpa using this
      refine ⟨?_, ?_, ?_, fun S hus hA hf => keep_alive_returns E self S hus hA fuel tr hf,
        fun _ => ⟨_, e, by rw [hk]⟩⟩
      · rw [e, frames_append, hbody.1]; rfl
      · rw [e, sentBytes_append, hbody.2.1]
        simpa [sentBytes_cons, sentBytes_nil, Event.sentByte] using hsF.1
      · rw [e, sentBytes_append, hbody.2.1, List.mem_append, hbody.2.2]
        simpa [sentBytes_cons, sentBytes_nil, Event.sentByte] using hsF.2
  · intro h
    have hk := keep_alive_idle E self fuel tr h
    rw [hk] at hka hself
    have e : ka = [Event.millis (millis E tr).1] := (List.append_cancel_left hka).symm
    refine ⟨hself, ?_, ?_⟩
    · rw [sentBytes_append, hc.1, e]; rfl
    · rw [frames_append, hc.2, e]; rfl

/-- C11 amended, on an idle line when 1000 ms have elapsed: one keep-alive frame with the
byte `0x3C`, after which both timers hold the clock value 1001; and when nothing has
elapsed, no byte and no change of the handle. -/
theorem update_heartbeat_witness :
    defaults._sendFunction = true ∧
    defaults.KEEP_ALIVE_RATE_ms ≤
      usub (scripted []) (millis (scripted []) [Event.delay 1000]).1 defaults.keep_alive_timer ∧
    (update (scripted []) defaults 100 [Event.delay 1000]).1 = some () ∧
    frames (update (scripted []) defaults 100 [Event.delay 1000]).2.2 = [0xC3] ∧
    sentBytes (update (scripted []) defaults 100 [Event.delay 1000]).2.2 = [0x3C] ∧
    (update (scripted []) defaults 100 [Event.delay 1000]).2.1 =
      { defaults with keep_alive_timer := 1001, message_rate_timer := 1001 } ∧
    usub (scripted []) (millis (scripted []) []).1 defaults.keep_alive_timer <
      defaults.KEEP_ALIVE_RATE_ms ∧
    (update (scripted []) defaults 100 []).2.1 = defaults ∧
    sentBytes (update (scripted []) defaults 100 []).2.2 = [] ∧
    ∃ ka chk, (keep_alive (scripted []) defaults 100 [Event.delay 1000]).2.2 =
        [Event.delay 1000] ++ ka ∧
      (update (scripted []) defaults 100 [Event.delay 1000]).2.2 =
        [Event.delay 1000] ++ (ka ++ chk) ∧
      frames ka = [0xC3] ∧ sentBytes ka = [0x3C] ∧ Event.waitDone false true ∈ ka := by
  obtain ⟨ka, chk, hka, hupd, -, -, -, hdue, -⟩ :=
    update_heartbeat (scripted []) defaults 100 [Event.delay 1000] rfl
  have hd : defaults.KEEP_ALIVE_RATE_ms ≤
      usub (scripted []) (millis (scripted []) [Event.delay 1000]).1
        defaults.keep_alive_timer := by decide
  obtain ⟨h1, h2, h3, -, -⟩ := hdue hd
  have hs : sentBytes ka = [0x3C] := by
    have e := List.append_cancel_left (hka.symm.trans (by decide! :
      (keep_alive (scripted []) defaults 100 [Event.delay 1000]).2.2 = [Event.delay 1000] ++
        [Event.millis 1000, Event.millis 1000, Event.opcodeFrame 0xC3, Event.micros 1000200,
          Event.micros 1000300, Event.read false, Event.waitDone false true, Event.write true,
          Event.mode true, Event.sent 0x3C, Event.write false, Event.mode false,
          Event.micros 1001000, Event.micros 1001100, Event.read false,
          Event.waitDone false true, Event.millis 1001, Event.millis 1001]))
    rw [e]; rfl
  exact ⟨rfl, hd, by decide!, by decide!, by decide!, by decide!, by decide, by decide!,
    by decide!, ka, chk, hka, hupd, h1, hs, h3.1 hs⟩

/-! ## Claim about the error pulse -/

theorem usub_of_add (E : Env) (a d : Nat) (hd : d < 2 ^ E.ulongBits) :
    usub E ((a + d) % 2 ^ E.ulongBits) (a % 2 ^ E.ulongBits) = d := by
  rw [usub_mod E (Nat.le_add_right a d), Nat.add_sub_cancel_left]
  exact Nat.mod_eq_of_lt hd

/-- The history written by `keep_alive` holds no call of the error callback, and
`keep_alive` does not change the error callback. -/
theorem keep_alive_errors (E : Env) (self : TLBLib) (fuel : Nat) (tr : List Event) :
    ∃ ka, (keep_alive E self fuel tr).2.2 = tr ++ ka ∧ errors ka = [] ∧ Drives self ka ∧
      (keep_alive E self fuel tr).2.1._errorFunction = self._errorFunction := by
  by_cases h : self.KEEP_ALIVE_RATE_ms ≤ usub E (millis E tr).1 self.keep_alive_timer
  · obtain ⟨F, hD, hE, -, -, -, hk⟩ := keep_alive_due_cases E self fuel tr h
    have hH : errors (keepAliveHead E self tr) = [] ∧ Inert (keepAliveHead E self tr) := by
      unfold keepAliveHead pacing
      split <;> simp [errors_cons, errors_nil, Event.errorArg, Inert, Event.isInert]
    have hb : errors (keepAliveHead E self tr ++ Event.opcodeFrame KEEP_ALIVE_OPCODE :: F) =
        [] := by
      rw [errors_append, errors_cons, hH.1, hE]; rfl
    have hDb : Drives self
        (keepAliveHead E self tr ++ Event.opcodeFrame KEEP_ALIVE_OPCODE :: F) :=
      drives_append (drives_inert self hH.2) (Drives.other _ _ rfl hD)
    rcases hk with hk | hk
    · exact ⟨_, by rw [hk], hb, hDb, by rw [hk]⟩
    · refine ⟨_, by rw [hk], ?_, ?_, by rw [hk]⟩
      · rw [errors_append, hb]; rfl
      · exact drives_append hDb (Drives.other _ _ rfl (Drives.other _ _ rfl Drives.nil))
  · rw [keep_alive_idle E self fuel tr (by omega)]
    exact ⟨_, rfl, rfl, Drives.other _ _ rfl Drives.nil, rfl⟩

/-- C12 fails when the clock reads do not fall where the line changes: on a platform whose
calls take 700 microseconds the error check samples the line high at 700 microseconds, the
line stays high for exactly 12 ms after that sample, until 12700 microseconds, and the
registered callback is invoked with 13, not 12: the clock is read at 1400 and, after the
first low sample, at 14000 microseconds. -/
theorem error_pulse_of_12_ms_reported_as_13 :
    (∀ tr, slowPulse.digitalRead tr = decide (slowPulse.micros tr < 12700)) ∧
    (keep_alive slowPulse { defaults with _errorFunction := true } 100 []).2.2 =
      [Event.millis 0] ∧
    slowPulse.micros [Event.millis 0] = 700 ∧
    slowPulse.micros [Event.millis 0] + 12 * 1000 = 12700 ∧
    update slowPulse { defaults with _errorFunction := true } 100 [] =
      (some (), { defaults with _errorFunction := true },
        [Event.millis 0, Event.read true, Event.millis 1] ++
          (List.replicate 16 (Event.read true) ++
            [Event.read false, Event.millis 14, Event.error 13])) ∧
    errors (update slowPulse { defaults with _errorFunction := true } 100 []).2.2 = [13] ∧
    errors (update slowPulse { defaults with _errorFunction := true } 100 []).2.2 ≠ [12] := by
  refine ⟨fun _ => rfl, by decide!, by decide!, by decide!, by decide!, by decide!, by decide!⟩

/-- C12, amended: a run of `update` writes the history `ka` of `keep_alive`, in which the
error callback is not invoked, then the history `chk` of the error check.  The error
callback is invoked at most once; it is not invoked when no callback is registered (the
pointer `_errorFunction` is null), nor when the check samples the line low.  When the check samples the line high and the line is low after `k`
further high samples, `update` returns (with more than `k` units of fuel).  When a callback
is registered, the check samples the line high and `update` returns, `chk` is: the high
sample, a read `t1` of the millisecond clock, further high samples, the first low sample, a
read `t2` of the clock, and the one call of the callback with argument `t2 - t1` (unsigned):
the argument is the difference of the two readings of the clock, not the time the line was
high; so when the clock has advanced by `d` milliseconds between the two reads, with `d`
below `2 ^ w`, the argument is `d`. -/
theorem update_reports_error_pulse (E : Env) (self : TLBLib) (fuel : Nat) (tr : List Event) :
    ∃ ka chk, (keep_alive E self fuel tr).2.2 = tr ++ ka ∧
      (update E self fuel tr).2.2 = tr ++ (ka ++ chk) ∧
      errors ka = [] ∧ (errors chk).length ≤ 1 ∧
      (self._errorFunction = false → errors chk = []) ∧
      (chk.head? = some (Event.read false) → errors chk = []) ∧
      (chk.head? = some (Event.read true) →
        ∀ k, E.digitalRead (tr ++ ka ++ Event.read true ::
            Event.millis (millis E (tr ++ ka ++ [Event.read true])).1 ::
            List.replicate k (Event.read true)) = false →
          k < fuel → (update E self fuel tr).1 = some ()) ∧
      (self._errorFunction = true → chk.head? = some (Event.read true) →
        (update E self fuel tr).1 = some () →
        ∃ k t1 t2, chk = Event.read true :: Event.millis t1 ::
            (List.replicate k (Event.read true) ++
              [Event.read false, Event.millis t2, Event.error (usub E t2 t1)]) ∧
          errors chk = [usub E t2 t1] ∧
          t1 = (millis E (tr ++ ka ++ [Event.read true])).1 ∧
          t2 = (millis E (tr ++ ka ++ Event.read true :: Event.millis t1 ::
            (List.replicate k (Event.read true) ++ [Event.read false]))).1 ∧
          ∀ d, d < 2 ^ E.ulongBits →
            E.millis (tr ++ ka ++ Event.read true :: Event.millis t1 ::
              (List.replicate k (Event.read true) ++ [Event.read false])) =
              E.millis (tr ++ ka ++ [Event.read true]) + d →
            errors chk = [d]) := by
  obtain ⟨ka, hka, hEk, -, hfn⟩ := keep_alive_errors E self fuel tr
  obtain ⟨chk, hupd, -, hchk⟩ := update_cases E self fuel tr ka hka
  have hrep : ∀ k, errors (List.replicate k (Event.read true)) = [] := fun k =>
    filterMap_quiet _ (fun e he => by cases e <;> simp_all [Event.isQuiet, Event.errorArg])
      (quiet_replicate k true)
  have hR : chk.head? = some (Event.read true) →
      ∀ k, E.digitalRead (tr ++ ka ++ Event.read true ::
          Event.millis (millis E (tr ++ ka ++ [Event.read true])).1 ::
          List.replicate k (Event.read true)) = false →
        k < fuel → (update E self fuel tr).1 = some () := by
    intro hh k hl hf
    rcases hchk with ⟨-, hnil, -⟩ | ⟨-, hce⟩
    · rw [hnil] at hh; simp at hh
    · have := check_error_pulse_returns_of E (keep_alive E self fuel tr).2.1 fuel (tr ++ ka) k
        hl hf
      rw [hce] at this
      exact this
  have hrest : (errors chk).length ≤ 1 ∧
      (self._errorFunction = false → errors chk = []) ∧
      (chk.head? = some (Event.read false) → errors chk = []) ∧
      (self._errorFunction = true → chk.head? = some (Event.read true) →
        (update E self fuel tr).1 = some () →
        ∃ k t1 t2, chk = Event.read true :: Event.millis t1 ::
            (List.replicate k (Event.read true) ++
              [Event.read false, Event.millis t2, Event.error (usub E t2 t1)]) ∧
          errors chk = [usub E t2 t1] ∧
          t1 = (millis E (tr ++ ka ++ [Event.read true])).1 ∧
          t2 = (millis E (tr ++ ka ++ Event.read true :: Event.millis t1 ::
            (List.replicate k (Event.read true) ++ [Event.read false]))).1 ∧
          ∀ d, d < 2 ^ E.ulongBits →
            E.millis (tr ++ ka ++ Event.read true :: Event.millis t1 ::
              (List.replicate k (Event.read true) ++ [Event.read false])) =
              E.millis (tr ++ ka ++ [Event.read true]) + d →
            errors chk = [d]) := by
    rcases hchk with ⟨-, hnil, hr⟩ | ⟨-, hce⟩
    · rw [hnil]
      refine ⟨by simp [errors_nil], fun _ => rfl, fun _ => rfl, fun _ hh => by simp at hh⟩
    · rcases check_error_pulse_cases E (keep_alive E self fuel tr).2.1 fuel (tr ++ ka) with
        ⟨-, h⟩ | ⟨-, k, h⟩ | ⟨-, k, t2, ht2, h⟩
      · rw [hce] at h
        have e : chk = [Event.read false] := by
          have := (Prod.mk.inj h).2
          rw [← List.append_assoc] at this
          exact List.append_cancel_left this
        rw [e]
        exact ⟨by simp [errors_cons, errors_nil, Event.errorArg], fun _ => rfl, fun _ => rfl,
          fun _ hh => by simp at hh⟩
      · rw [hce] at h
        have e : chk = Event.read true ::
            Event.millis (E.millis (tr ++ ka ++ [Event.read true]) % 2 ^ E.ulongBits) ::
            List.replicate k (Event.read true) := by
          have := (Prod.mk.inj h).2
          rw [← List.append_assoc] at this
          exact List.append_cancel_left this
        have hr : (update E self fuel tr).1 = none := (Prod.mk.inj h).1
        have he : errors chk = [] := by
          rw [e, errors_cons, errors_cons, hrep]; rfl
        rw [he]
        exact ⟨by simp, fun _ => rfl, fun _ => rfl, fun _ _ hh => by rw [hr] at hh; cases hh⟩
      · rw [hce, hfn] at h
        have e : chk = Event.read true ::
            Event.millis (E.millis (tr ++ ka ++ [Event.read true]) % 2 ^ E.ulongBits) ::
            (List.replicate k (Event.read true) ++ Event.read false :: Event.millis t2 ::
              (if self._errorFunction then
                [Event.error (usub E t2
                  (E.millis (tr ++ ka ++ [Event.read true]) % 2 ^ E.ulongBits))]
               else [])) := by
          have := (Prod.mk.inj h).2
          rw [← List.append_assoc] at this
          exact List.append_cancel_left this
        by_cases hef : self._errorFunction = true
        · rw [hef] at e
          simp only [if_true] at e
          have he : errors chk =
              [usub E t2 (E.millis (tr ++ ka ++ [Event.read true]) % 2 ^ E.ulongBits)] := by
            rw [e, errors_cons, errors_cons, errors_append, hrep]
            simp [errors_cons, errors_nil, Event.errorArg]
          refine ⟨by rw [he]; simp, fun hf => absurd (hef.symm.trans hf) (by decide),
            fun hh => ?_,
            fun _ _ _ => ⟨k, _, t2, e, he, rfl, ht2, fun d hd hadv => ?_⟩⟩
          · rw [e] at hh; simp at hh
          · rw [he, ht2, hadv, usub_of_add E _ d hd]
        · have hef' : self._errorFunction = false := by simpa using hef
          rw [hef'] at e
          simp only [Bool.false_eq_true, if_false] at e
          have he : errors chk = [] := by
            rw [e, errors_cons, errors_cons, errors_append, hrep]
            simp [errors_cons, errors_nil, Event.errorArg]
          rw [he]
          exact ⟨by simp, fun _ => rfl, fun _ => rfl,
            fun hf => absurd (hef'.symm.trans hf) (by decide)⟩
  exact ⟨ka, chk, hka, hupd, hEk, hrest.1, hrest.2.1, hrest.2.2.1, hR, hrest.2.2.2⟩

/-- C12 amended, on a line that is high during the first 12 ms: with an error callback
registered, `update` returns after one call of the callback, with argument 12; the check has
sampled the line high, read the clock at 0, and read it at 12 after the first low sample. -/
theorem update_reports_error_pulse_witness :
    (update (pulseDevice 12000) { defaults with _errorFunction := true } 200 []).1 = some () ∧
    errors (update (pulseDevice 12000) { defaults with _errorFunction := true } 200 []).2.2 =
      [12] ∧
    (update (pulseDevice 12000) { defaults with _errorFunction := true } 200 []).2.2 =
      [Event.millis 0] ++ (Event.read true :: Event.millis 0 ::
        (List.replicate 117 (Event.read true) ++
          [Event.read false, Event.millis 12, Event.error 12])) ∧
    errors (update (pulseDevice 12000) defaults 200 []).2.2 = [] ∧
    errors (update (scripted []) { defaults with _errorFunction := true } 200 []).2.2 = [] ∧
    ∃ ka chk,
      (keep_alive (pulseDevice 12000) { defaults with _errorFunction := true } 200 []).2.2 =
        [] ++ ka ∧
      (update (pulseDevice 12000) { defaults with _errorFunction := true } 200 []).2.2 =
        [] ++ (ka ++ chk) ∧
      errors ka = [] ∧ (errors chk).length ≤ 1 := by
  obtain ⟨ka, chk, hka, hupd, hE, hlen, -⟩ :=
    update_reports_error_pulse (pulseDevice 12000) { defaults with _errorFunction := true } 200 []
  have hrun : update (pulseDevice 12000) { defaults with _errorFunction := true } 200 [] =
      (some (), { defaults with _errorFunction := true },
        [Event.millis 0] ++ (Event.read true :: Event.millis 0 ::
          (List.replicate 117 (Event.read true) ++
            [Event.read false, Event.millis 12, Event.error 12]))) := by
    decide!
  refine ⟨by rw [hrun], ?_, by rw [hrun], by decide!, by decide!, ka, chk, hka, hupd, hE, hlen⟩
  rw [hrun]
  decide!

/-! ## What `turnOff` does to the pin -/

/-- The history written by the window of `turnOff` is inert. -/
theorem turnOff_window_inert (E : Env) (self : TLBLib) (t0 fuel : Nat) (tr : List Event) :
    ∃ w, Inert w ∧ (turnOff_window E self t0 fuel tr).2.2 = tr ++ w := by
  obtain ⟨lows, hl, h⟩ := turnOff_window_cases E self t0 fuel tr
  have hi := inert_quiet (quiet_lows hl)
  have hrep : ∀ k, Inert (List.replicate k (Event.read true)) := fun k =>
    inert_quiet (quiet_replicate k true)
  rcases h with h | ⟨t, k, -, h⟩ | ⟨t, k, t', -, h⟩ | ⟨-, h⟩
  · exact ⟨lows, hi, by rw [h]⟩
  · refine ⟨_, ?_, by rw [h]⟩
    exact (inert_append_iff _ _).2 ⟨hi, (inert_cons_iff _ _).2 ⟨rfl,
      (inert_cons_iff _ _).2 ⟨rfl, hrep k⟩⟩⟩
  · refine ⟨_, ?_, by rw [h]⟩
    refine (inert_append_iff _ _).2 ⟨hi, (inert_cons_iff _ _).2 ⟨rfl,
      (inert_cons_iff _ _).2 ⟨rfl, (inert_append_iff _ _).2 ⟨hrep k, ?_⟩⟩⟩⟩
    simp [Inert, Event.isInert]
  · refine ⟨lows ++ [Event.millis (millis E (tr ++ lows)).1], ?_, by rw [h]; simp [millis]⟩
    exact (inert_append_iff _ _).2 ⟨hi, by simp [Inert, Event.isInert]⟩

/-- The loop of `turnOff`: it starts, if it has fuel, with the entry into a frame with the
turn-off opcode, and touches the pin by whole drives only. -/
theorem turnOff_loop_events (E : Env) (self : TLBLib) (fuel : Nat) :
    ∀ c tr, ∃ ev, (turnOff_loop E self fuel c tr).2.2 = tr ++ ev ∧ Drives self ev ∧
      (0 < fuel → ev.head? = some (Event.opcodeFrame TURN_OFF_OPCODE)) := by
  induction fuel with
  | zero => intro c tr; exact ⟨[], by simp [turnOff_loop], Drives.nil, fun h => by omega⟩
  | succ n ih =>
    intro c tr
    obtain ⟨F, hF, hD, -⟩ := send_opcode_summary E self TURN_OFF_OPCODE n tr
    have hD0 : Drives self (Event.opcodeFrame TURN_OFF_OPCODE :: F) := Drives.other _ _ rfl hD
    unfold turnOff_loop
    cases hres : send_opcode E self TURN_OFF_OPCODE n tr with
    | mk r tr1 =>
      rw [hres] at hF
      simp only [] at hF
      subst hF
      cases r with
      | none => exact ⟨_, rfl, hD0, fun _ => rfl⟩
      | some b =>
        simp only []
        by_cases hc : c ≥ 10
        · rw [if_pos hc]
          exact ⟨_, rfl, hD0, fun _ => rfl⟩
        · rw [if_neg hc]
          obtain ⟨w, hw, ew⟩ := turnOff_window_inert E self
            (millis E (tr ++ Event.opcodeFrame TURN_OFF_OPCODE :: F)).1 n
            (millis E (tr ++ Event.opcodeFrame TURN_OFF_OPCODE :: F)).2
          have em : (millis E (tr ++ Event.opcodeFrame TURN_OFF_OPCODE :: F)).2 ++ w =
              tr ++ (Event.opcodeFrame TURN_OFF_OPCODE :: F ++
                Event.millis (millis E (tr ++ Event.opcodeFrame TURN_OFF_OPCODE :: F)).1 :: w) := by
            simp [millis]
          rw [em] at ew
          have hDw : Drives self (Event.opcodeFrame TURN_OFF_OPCODE :: F ++
              Event.millis (millis E (tr ++ Event.opcodeFrame TURN_OFF_OPCODE :: F)).1 :: w) :=
            drives_append hD0 (Drives.other _ _ rfl (drives_inert self hw))
          have hh : (Event.opcodeFrame TURN_OFF_OPCODE :: F ++
              Event.millis (millis E (tr ++ Event.opcodeFrame TURN_OFF_OPCODE :: F)).1 ::
                w).head? = some (Event.opcodeFrame TURN_OFF_OPCODE) := rfl
          generalize (Event.opcodeFrame TURN_OFF_OPCODE :: F ++
              Event.millis (millis E (tr ++ Event.opcodeFrame TURN_OFF_OPCODE :: F)).1 :: w) = A
            at ew hDw hh
          have hhead : ∀ Y : List Event, (A ++ Y).head? =
              some (Event.opcodeFrame TURN_OFF_OPCODE) := by
            intro Y
            cases A with
            | nil => simp at hh
            | cons a A => simpa using hh
          cases hres2 : turnOff_window E self
              (millis E (tr ++ Event.opcodeFrame TURN_OFF_OPCODE :: F)).1 n
              (millis E (tr ++ Event.opcodeFrame TURN_OFF_OPCODE :: F)).2 with
          | mk r2 rest =>
            cases rest with
            | mk self2 tr2 =>
              rw [hres2] at ew
              simp only [] at ew
              subst ew
              cases r2 with
              | none => exact ⟨A, rfl, hDw, fun _ => hh⟩
              | some b2 =>
                cases b2 with
                | true => exact ⟨A, rfl, hDw, fun _ => hh⟩
                | false =>
                  simp only []
                  have eP : (if self.MIN_MESSAGE_RATE_ms > self.RPT_TIMEOUT_ms then
                      delay (self.MIN_MESSAGE_RATE_ms - self.RPT_TIMEOUT_ms) (tr ++ A)
                      else tr ++ A) = tr ++ (A ++
                        (if self.MIN_MESSAGE_RATE_ms > self.RPT_TIMEOUT_ms then
                          [Event.delay (self.MIN_MESSAGE_RATE_ms - self.RPT_TIMEOUT_ms)]
                          else [])) := by
                    split <;> simp [delay]
                  have hP : Inert (if self.MIN_MESSAGE_RATE_ms > self.RPT_TIMEOUT_ms then
                      [Event.delay (self.MIN_MESSAGE_RATE_ms - self.RPT_TIMEOUT_ms)]
                      else []) := by
                    split <;> simp [Inert, Event.isInert]
                  rw [eP]
                  obtain ⟨ev, hev, hDe, -⟩ := ih ((c + 1) % 256) (tr ++ (A ++
                      (if self.MIN_MESSAGE_RATE_ms > self.RPT_TIMEOUT_ms then
                        [Event.delay (self.MIN_MESSAGE_RATE_ms - self.RPT_TIMEOUT_ms)]
                        else [])))
                  refine ⟨A ++ ((if self.MIN_MESSAGE_RATE_ms > self.RPT_TIMEOUT_ms then
                        [Event.delay (self.MIN_MESSAGE_RATE_ms - self.RPT_TIMEOUT_ms)]
                        else []) ++ ev), by rw [hev]; simp,
                    drives_append hDw (drives_append (drives_inert self hP) hDe),
                    fun _ => hhead _⟩

/-- The whole of `turnOff`: the read of the clock and the pacing, then the loop. -/
theorem turnOff_events (E : Env) (self : TLBLib) (fuel : Nat) (tr : List Event) :
    ∃ ev, (turnOff E self fuel tr).2.2 = tr ++ (turnOffHead E self tr ++ ev) ∧
      Drives self ev ∧ Inert (turnOffHead E self tr) ∧
      (0 < fuel → ev.head? = some (Event.opcodeFrame TURN_OFF_OPCODE)) := by
  have e : (if usub E (millis E tr).1 self.message_rate_timer < self.MIN_MESSAGE_RATE_ms then
      delay (self.MIN_MESSAGE_RATE_ms - usub E (millis E tr).1 self.message_rate_timer)
        (millis E tr).2
      else (millis E tr).2) = tr ++ turnOffHead E self tr := by
    unfold turnOffHead pacing
    simp only [millis, delay]
    split <;> simp
  have hI : Inert (turnOffHead E self tr) := by
    unfold turnOffHead pacing
    split <;> simp [Inert, Event.isInert]
  unfold turnOff
  rw [e]
  obtain ⟨ev, hev, hD, hh⟩ := turnOff_loop_events E self fuel 0 (tr ++ turnOffHead E self tr)
  exact ⟨ev, by rw [hev]; simp, hD, hI, hh⟩

/-! ## Claim about the direction of the pin -/

/-- The history written by `update` touches the pin by whole drives only. -/
theorem update_events (E : Env) (self : TLBLib) (fuel : Nat) (tr : List Event) :
    ∃ ev, (update E self fuel tr).2.2 = tr ++ ev ∧ Drives self ev := by
  obtain ⟨ka, hka, -, hD, -⟩ := keep_alive_errors E self fuel tr
  obtain ⟨chk, hupd, -, hchk⟩ := update_cases E self fuel tr ka hka
  refine ⟨ka ++ chk, hupd, drives_append hD ?_⟩
  rcases hchk with ⟨-, hnil, -⟩ | ⟨-, hce⟩
  · rw [hnil]; exact Drives.nil
  · obtain ⟨chk', h1, hI, -⟩ :=
      check_error_pulse_inert E (keep_alive E self fuel tr).2.1 fuel (tr ++ ka)
    rw [hce] at h1
    simp only [List.append_assoc] at h1
    have e : chk = chk' := List.append_cancel_left (List.append_cancel_left h1)
    rw [e]; exact drives_inert self hI

/-- C14: the pin is in input mode after `begin`.  From a history `tr` that leaves the pin in
input mode, the history of `send`, of `turnOff` and of `update`, with a byte-transfer
callback, for every message, line, clock and outcome (also when the run has not returned),
leaves the pin in input mode; in what the operation adds, every write of HIGH is directly
followed by the switch to output, one byte for the callback, the write of LOW and the switch
to input, and the accesses to the pin are these and no others: write HIGH, switch to output,
write LOW, switch to input, a whole number of times. -/
theorem operations_release_pin (E : Env) (self : TLBLib) (data : List Nat) (fuel : Nat)
    (tr : List Event) (hcb : self._sendFunction = true) (hpin : pinOutput false tr = false) :
    (∀ tr0, pinOutput false (begin tr0) = false) ∧
    ∀ h ∈ [(send E self data fuel tr).2.2, (turnOff E self fuel tr).2.2,
        (update E self fuel tr).2.2],
      pinOutput false h = false ∧
      ∃ ev, h = tr ++ ev ∧
        (∀ a b, ev = a ++ Event.write true :: b →
          ∃ x c, b = Event.mode true :: Event.sent x :: Event.write false ::
            Event.mode false :: c) ∧
        ∃ k, ev.filter Event.isPin = (List.replicate k pinCycle).flatten := by
  have key : ∀ h ev, h = tr ++ ev → Drives self ev →
      pinOutput false h = false ∧
      ∃ ev, h = tr ++ ev ∧
        (∀ a b, ev = a ++ Event.write true :: b →
          ∃ x c, b = Event.mode true :: Event.sent x :: Event.write false ::
            Event.mode false :: c) ∧
        ∃ k, ev.filter Event.isPin = (List.replicate k pinCycle).flatten := by
    intro h ev hh hD
    refine ⟨?_, ev, hh, split_drives hcb hD, filter_drives hD⟩
    rw [hh, pinOutput_append, hpin, pinOutput_drives hD]
  refine ⟨fun tr0 => ?_, ?_⟩
  · unfold begin
    rw [pinOutput_append]
    rfl
  · intro h hh
    simp only [List.mem_cons, List.mem_singleton, List.not_mem_nil, or_false] at hh
    rcases hh with hh | hh | hh
    · obtain ⟨ev, hev, hD, -⟩ := send_events E self data fuel tr
      exact key h ev (hh.trans hev) hD
    · obtain ⟨ev, hev, hD, hI, -⟩ := turnOff_events E self fuel tr
      exact key h _ (hh.trans hev) (drives_append (drives_inert self hI) hD)
    · obtain ⟨ev, hev, hD⟩ := update_events E self fuel tr
      exact key h ev (hh.trans hev) hD

/-- C14, after `begin`, for the message of the specification's scenario on a device that
acknowledges every byte: `send` returns `SUCCESS`, has touched the pin exactly by write
HIGH, switch to output, write LOW, switch to input, and leaves it in input mode. -/
theorem operations_release_pin_witness :
    defaults._sendFunction = true ∧ pinOutput false (begin []) = false ∧
    (send (scripted (ackScript 4)) defaults demoMessage 100 (begin [])).1 =
      some sendError.SUCCESS ∧
    (send (scripted (ackScript 4)) defaults demoMessage 100 (begin [])).2.2.filter Event.isPin =
      Event.mode false :: pinCycle ∧
    (∀ tr0, pinOutput false (begin tr0) = false) ∧
    ∀ h ∈ [(send (scripted (ackScript 4)) defaults demoMessage 100 (begin [])).2.2,
        (turnOff (scripted (ackScript 4)) defaults 100 (begin [])).2.2,
        (update (scripted (ackScript 4)) defaults 100 (begin [])).2.2],
      pinOutput false h = false ∧
      ∃ ev, h = begin [] ++ ev ∧
        (∀ a b, ev = a ++ Event.write true :: b →
          ∃ x c, b = Event.mode true :: Event.sent x :: Event.write false ::
            Event.mode false :: c) ∧
        ∃ k, ev.filter Event.isPin = (List.replicate k pinCycle).flatten :=
  ⟨rfl, rfl, by decide!, by decide!,
    operations_release_pin (scripted (ackScript 4)) defaults demoMessage 100 (begin []) rfl rfl⟩

/-! ## Claim about the pacing before an opcode frame -/

/-- On a monotonic clock, after the read of the clock and the pacing, at least
`MIN_MESSAGE_RATE_ms` have elapsed since any moment `T` not later than now of which
`message_rate_timer` is the reading. -/
theorem pacing_elapsed {E : Env} (hc : MonotonicClock E) (self : TLBLib) (h : List Event)
    (T : Nat) (hT : T ≤ E.millis h) (hm : self.message_rate_timer = T % 2 ^ E.ulongBits) :
    T + self.MIN_MESSAGE_RATE_ms ≤ E.millis (h ++ (Event.millis (millis E h).1 ::
      pacing self (usub E (millis E h).1 self.message_rate_timer))) := by
  have he : usub E (millis E h).1 self.message_rate_timer ≤ E.millis h - T := by
    rw [hm]; exact usub_le_sub E hT
  have h1 := hc.1 h (Event.millis (millis E h).1)
  unfold pacing
  split
  · have h2 := hc.2 (h ++ [Event.millis (millis E h).1])
      (self.MIN_MESSAGE_RATE_ms - usub E (millis E h).1 self.message_rate_timer)
    have e : h ++ [Event.millis (millis E h).1] ++
        [Event.delay (self.MIN_MESSAGE_RATE_ms - usub E (millis E h).1
          self.message_rate_timer)] =
        h ++ [Event.millis (millis E h).1, Event.delay (self.MIN_MESSAGE_RATE_ms -
          usub E (millis E h).1 self.message_rate_timer)] := by simp
    rw [e] at h2
    omega
  · simpa using (show T + self.MIN_MESSAGE_RATE_ms ≤ E.millis (h ++ [Event.millis (millis E h).1]) by omega)

/-- C15: `turnOff` reads the millisecond clock, computes the elapsed time `e` since
`message_rate_timer` as the unsigned difference, and before its first frame, which has the
turn-off opcode, calls `delay(MIN_MESSAGE_RATE_ms - e)` when `e < MIN_MESSAGE_RATE_ms` and
does not call `delay` otherwise; `update`, when the heartbeat is due, does the same with a
second read of the clock before its frame with the keep-alive opcode.  On a monotonic clock
on which `delay(n)` takes at least `n` milliseconds, when the frame is entered at least
`MIN_MESSAGE_RATE_ms` have elapsed since any moment `T` not later than the call of which
`message_rate_timer` is the reading. -/
theorem pacing_before_opcode (E : Env) (self : TLBLib) (fuel : Nat) (tr : List Event) :
    (∃ ev, (turnOff E self fuel tr).2.2 = tr ++ (Event.millis (millis E tr).1 ::
        (pacing self (usub E (millis E tr).1 self.message_rate_timer) ++ ev)) ∧
      (0 < fuel → ev.head? = some (Event.opcodeFrame 0xC0))) ∧
    (self.KEEP_ALIVE_RATE_ms ≤ usub E (millis E tr).1 self.keep_alive_timer →
      ∃ ev, (update E self fuel tr).2.2 = tr ++ (Event.millis (millis E tr).1 ::
          Event.millis (millis E (millis E tr).2).1 ::
          (pacing self (usub E (millis E (millis E tr).2).1 self.message_rate_timer) ++ ev)) ∧
        ev.head? = some (Event.opcodeFrame 0xC3)) ∧
    (∀ e, pacing self e =
      if e < self.MIN_MESSAGE_RATE_ms then [Event.delay (self.MIN_MESSAGE_RATE_ms - e)]
      else []) ∧
    (MonotonicClock E → ∀ T, T ≤ E.millis tr →
      self.message_rate_timer = T % 2 ^ E.ulongBits →
      T + self.MIN_MESSAGE_RATE_ms ≤ E.millis (tr ++ (Event.millis (millis E tr).1 ::
        pacing self (usub E (millis E tr).1 self.message_rate_timer))) ∧
      T + self.MIN_MESSAGE_RATE_ms ≤ E.millis (tr ++ (Event.millis (millis E tr).1 ::
        Event.millis (millis E (millis E tr).2).1 ::
        pacing self (usub E (millis E (millis E tr).2).1 self.message_rate_timer)))) := by
  refine ⟨?_, ?_, fun _ => rfl, ?_⟩
  · obtain ⟨ev, hev, -, -, hh⟩ := turnOff_events E self fuel tr
    exact ⟨ev, by rw [hev]; simp [turnOffHead], hh⟩
  · intro h
    obtain ⟨F, -, -, -, -, -, hk⟩ := keep_alive_due_cases E self fuel tr h
    have hka : ∃ rest, (keep_alive E self fuel tr).2.2 =
        tr ++ (keepAliveHead E self tr ++ Event.opcodeFrame KEEP_ALIVE_OPCODE :: rest) := by
      rcases hk with hk | hk
      · exact ⟨F, by rw [hk]⟩
      · exact ⟨F ++ [Event.millis (millis E (tr ++ (keepAliveHead E self tr ++
              Event.opcodeFrame KEEP_ALIVE_OPCODE :: F))).1,
            Event.millis (millis E (millis E (tr ++ (keepAliveHead E self tr ++
              Event.opcodeFrame KEEP_ALIVE_OPCODE :: F))).2).1], by rw [hk]; simp⟩
    obtain ⟨rest, hka⟩ := hka
    obtain ⟨chk, hupd, -⟩ := update_cases E self fuel tr _ hka
    exact ⟨Event.opcodeFrame KEEP_ALIVE_OPCODE :: (rest ++ chk),
      by rw [hupd]; simp [keepAliveHead], rfl⟩
  · intro hc T hT hm
    refine ⟨pacing_elapsed hc self tr T hT hm, ?_⟩
    have h1 := hc.1 tr (Event.millis (millis E tr).1)
    have := pacing_elapsed hc self (tr ++ [Event.millis (millis E tr).1]) T (by omega) hm
    simpa [millis] using this

/-- C15, with the default spacing of 5 ms: `turnOff` called at time 0 with
`message_rate_timer = 0` delays 5 ms before its first frame; `update` called at time 1000 with
`message_rate_timer = 998` delays 3 ms before the keep-alive frame, and with
`message_rate_timer = 0` it does not delay. -/
theorem pacing_before_opcode_witness :
    (turnOff (scripted []) defaults 3 []).2.2.take 3 =
      [Event.millis 0, Event.delay 5, Event.opcodeFrame 0xC0] ∧
    (update (scripted []) { defaults with message_rate_timer := 998 } 3
      [Event.delay 1000]).2.2.take 5 =
      [Event.delay 1000, Event.millis 1000, Event.millis 1000, Event.delay 3,
        Event.opcodeFrame 0xC3] ∧
    (update (scripted []) defaults 3 [Event.delay 1000]).2.2.take 4 =
      [Event.delay 1000, Event.millis 1000, Event.millis 1000, Event.opcodeFrame 0xC3] ∧
    0 + defaults.MIN_MESSAGE_RATE_ms ≤ (scripted []).millis ([] ++
      (Event.millis (millis (scripted []) []).1 ::
        pacing defaults (usub (scripted []) (millis (scripted []) []).1
          defaults.message_rate_timer))) := by
  obtain ⟨-, -, -, h⟩ := pacing_before_opcode (scripted []) defaults 3 []
  exact ⟨by decide!, by decide!, by decide!,
    (h (scripted_clock []) 0 (Nat.zero_le _) rfl).1⟩

/-! ## Termination of the loops -/

/-- Over `q` window polls the millisecond clock advances by at least `q / K`. -/
theorem millis_progress (E : Env) (S K : Nat) (hclk : AdvancingClocks E S K) :
    ∀ q h ev, (∀ e ∈ ev, e.isWindowPoll = true) → ev.length = q →
      E.millis h + q / K ≤ E.millis (h ++ ev) := by
  have hK : 0 < K := by
    rcases Nat.eq_zero_or_pos K with h0 | h0
    · have := hclk.2.2 [] [] (by simp) (by simp [h0])
      simp at this
    · exact h0
  intro q
  induction q using Nat.strong_induction_on with
  | _ q ih =>
    intro h ev hev hlen
    by_cases hq : q < K
    · rw [Nat.div_eq_of_lt hq, Nat.add_zero]
      clear ih hlen
      induction ev using List.reverseRecOn with
      | nil => simp
      | append_singleton l a ihl =>
        have h1 := ihl (fun e he => hev e (List.mem_append_left _ he))
        have h2 := (hclk.2.1 (h ++ l) a (hev a (by simp))).1
        rw [← List.append_assoc]
        omega
    · have hsplit : ev = ev.take K ++ ev.drop K := (List.take_append_drop K ev).symm
      have h1 := hclk.2.2 h (ev.take K)
        (fun e he => hev e (List.mem_of_mem_take he))
        (by rw [List.length_take]; omega)
      have h2 := ih (q - K) (by omega) (h ++ ev.take K) (ev.drop K)
        (fun e he => hev e (List.mem_of_mem_drop he))
        (by rw [List.length_drop]; omega)
      rw [List.append_assoc, ← hsplit] at h2
      have h3 : q / K = (q - K) / K + 1 := by
        rw [Nat.div_eq q K, if_pos ⟨hK, by omega⟩]
      omega

/-- The repeat window of `send` returns on advancing clocks and a line whose pulses end. -/
theorem send_repeat_loop_returns (E : Env) (self : TLBLib) (S K B : Nat)
    (hclk : AdvancingClocks E S K) (hline : PulsesEnd E B)
    (hR : self.RPT_TIMEOUT_ms + 2 * S < 2 ^ E.ulongBits) (base : List Event) (fuel : Nat) :
    ∀ ev, (∀ e ∈ ev, e.isWindowPoll = true) →
      E.millis (base ++ ev) ≤ E.millis base + self.RPT_TIMEOUT_ms + 2 * S →
      K * self.RPT_TIMEOUT_ms + B + 2 ≤ fuel + ev.length → B + 2 ≤ fuel →
      (send_repeat_loop E self (E.millis base % 2 ^ E.ulongBits) fuel (base ++ ev)).1 ≠
        none := by
  have hK : 0 < K := by
    rcases Nat.eq_zero_or_pos K with h0 | h0
    · have := hclk.2.2 [] [] (by simp) (by simp [h0])
      simp at this
    · exact h0
  induction fuel with
  | zero => intro ev _ _ _ h; omega
  | succ n ih =>
    intro ev hev hup hfq hfB
    have hprog := millis_progress E S K hclk ev.length base ev hev rfl
    have h0 : E.millis base ≤ E.millis (base ++ ev) :=
      Nat.le_trans (Nat.le_add_right _ _) hprog
    unfold send_repeat_loop
    have hu : usub E (millis E (base ++ ev)).1 (E.millis base % 2 ^ E.ulongBits) =
        E.millis (base ++ ev) - E.millis base := by
      simp only [millis]
      rw [usub_mod E h0]
      exact Nat.mod_eq_of_lt (by omega)
    rw [hu]
    by_cases h1 : E.millis (base ++ ev) - E.millis base < self.RPT_TIMEOUT_ms
    · rw [if_pos h1]
      have hq : ev.length < K * self.RPT_TIMEOUT_ms := by
        have : ev.length / K < self.RPT_TIMEOUT_ms := by omega
        rw [Nat.mul_comm]
        exact (Nat.div_lt_iff_lt_mul hK).1 this
      by_cases h2 : (digitalRead E (millis E (base ++ ev)).2).1 = true
      · rw [if_pos h2]
        have hw := wait_while_high_returns E B hline n
          (digitalRead E (millis E (base ++ ev)).2).2 (by omega)
        revert hw
        cases wait_while_high E n (digitalRead E (millis E (base ++ ev)).2).2 with
        | mk r tr1 =>
          cases r with
          | none => intro hw; exact absurd rfl hw
          | some u => intro _; simp [exit_send]
      · rw [if_neg h2]
        have h2' : (digitalRead E (millis E (base ++ ev)).2).1 = false := by simpa using h2
        have e : (digitalRead E (millis E (base ++ ev)).2).2 =
            base ++ (ev ++ [Event.millis (millis E (base ++ ev)).1, Event.read false]) := by
          simp only [digitalRead] at h2' ⊢
          rw [h2']
          simp [millis]
        rw [e]
        have c1 := (hclk.2.1 (base ++ ev) (Event.millis (millis E (base ++ ev)).1) rfl).2
        have c2 := (hclk.2.1 (base ++ ev ++ [Event.millis (millis E (base ++ ev)).1])
          (Event.read false) rfl).2
        have e2 : base ++ ev ++ [Event.millis (millis E (base ++ ev)).1] ++ [Event.read false] =
            base ++ (ev ++ [Event.millis (millis E (base ++ ev)).1, Event.read false]) := by
          simp
        rw [e2] at c2
        refine ih _ ?_ (by omega) (by simp; omega) (by omega)
        intro x hx
        rcases List.mem_append.1 hx with hx | hx
        · exact hev x hx
        · simp only [List.mem_cons, List.mem_singleton, List.not_mem_nil, or_false] at hx
          rcases hx with hx | hx <;> rw [hx] <;> rfl
    · rw [if_neg h1]
      simp [exit_send]

/-- The window of `turnOff` returns on advancing clocks and a line whose pulses end. -/
theorem turnOff_window_returns (E : Env) (self : TLBLib) (S K B : Nat)
    (hclk : AdvancingClocks E S K) (hline : PulsesEnd E B)
    (hR : self.RPT_TIMEOUT_ms + 2 * S < 2 ^ E.ulongBits) (base : List Event) (fuel : Nat) :
    ∀ ev, (∀ e ∈ ev, e.isWindowPoll = true) →
      E.millis (base ++ ev) ≤ E.millis base + self.RPT_TIMEOUT_ms + 2 * S →
      K * self.RPT_TIMEOUT_ms + B + 2 ≤ fuel + ev.length → B + 2 ≤ fuel →
      (turnOff_window E self (E.millis base % 2 ^ E.ulongBits) fuel (base ++ ev)).1 ≠
        none := by
  have hK : 0 < K := by
    rcases Nat.eq_zero_or_pos K with h0 | h0
    · have := hclk.2.2 [] [] (by simp) (by simp [h0])
      simp at this
    · exact h0
  induction fuel with
  | zero => intro ev _ _ _ h; omega
  | succ n ih =>
    intro ev hev hup hfq hfB
    have hprog := millis_progress E S K hclk ev.length base ev hev rfl
    have h0 : E.millis base ≤ E.millis (base ++ ev) :=
      Nat.le_trans (Nat.le_add_right _ _) hprog
    unfold turnOff_window
    have hu : usub E (millis E (base ++ ev)).1 (E.millis base % 2 ^ E.ulongBits) =
        E.millis (base ++ ev) - E.millis base := by
      simp only [millis]
      rw [usub_mod E h0]
      exact Nat.mod_eq_of_lt (by omega)
    rw [hu]
    by_cases h1 : E.millis (base ++ ev) - E.millis base < self.RPT_TIMEOUT_ms
    · rw [if_pos h1]
      have hq : ev.length < K * self.RPT_TIMEOUT_ms := by
        have : ev.length / K < self.RPT_TIMEOUT_ms := by omega
        rw [Nat.mul_comm]
        exact (Nat.div_lt_iff_lt_mul hK).1 this
      by_cases h2 : (digitalRead E (millis E (base ++ ev)).2).1 = true
      · rw [if_pos h2]
        have hw := wait_while_high_returns E B hline n
          (digitalRead E (millis E (base ++ ev)).2).2 (by omega)
        revert hw
        cases wait_while_high E n (digitalRead E (millis E (base ++ ev)).2).2 with
        | mk r tr1 =>
          cases r with
          | none => intro hw; exact absurd rfl hw
          | some u => intro _; simp
      · rw [if_neg h2]
        have h2' : (digitalRead E (millis E (base ++ ev)).2).1 = false := by simpa using h2
        have e : (digitalRead E (millis E (base ++ ev)).2).2 =
            base ++ (ev ++ [Event.millis (millis E (base ++ ev)).1, Event.read false]) := by
          simp only [digitalRead] at h2' ⊢
          rw [h2']
          simp [millis]
        rw [e]
        have c1 := (hclk.2.1 (base ++ ev) (Event.millis (millis E (base ++ ev)).1) rfl).2
        have c2 := (hclk.2.1 (base ++ ev ++ [Event.millis (millis E (base ++ ev)).1])
          (Event.read false) rfl).2
        have e2 : base ++ ev ++ [Event.millis (millis E (base ++ ev)).1] ++ [Event.read false] =
            base ++ (ev ++ [Event.millis (millis E (base ++ ev)).1, Event.read false]) := by
          simp
        rw [e2] at c2
        refine ih _ ?_ (by omega) (by simp; omega) (by omega)
        intro x hx
        rcases List.mem_append.1 hx with hx | hx
        · exact hev x hx
        · simp only [List.mem_cons, List.mem_singleton, List.not_mem_nil, or_false] at hx
          rcases hx with hx | hx <;> rw [hx] <;> rfl
    · rw [if_neg h1]
      simp

/-! ## Termination of the operations -/

theorem exit_send_returns (E : Env) (self : TLBLib) (r : sendError) (tr : List Event) :
    (exit_send E self r tr).1 ≠ none := by
  simp [exit_send]

/-- A window opened right after the read of the clock that starts it. -/
theorem window_start (E : Env) (self : TLBLib) (S K B : Nat) (hclk : AdvancingClocks E S K)
    (fuel : Nat) (tr : List Event) (hf : K * self.RPT_TIMEOUT_ms + B + 2 ≤ fuel) :
    (millis E tr).2 = tr ++ [Event.millis (millis E tr).1] ∧
    (millis E tr).1 = E.millis tr % 2 ^ E.ulongBits ∧
    (∀ e ∈ [Event.millis (millis E tr).1], e.isWindowPoll = true) ∧
    E.millis (tr ++ [Event.millis (millis E tr).1]) ≤
      E.millis tr + self.RPT_TIMEOUT_ms + 2 * S ∧
    K * self.RPT_TIMEOUT_ms + B + 2 ≤ fuel + [Event.millis (millis E tr).1].length ∧
    B + 2 ≤ fuel := by
  have c := (hclk.2.1 tr (Event.millis (millis E tr).1) rfl).2
  refine ⟨rfl, rfl, ?_, by omega, by simp; omega, by omega⟩
  intro e he
  rw [List.mem_singleton.1 he]
  rfl

theorem send_finish_returns (E : Env) (self : TLBLib) (S K B : Nat)
    (hclk : AdvancingClocks E S K) (hline : PulsesEnd E B) (hfit : TimeoutsFit E self S)
    (c fuel : Nat) (tr : List Event) (hf1 : self.ACK_TIMEOUT_us < fuel)
    (hf2 : K * self.RPT_TIMEOUT_ms + B + 2 ≤ fuel) :
    (send_finish E self c fuel tr).1 ≠ none := by
  unfold send_finish
  have w1 := wait_ENA_returns E false self.ACK_TIMEOUT_us S fuel
    (send_byte self ((c + 255) % 256) none tr).2 hclk.1 hfit.1 hf1
  revert w1
  cases wait_ENA E false self.ACK_TIMEOUT_us fuel
      (send_byte self ((c + 255) % 256) none tr).2 with
  | mk r tr1 =>
    cases r with
    | none => intro w1; exact absurd rfl w1
    | some b =>
      intro _
      cases b with
      | false => exact exit_send_returns _ _ _ _
      | true =>
        simp only []
        obtain ⟨e1, e2, h1, h2, h3, h4⟩ := window_start E self S K B hclk fuel tr1 hf2
        rw [e1, e2]
        exact send_repeat_loop_returns E self S K B hclk hline hfit.2.2 tr1 fuel _ h1 h2 h3 h4

theorem send_loop_returns (E : Env) (self : TLBLib) (S K B M : Nat)
    (hclk : AdvancingClocks E S K) (hline : PulsesEnd E B) (hfit : TimeoutsFit E self S)
    (hM1 : self.ACK_TIMEOUT_us < M) (hM2 : self.REQ_TIMEOUT_us < M)
    (hM3 : K * self.RPT_TIMEOUT_ms + B + 2 ≤ M) (data : List Nat) {n : Nat} (hn : n ≤ 255)
    (fuel : Nat) : ∀ i c tr, i ≤ n → M + (n - i) + 1 ≤ fuel →
    (send_loop E self data n fuel i c tr).1 ≠ none := by
  induction fuel with
  | zero => intro i c tr _ h; omega
  | succ m ih =>
    intro i c tr hi hf
    unfold send_loop
    by_cases hlt : i < n
    · rw [if_pos hlt, send_loop_byte self data hn i c tr]
      simp only []
      generalize (tr ++ ((if i = 0 then [] else [Event.load (i + 1)]) ++
        Event.crcAbsorb (loopByte data n i) ::
          (if self._sendFunction then [Event.sent (0xFF ^^^ loopByte data n i)] else []))) = tr0
      have w1 := wait_ENA_returns E false self.ACK_TIMEOUT_us S m tr0 hclk.1 hfit.1 (by omega)
      revert w1
      cases wait_ENA E false self.ACK_TIMEOUT_us m tr0 with
      | mk r tr1 =>
        cases r with
        | none => intro w1; exact absurd rfl w1
        | some b =>
          intro _
          cases b with
          | false => exact exit_send_returns _ _ _ _
          | true =>
            simp only []
            have w2 := wait_ENA_returns E true self.REQ_TIMEOUT_us S m tr1 hclk.1 hfit.2.1
              (by omega)
            revert w2
            cases wait_ENA E true self.REQ_TIMEOUT_us m tr1 with
            | mk r2 tr2 =>
              cases r2 with
              | none => intro w2; exact absurd rfl w2
              | some b2 =>
                intro _
                cases b2 with
                | false => exact exit_send_returns _ _ _ _
                | true =>
                  simp only []
                  have hi1 : (i + 1) % 256 = i + 1 := Nat.mod_eq_of_lt (by omega)
                  rw [hi1]
                  exact ih _ _ _ (by omega) (by omega)
    · rw [if_neg hlt]
      exact send_finish_returns E self S K B hclk hline hfit c m tr (by omega) (by omega)

theorem send_returns (E : Env) (self : TLBLib) (S K B M : Nat)
    (hclk : AdvancingClocks E S K) (hline : PulsesEnd E B) (hfit : TimeoutsFit E self S)
    (hM1 : self.ACK_TIMEOUT_us < M) (hM2 : self.REQ_TIMEOUT_us < M)
    (hM3 : K * self.RPT_TIMEOUT_ms + B + 2 ≤ M) (data : List Nat) (fuel : Nat)
    (tr : List Event) (hf : M + 257 ≤ fuel) :
    (send E self data fuel tr).1 ≠ none := by
  unfold send
  have w1 := send_opcode_returns E self S hclk.1 hfit.1 (readByte data 0) fuel
    (tr ++ [Event.load 0]) (by omega)
  revert w1
  cases send_opcode E self (readByte data 0) fuel (tr ++ [Event.load 0]) with
  | mk r tr1 =>
    cases r with
    | none => intro w1; exact absurd rfl w1
    | some b =>
      intro _
      cases b with
      | false => exact exit_send_returns _ _ _ _
      | true =>
        simp only []
        have w2 := wait_ENA_returns E true self.REQ_TIMEOUT_us S fuel tr1 hclk.1 hfit.2.1
          (by omega)
        revert w2
        cases wait_ENA E true self.REQ_TIMEOUT_us fuel tr1 with
        | mk r2 tr2 =>
          cases r2 with
          | none => intro w2; exact absurd rfl w2
          | some b2 =>
            intro _
            cases b2 with
            | false => exact exit_send_returns _ _ _ _
            | true =>
              simp only []
              have hn : (readByte data 1 + 1) % 256 ≤ 255 := by omega
              exact send_loop_returns E self S K B M hclk hline hfit hM1 hM2 hM3 data hn fuel
                0 _ _ (Nat.zero_le _) (by omega)

theorem turnOff_loop_returns (E : Env) (self : TLBLib) (S K B M : Nat)
    (hclk : AdvancingClocks E S K) (hline : PulsesEnd E B) (hfit : TimeoutsFit E self S)
    (hM1 : self.ACK_TIMEOUT_us < M) (hM3 : K * self.RPT_TIMEOUT_ms + B + 2 ≤ M)
    (fuel : Nat) : ∀ c tr, c ≤ 10 → M + (11 - c) ≤ fuel →
    (turnOff_loop E self fuel c tr).1 ≠ none := by
  induction fuel with
  | zero => intro c tr _ h; omega
  | succ n ih =>
    intro c tr hc hf
    unfold turnOff_loop
    have w1 := send_opcode_returns E self S hclk.1 hfit.1 TURN_OFF_OPCODE n tr (by omega)
    revert w1
    cases send_opcode E self TURN_OFF_OPCODE n tr with
    | mk r tr1 =>
      cases r with
      | none => intro w1; exact absurd rfl w1
      | some b =>
        intro _
        simp only []
        by_cases h10 : c ≥ 10
        · rw [if_pos h10]; simp
        · rw [if_neg h10]
          obtain ⟨e1, e2, h1, h2, h3, h4⟩ :=
            window_start E self S K B hclk n tr1 (by omega)
          have w2 := turnOff_window_returns E self S K B hclk hline hfit.2.2 tr1 n _ h1 h2 h3 h4
          rw [← e1, ← e2] at w2
          revert w2
          cases turnOff_window E self (millis E tr1).1 n (millis E tr1).2 with
          | mk r2 rest =>
            cases rest with
            | mk self2 tr2 =>
              cases r2 with
              | none => intro w2; exact absurd rfl w2
              | some b2 =>
                intro _
                cases b2 with
                | true => simp
                | false =>
                  simp only []
                  have hc1 : (c + 1) % 256 = c + 1 := Nat.mod_eq_of_lt (by omega)
                  rw [hc1]
                  exact ih _ _ (by omega) (by omega)

theorem turnOff_returns (E : Env) (self : TLBLib) (S K B M : Nat)
    (hclk : AdvancingClocks E S K) (hline : PulsesEnd E B) (hfit : TimeoutsFit E self S)
    (hM1 : self.ACK_TIMEOUT_us < M) (hM3 : K * self.RPT_TIMEOUT_ms + B + 2 ≤ M)
    (fuel : Nat) (tr : List Event) (hf : M + 11 ≤ fuel) :
    (turnOff E self fuel tr).1 ≠ none := by
  unfold turnOff
  exact turnOff_loop_returns E self S K B M hclk hline hfit hM1 hM3 fuel 0 _ (by omega)
    (by omega)

theorem update_returns (E : Env) (self : TLBLib) (S K B : Nat)
    (hclk : AdvancingClocks E S K) (hline : PulsesEnd E B) (hfit : TimeoutsFit E self S)
    (fuel : Nat) (tr : List Event) (hf1 : self.ACK_TIMEOUT_us < fuel) (hf2 : B < fuel) :
    (update E self fuel tr).1 ≠ none := by
  have hka := keep_alive_returns E self S hclk.1 hfit.1 fuel tr hf1
  unfold update
  revert hka
  cases keep_alive E self fuel tr with
  | mk r rest =>
    cases rest with
    | mk self1 tr1 =>
      cases r with
      | none => intro hka; cases hka
      | some u =>
        intro _
        simp only []
        unfold check_error_pulse
        split
        · have w := wait_while_high_returns E B hline fuel
            (millis E (digitalRead E tr1).2).2 hf2
          revert w
          cases wait_while_high E fuel (millis E (digitalRead E tr1).2).2 with
          | mk r2 tr2 =>
            cases r2 with
            | none => intro w; exact absurd rfl w
            | some u2 => intro _; simp
        · simp

/-! ## Claim about termination -/

/-- On a line that is high at every sample, `while (digitalRead(_ENA_pin));` is out of fuel
for every fuel. -/
theorem wait_while_high_stuck (E : Env) (hline : ∀ tr, E.digitalRead tr = true) (fuel : Nat) :
    ∀ tr, (wait_while_high E fuel tr).1 = none := by
  induction fuel with
  | zero => intro tr; rfl
  | succ n ih =>
    intro tr
    unfold wait_while_high
    have h : (digitalRead E tr).1 = true := hline tr
    rw [if_pos h]
    exact ih _

/-- On a line that is high at every sample, whatever the clocks do, `update` does not
return, for any fuel: after `keep_alive` the error check samples the line high and enters
`while (digitalRead(_ENA_pin));`. -/
theorem update_hangs_on_stuck_line (E : Env) (hline : ∀ tr, E.digitalRead tr = true)
    (self : TLBLib) (fuel : Nat) (tr : List Event) :
    (update E self fuel tr).1 = none := by
  unfold update
  cases hres : keep_alive E self fuel tr with
  | mk r rest =>
    cases rest with
    | mk self1 tr1 =>
      cases r with
      | none => rfl
      | some u =>
        simp only []
        unfold check_error_pulse
        have h : (digitalRead E tr1).1 = true := hline tr1
        rw [if_pos h]
        have hw := wait_while_high_stuck E hline fuel (millis E (digitalRead E tr1).2).2
        cases hres2 : wait_while_high E fuel (millis E (digitalRead E tr1).2).2 with
        | mk r2 tr2 =>
          rw [hres2] at hw
          simp only [] at hw
          subst hw
          rfl

theorem usElapsed_windowPolls (ev : List Event) (h : ∀ e ∈ ev, e.isWindowPoll = true) :
    usElapsed ev = 100 * ev.length := by
  induction ev with
  | nil => rfl
  | cons e ev ih =>
    have he := h e (List.mem_cons_self _ _)
    have := ih (fun x hx => h x (List.mem_cons_of_mem _ hx))
    cases e <;> simp [Event.isWindowPoll, usElapsed] at he ⊢ <;> omega

/-- The clocks of the simulated platforms keep advancing: by 100 microseconds with every
poll, so by 1 millisecond with every 10 window polls. -/
theorem advancing_of_usElapsed (E : Env) (h1 : E.micros = usElapsed)
    (h2 : E.millis = fun tr => usElapsed tr / 1000) : AdvancingClocks E 100 10 := by
  refine ⟨?_, ?_, ?_⟩
  · intro h e he
    rw [h1]
    simp only [usElapsed_append]
    cases e <;> simp [Event.isPoll, usElapsed] at he ⊢
  · intro h e he
    rw [h2]
    simp only [usElapsed_append]
    have := usElapsed_windowPolls [e] (by simpa using he)
    simp only [List.length_singleton] at this
    omega
  · intro h ev hev hlen
    rw [h2]
    simp only [usElapsed_append]
    have := usElapsed_windowPolls ev hev
    rw [hlen] at this
    omega

theorem samples_append (a b : List Event) : samples (a ++ b) = samples a + samples b := by
  induction a with
  | nil => simp [samples]
  | cons e a ih =>
    cases e <;> simp [samples, ih]
    omega

theorem samples_replicate (k : Nat) (v : Bool) :
    samples (List.replicate k (Event.read v)) = k := by
  induction k with
  | zero => rfl
  | succ k ih => simp [List.replicate_succ, samples, ih]; omega

/-- On the scripted platform every pulse ends when the script is used up. -/
theorem scripted_pulses_end (script : List Bool) : PulsesEnd (scripted script) script.length := by
  intro h
  refine ⟨script.length, Nat.le_refl _, ?_⟩
  simp only [scripted, samples_append, samples_replicate]
  rw [List.getD_eq_getElem?_getD, List.getElem?_eq_none (by omega)]
  rfl

/-- C13 fails on a line that stays high forever, with clocks that keep advancing (by 100
microseconds with every poll): `update` with the default constants is out of fuel whatever
the fuel, that is, it does not terminate. -/
theorem update_never_returns_on_stuck_line :
    (∀ tr, stuckHigh.digitalRead tr = true) ∧ AdvancingClocks stuckHigh 100 10 ∧
    TimeoutsFit stuckHigh defaults 100 ∧
    (update stuckHigh defaults 1000 []).1 = none ∧
    ∀ fuel, (update stuckHigh defaults fuel []).1 = none :=
  ⟨fun _ => rfl, advancing_of_usElapsed stuckHigh rfl rfl, by unfold TimeoutsFit; decide,
    update_hangs_on_stuck_line stuckHigh (fun _ => rfl) defaults 1000 [],
    fun fuel => update_hangs_on_stuck_line stuckHigh (fun _ => rfl) defaults fuel []⟩

/-- C13, amended: on a line on which every pulse ends (after at most `B` further high
samples in a row the line is sampled low), with clocks that keep advancing (every poll
advances the microsecond clock, by at most `S`; the millisecond clock advances with every
`K` window polls, by at most `S` per poll) and timeouts that stay clear of the wrap of the
clocks, `send`, `turnOff` and `update` terminate: with fuel
`ACK_TIMEOUT_us + REQ_TIMEOUT_us + K * RPT_TIMEOUT_ms + B + 260` or more none of them is out
of fuel; and every `wait_ENA` is bounded by its timeout: it returns with a fuel above the
timeout, whatever the line does. -/
theorem operations_terminate (E : Env) (self : TLBLib) (data : List Nat) (fuel : Nat)
    (tr : List Event) (S K B : Nat) (hclk : AdvancingClocks E S K) (hline : PulsesEnd E B)
    (hfit : TimeoutsFit E self S)
    (hf : self.ACK_TIMEOUT_us + self.REQ_TIMEOUT_us + K * self.RPT_TIMEOUT_ms + B + 260 ≤
      fuel) :
    (send E self data fuel tr).1 ≠ none ∧ (turnOff E self fuel tr).1 ≠ none ∧
    (update E self fuel tr).1 ≠ none ∧
    ∀ state timeout h, timeout + 2 * S < 2 ^ E.ulongBits → timeout < fuel →
      (wait_ENA E state timeout fuel h).1 ≠ none := by
  refine ⟨?_, ?_, ?_, fun state timeout h hS hlt =>
    wait_ENA_returns E state timeout S fuel h hclk.1 hS hlt⟩
  · exact send_returns E self S K B
      (self.ACK_TIMEOUT_us + self.REQ_TIMEOUT_us + K * self.RPT_TIMEOUT_ms + B + 3)
      hclk hline hfit (by omega) (by omega) (by omega) data fuel tr (by omega)
  · exact turnOff_returns E self S K B
      (self.ACK_TIMEOUT_us + self.REQ_TIMEOUT_us + K * self.RPT_TIMEOUT_ms + B + 3)
      hclk hline hfit (by omega) (by omega) fuel tr (by omega)
  · exact update_returns E self S K B hclk hline hfit fuel tr (by omega) (by omega)

/-- C13 amended, on the device of the specification's scenario, which acknowledges every
byte and whose line is low once its ten scripted samples are used up: with the default
constants a fuel of 730 is enough for `send`, `turnOff` and `update`; `send` returns
`SUCCESS`. -/
theorem operations_terminate_witness :
    AdvancingClocks (scripted (ackScript 4)) 100 10 ∧
    PulsesEnd (scripted (ackScript 4)) 10 ∧
    TimeoutsFit (scripted (ackScript 4)) defaults 100 ∧
    defaults.ACK_TIMEOUT_us + defaults.REQ_TIMEOUT_us + 10 * defaults.RPT_TIMEOUT_ms + 10 +
      260 ≤ 730 ∧
    (send (scripted (ackScript 4)) defaults demoMessage 730 []).1 ≠ none ∧
    (turnOff (scripted (ackScript 4)) defaults 730 []).1 ≠ none ∧
    (update (scripted (ackScript 4)) defaults 730 []).1 ≠ none ∧
    (∀ state timeout h, timeout + 2 * 100 < 2 ^ (scripted (ackScript 4)).ulongBits →
      timeout < 730 → (wait_ENA (scripted (ackScript 4)) state timeout 730 h).1 ≠ none) ∧
    (send (scripted (ackScript 4)) defaults demoMessage 730 []).1 = some sendError.SUCCESS ∧
    (update (scripted (ackScript 4)) defaults 730 []).1 = some () := by
  refine ⟨advancing_of_usElapsed _ rfl rfl, scripted_pulses_end (ackScript 4),
    by unfold TimeoutsFit; decide, by decide, ?_⟩
  obtain ⟨h1, h2, h3, h4⟩ :=
    operations_terminate (scripted (ackScript 4)) defaults demoMessage 730 [] 100 10 10
      (advancing_of_usElapsed _ rfl rfl) (scripted_pulses_end (ackScript 4))
      (by unfold TimeoutsFit; decide) (by decide)
  exact ⟨h1, h2, h3, h4, by decide!, by decide!⟩

end TLB
